import Mathlib

/-!
Grid path search: A* and Anytime Repairing A*

A shallow embedding of the path search of `src/main.cpp`: `coord_to_idx`,
`reconstruct_path`, `find_path_a_star`, `find_path_ara_star`, and the campaign driver
`draw_nav_ara_data` with the reset block it shares with `main`.

Modelling conventions.

* `int` coordinates are `Int`, `size_t` sizes are `Nat`; grid dimensions are taken to
  fit in an `int`, so that `int(width)` is value preserving.
* `coord_to_idx` is kept as the integer `y * w + x`.  Where it is negative the `size_t`
  arithmetic of the source wraps to an index beyond every buffer, so an access at a
  negative index is an access outside the buffer.
* A `std::vector` / buffer is a `List`; reading or writing outside it is the outcome
  `fault`.  Every `while` loop takes fuel and yields `timeout` when it runs out.
* `float` scores are read as exact real numbers.  A g-score is `none`
  (`numeric_limits<float>::max()`, which absorbs additions and is above every finite
  score) or `some n`.  A heuristic value is the real `sqrt d` for a natural `d`, kept as
  `d`; an f-score `g + epsilon * sqrt d` is kept as the pair `(g, d)` and two of them
  are compared exactly (`fLt`).  This reading leaves two effects of `float` out: two
  scores whose exact values differ can round to the same `float`, so that the scan can
  keep another member than the exact minimum; and for an epsilon so large that
  `epsilon * heuristic` reaches the float maximum the sum overflows above
  `numeric_limits<float>::max()`.  The statement about the scan therefore leaves the
  comparison abstract, and the statements about empty results of `find_path_ara_star`
  take epsilons between 0 and 5, the range of the driver.
* The driver variable `eps` is a rational; the values it takes (5 minus multiples of
  1/2) are exact in `float`.
* Drawing calls (`DrawPixel`) are left out.
-/

namespace PathSearch

/-! ## Data model -/

/-- A grid cell, `Position{x, y}`. -/
structure Position where
  x : Int
  y : Int
deriving DecidableEq

/-- The value `Position{-1, -1}` that marks "no predecessor". -/
def sentinel : Position := ⟨-1, -1⟩

/-- Result of running a piece of the program. -/
inductive Outcome (α : Type) where
  | done : α → Outcome α
  | fault : Outcome α
  | timeout : Outcome α
deriving DecidableEq

namespace Outcome

/-- Sequencing: a fault or a timeout stops the run. -/
def bind {α β : Type} (m : Outcome α) (k : α → Outcome β) : Outcome β :=
  match m with
  | done a => k a
  | fault => fault
  | timeout => timeout

instance : Monad Outcome where
  pure := done
  bind := bind

end Outcome

open Outcome

/-- Row-major index `size_t(y) * w + size_t(x)`, as an integer (negative: wrapped, out of
every buffer). -/
def coord_to_idx (x y : Int) (w : Nat) : Int := y * w + x

/-- Read `v[i]`. -/
def vget {α : Type} (v : List α) (i : Int) : Outcome α :=
  if 0 ≤ i then
    match v[i.toNat]? with
    | some a => done a
    | none => fault
  else fault

/-- Write `v[i] = a`. -/
def vset {α : Type} (v : List α) (i : Int) (a : α) : Outcome (List α) :=
  if 0 ≤ i ∧ i.toNat < v.length then done (v.set i.toNat a) else fault

/-- The bounds test `p.x < 0 || p.y < 0 || p.x >= int(width) || p.y >= int(height)`. -/
def outOfBounds (width height : Nat) (p : Position) : Prop :=
  p.x < 0 ∨ p.y < 0 ∨ p.x ≥ (width : Int) ∨ p.y ≥ (height : Int)

instance (width height : Nat) (p : Position) : Decidable (outOfBounds width height p) :=
  inferInstanceAs
    (Decidable (p.x < 0 ∨ p.y < 0 ∨ p.x ≥ (width : Int) ∨ p.y ≥ (height : Int)))

/-- A g-score: `none` is `numeric_limits<float>::max()`. -/
abbrev GScore := Option Nat

/-- An f-score `g + epsilon * sqrt d`, kept as `(g, d)`; `none` is the float maximum. -/
abbrev FScore := Option (Nat × Nat)

/-- Float addition `g + weight` on g-scores. -/
def gAdd (g : GScore) (w : Nat) : GScore := g.map (· + w)

/-- Float comparison `a < b` on g-scores. -/
def gLt : GScore → GScore → Bool
  | some a, some b => decide (a < b)
  | some _, none => true
  | none, _ => false

/-- The lambda `heuristic`: `sqrtf(square(dx) + square(dy))`, kept as its radicand. -/
def heuristic (lhs rhs : Position) : Nat :=
  ((lhs.x - rhs.x) * (lhs.x - rhs.x) + (lhs.y - rhs.y) * (lhs.y - rhs.y)).toNat

/-- Float addition `g + epsilon * h` of a g-score and a weighted heuristic. -/
def fAdd (g : GScore) (h : Nat) : FScore := g.map (fun n => (n, h))

/-- Exact test `sqrt n - sqrt m < c` for naturals `n`, `m` and an integer `c`. -/
def sqrtSubLt (n m : Nat) (c : Int) : Bool :=
  if 0 ≤ c then
    let t : Int := n - m - c * c
    if t < 0 then true else decide (t * t < 4 * c * c * m)
  else
    let s : Int := m - n - c * c
    if s ≤ 0 then false else decide (4 * c * c * n < s * s)

/-- Exact float comparison `a < b` of two f-scores taken with the same `epsilon`:
`g₁ + epsilon * sqrt d₁ < g₂ + epsilon * sqrt d₂`. -/
def fLt (epsilon : ℚ) : FScore → FScore → Bool
  | some (g₁, d₁), some (g₂, d₂) =>
    let c : Int := epsilon.den * ((g₂ : Int) - g₁)
    let k : Nat := epsilon.num.natAbs * epsilon.num.natAbs
    if 0 ≤ epsilon.num then sqrtSubLt (k * d₁) (k * d₂) c else sqrtSubLt (k * d₂) (k * d₁) c
  | some _, none => true
  | none, _ => false

/-! ## `reconstruct_path` -/

/-- The `while` loop of `reconstruct_path`; `res` is the vector built so far. -/
def reconstruct_loop (prev : List Position) (width : Nat) :
    Nat → Position → List Position → Outcome (List Position)
  | 0, _, _ => timeout
  | fuel + 1, curPos, res =>
    match vget prev (coord_to_idx curPos.x curPos.y width) with
    | done q => if q ≠ sentinel then reconstruct_loop prev width fuel q (q :: res) else done res
    | fault => fault
    | timeout => timeout

/-- The function `reconstruct_path(prev, to, width)`; the argument `to` is `goal`. -/
def reconstruct_path (fuel : Nat) (prev : List Position) (goal : Position) (width : Nat) :
    Outcome (List Position) :=
  reconstruct_loop prev width fuel goal [goal]

/-! ## Selection of the best open member -/

/-- The scan `for (i = 1; i < openList.size(); ++i)`: `rest` are the members from index
`i` on, `bestIdx` and `bestScore` the running minimum. -/
def scanBest (lt : FScore → FScore → Bool) (getF : Position → Outcome FScore) :
    List Position → Nat → Nat → FScore → Outcome Nat
  | [], _, bestIdx, _ => done bestIdx
  | p :: rest, i, bestIdx, bestScore =>
    match getF p with
    | done score =>
      if lt score bestScore then scanBest lt getF rest (i + 1) i score
      else scanBest lt getF rest (i + 1) bestIdx bestScore
    | fault => fault
    | timeout => timeout

/-- Index of the first open member with the least f-score (`bestIdx`). -/
def bestIndex (lt : FScore → FScore → Bool) (getF : Position → Outcome FScore)
    (openList : List Position) : Outcome Nat :=
  match openList with
  | [] => fault
  | p :: rest =>
    match getF p with
    | done score => scanBest lt getF rest 1 0 score
    | fault => fault
    | timeout => timeout

/-! ## `find_path_a_star` -/

/-- Local state of `find_path_a_star`. -/
structure AStarState where
  g : List GScore
  f : List FScore
  prev : List Position
  openList : List Position
  closedList : List Position

/-- The lambda `checkNeighbour` of `find_path_a_star`, run on neighbour `p` of `curPos`. -/
def a_star_checkNeighbour (input : List Char) (width height : Nat) (goal curPos : Position)
    (st : AStarState) (p : Position) : Outcome AStarState :=
  if outOfBounds width height p then done st
  else
    let idx := coord_to_idx p.x p.y width
    match vget input idx with
    | fault => fault
    | timeout => timeout
    | done c =>
      if c = '#' then done st
      else
        let weight : Nat := if c = 'o' then 10 else 1
        match vget st.g (coord_to_idx curPos.x curPos.y width), vget st.g idx with
        | done gcur, done gp =>
          let gScore := gAdd gcur weight
          let relaxed : Outcome AStarState :=
            if gLt gScore gp then
              match vset st.prev idx curPos, vset st.g idx gScore,
                vset st.f idx (fAdd gScore (heuristic p goal)) with
              | done prev1, done g1, done f1 => done { st with prev := prev1, g := g1, f := f1 }
              | _, _, _ => fault
            else done st
          match relaxed with
          | done st1 =>
            if p ∈ st1.openList then done st1
            else done { st1 with openList := st1.openList ++ [p] }
          | fault => fault
          | timeout => timeout
        | _, _ => fault

/-- The four calls `checkNeighbour({x+1,y}), ({x-1,y}), ({x,y+1}), ({x,y-1})`. -/
def a_star_expand (input : List Char) (width height : Nat) (goal curPos : Position)
    (st : AStarState) : Outcome AStarState :=
  (a_star_checkNeighbour input width height goal curPos st ⟨curPos.x + 1, curPos.y + 0⟩).bind
    fun st1 =>
  (a_star_checkNeighbour input width height goal curPos st1 ⟨curPos.x - 1, curPos.y + 0⟩).bind
    fun st2 =>
  (a_star_checkNeighbour input width height goal curPos st2 ⟨curPos.x + 0, curPos.y + 1⟩).bind
    fun st3 =>
  a_star_checkNeighbour input width height goal curPos st3 ⟨curPos.x + 0, curPos.y - 1⟩

/-- The main `while (!openList.empty())` loop of `find_path_a_star`.  `rfuel` is the fuel
handed to `reconstruct_path`. -/
def a_star_loop (input : List Char) (width height : Nat) (goal : Position) (rfuel : Nat) :
    Nat → AStarState → Outcome (List Position)
  | 0, _ => timeout
  | fuel + 1, st =>
    if st.openList = [] then done []
    else
      match bestIndex (fLt 1) (fun p => vget st.f (coord_to_idx p.x p.y width)) st.openList with
      | fault => fault
      | timeout => timeout
      | done bestIdx =>
        match vget st.openList bestIdx with
        | fault => fault
        | timeout => timeout
        | done curPos =>
          if curPos = goal then reconstruct_path rfuel st.prev goal width
          else
            let st1 := { st with openList := st.openList.eraseIdx bestIdx }
            if curPos ∈ st1.closedList then a_star_loop input width height goal rfuel fuel st1
            else
              let st2 := { st1 with closedList := st1.closedList ++ [curPos] }
              match a_star_expand input width height goal curPos st2 with
              | done st3 => a_star_loop input width height goal rfuel fuel st3
              | fault => fault
              | timeout => timeout

/-- The state built before the loop: `g`, `f` all at the float maximum, `prev` all the
sentinel, then `g[start] = 0`, `f[start] = heuristic(start, goal)`, `openList = {start}`. -/
def a_star_init (width height : Nat) (start goal : Position) : Outcome AStarState :=
  let inpSize := width * height
  let i := coord_to_idx start.x start.y width
  match vset (List.replicate inpSize (none : GScore)) i (some 0),
    vset (List.replicate inpSize (none : FScore)) i (fAdd (some 0) (heuristic start goal)) with
  | done g, done f =>
    done { g := g, f := f, prev := List.replicate inpSize sentinel,
           openList := [start], closedList := [] }
  | _, _ => fault

/-- The function `find_path_a_star(input, width, height, from, to)`; the arguments `from`
and `to` are `start` and `goal`. -/
def find_path_a_star (fuel : Nat) (input : List Char) (width height : Nat)
    (start goal : Position) : Outcome (List Position) :=
  if outOfBounds width height start then done []
  else
    match a_star_init width height start goal with
    | done st => a_star_loop input width height goal fuel fuel st
    | fault => fault
    | timeout => timeout

/-! ## `find_path_ara_star` -/

/-- The globals `gScoreAra`, `prevPath`, `openListAra`, `nextIter`, `currentPathOnDraw`
that persist between calls of `find_path_ara_star`. -/
structure AraState where
  gScoreAra : List GScore
  prevPath : List Position
  openListAra : List Position
  nextIter : List Position
  currentPathOnDraw : List Position
deriving DecidableEq

/-- The lambda `getF` of `find_path_ara_star`: `getG(p) + epsilon * heuristic(p, to)`. -/
def ara_getF (width : Nat) (goal : Position) (st : AraState) (p : Position) : Outcome FScore :=
  match vget st.gScoreAra (coord_to_idx p.x p.y width) with
  | done g => done (fAdd g (heuristic p goal))
  | fault => fault
  | timeout => timeout

/-- The lambda `checkNeighbour` of `find_path_ara_star`, run on neighbour `p` of `curPos`;
`closedList` is the local closed list. -/
def ara_checkNeighbour (input : List Char) (width height : Nat) (curPos : Position)
    (closedList : List Position) (st : AraState) (p : Position) : Outcome AraState :=
  if outOfBounds width height p then done st
  else
    let idx := coord_to_idx p.x p.y width
    match vget input idx with
    | fault => fault
    | timeout => timeout
    | done c =>
      if c = '#' then done st
      else
        let weight : Nat := if c = 'o' then 10 else 1
        match vget st.gScoreAra (coord_to_idx curPos.x curPos.y width), vget st.gScoreAra idx with
        | done gcur, done gp =>
          let gScore := gAdd gcur weight
          if gLt gScore gp then
            match vset st.prevPath idx curPos, vset st.gScoreAra idx gScore with
            | done prev1, done g1 =>
              let st1 := { st with prevPath := prev1, gScoreAra := g1 }
              if p ∈ closedList then
                if p ∈ st1.nextIter then done st1
                else done { st1 with nextIter := st1.nextIter ++ [p] }
              else
                if p ∈ st1.openListAra then done st1
                else done { st1 with openListAra := st1.openListAra ++ [p] }
            | _, _ => fault
          else done st
        | _, _ => fault

/-- The four calls `checkNeighbour({x+1,y}), ({x-1,y}), ({x,y+1}), ({x,y-1})`. -/
def ara_expand (input : List Char) (width height : Nat) (curPos : Position)
    (closedList : List Position) (st : AraState) : Outcome AraState :=
  (ara_checkNeighbour input width height curPos closedList st ⟨curPos.x + 1, curPos.y + 0⟩).bind
    fun st1 =>
  (ara_checkNeighbour input width height curPos closedList st1 ⟨curPos.x - 1, curPos.y + 0⟩).bind
    fun st2 =>
  (ara_checkNeighbour input width height curPos closedList st2 ⟨curPos.x + 0, curPos.y + 1⟩).bind
    fun st3 =>
  ara_checkNeighbour input width height curPos closedList st3 ⟨curPos.x + 0, curPos.y - 1⟩

/-- The `else` branch: every member of `nextIter` not yet in `openListAra` is appended to
it, then `nextIter` is cleared. -/
def ara_fold_next (st : AraState) : AraState :=
  { st with
    openListAra := st.nextIter.foldl (fun o q => if q ∈ o then o else o ++ [q]) st.openListAra,
    nextIter := [] }

/-- The `while (!openListAra.empty())` loop of `find_path_ara_star`.  It yields the
returned vector together with the globals on return; `rfuel` is the fuel handed to
`reconstruct_path`. -/
def ara_star_loop (input : List Char) (width height : Nat) (goal : Position) (epsilon : ℚ)
    (rfuel : Nat) : Nat → AraState → List Position → Outcome (List Position × AraState)
  | 0, _, _ => timeout
  | fuel + 1, st, closedList =>
    if st.openListAra = [] then done ([], st)
    else
      match bestIndex (fLt epsilon) (ara_getF width goal st) st.openListAra with
      | fault => fault
      | timeout => timeout
      | done bestIdx =>
        match vget st.openListAra bestIdx with
        | fault => fault
        | timeout => timeout
        | done curPos =>
          match ara_getF width goal st goal, ara_getF width goal st curPos with
          | done fGoal, done fBest =>
            if fLt epsilon fBest fGoal then
              let st1 := { st with
                currentPathOnDraw := st.currentPathOnDraw ++ [curPos],
                openListAra := st.openListAra.eraseIdx bestIdx }
              let closed1 := closedList ++ [curPos]
              match ara_expand input width height curPos closed1 st1 with
              | done st2 => ara_star_loop input width height goal epsilon rfuel fuel st2 closed1
              | fault => fault
              | timeout => timeout
            else
              let st1 := ara_fold_next st
              match reconstruct_path rfuel st1.prevPath goal width with
              | done res => done (res, st1)
              | fault => fault
              | timeout => timeout
          | _, _ => fault

/-- The function `find_path_ara_star(input, width, height, from, to, epsilon)` run on the
globals `st`; the arguments `from` and `to` are `start` and `goal`. -/
def find_path_ara_star (fuel : Nat) (input : List Char) (width height : Nat)
    (start goal : Position) (epsilon : ℚ) (st : AraState) : Outcome (List Position × AraState) :=
  if outOfBounds width height start then done ([], st)
  else ara_star_loop input width height goal epsilon fuel fuel st []

/-- The reset state of a session: `gScoreAra` at the float maximum except `0` at `start`,
`prevPath` all the sentinel, `openListAra = {start}`, `nextIter` and the trace empty. -/
def ara_reset_state (width height : Nat) (start : Position) : AraState :=
  { gScoreAra :=
      (List.replicate (width * height) (none : GScore)).set
        (coord_to_idx start.x start.y width).toNat (some 0),
    prevPath := List.replicate (width * height) sentinel,
    openListAra := [start],
    nextIter := [],
    currentPathOnDraw := [] }

/-- A campaign: successive calls of `find_path_ara_star`, one per entry of the list of
epsilons, each on the globals left by the previous one.  It yields, per call, the returned
vector and the globals on return. -/
def ara_campaign (fuel : Nat) (input : List Char) (width height : Nat) (start goal : Position) :
    List ℚ → AraState → Outcome (List (List Position × AraState))
  | [], _ => done []
  | epsilon :: rest, st =>
    match find_path_ara_star fuel input width height start goal epsilon st with
    | done (path, st1) =>
      match ara_campaign fuel input width height start goal rest st1 with
      | done results => done ((path, st1) :: results)
      | fault => fault
      | timeout => timeout
    | fault => fault
    | timeout => timeout

/-! ## Paths and their cost -/

/-- Cell `q` is one of the four orthogonal neighbours of `p`. -/
def adjacent (p q : Position) : Prop :=
  q = ⟨p.x + 1, p.y⟩ ∨ q = ⟨p.x - 1, p.y⟩ ∨ q = ⟨p.x, p.y + 1⟩ ∨ q = ⟨p.x, p.y - 1⟩

instance (p q : Position) : Decidable (adjacent p q) :=
  inferInstanceAs (Decidable
    (q = ⟨p.x + 1, p.y⟩ ∨ q = ⟨p.x - 1, p.y⟩ ∨ q = ⟨p.x, p.y + 1⟩ ∨ q = ⟨p.x, p.y - 1⟩))

/-- The terrain symbol of a cell is `'#'` (Blocked). -/
def blocked (input : List Char) (width : Nat) (p : Position) : Prop :=
  vget input (coord_to_idx p.x p.y width) = done '#'

instance (input : List Char) (width : Nat) (p : Position) :
    Decidable (blocked input width p) :=
  inferInstanceAs (Decidable (vget input (coord_to_idx p.x p.y width) = done '#'))

/-- Cost of entering a cell: 10 for Heavy (`'o'`), otherwise 1. -/
def cellCost (input : List Char) (width : Nat) (p : Position) : Nat :=
  if vget input (coord_to_idx p.x p.y width) = done 'o' then 10 else 1

/-- A move from `p` into the in-bounds, non-Blocked neighbour `q`. -/
def validStep (input : List Char) (width height : Nat) (p q : Position) : Prop :=
  adjacent p q ∧ ¬ outOfBounds width height q ∧ ¬ blocked input width q

instance (input : List Char) (width height : Nat) (p q : Position) :
    Decidable (validStep input width height p q) :=
  inferInstanceAs
    (Decidable (adjacent p q ∧ ¬ outOfBounds width height q ∧ ¬ blocked input width q))

/-- Every two consecutive positions of the list are joined by a valid move. -/
def validChain (input : List Char) (width height : Nat) : List Position → Prop
  | a :: b :: rest =>
    validStep input width height a b ∧ validChain input width height (b :: rest)
  | _ => True

/-- Decision procedure for `validChain`. -/
def validChainDec (input : List Char) (width height : Nat) :
    (path : List Position) → Decidable (validChain input width height path)
  | [] => isTrue trivial
  | [_] => isTrue trivial
  | a :: b :: rest =>
    have : Decidable (validChain input width height (b :: rest)) :=
      validChainDec input width height (b :: rest)
    inferInstanceAs (Decidable
      (validStep input width height a b ∧ validChain input width height (b :: rest)))

instance (input : List Char) (width height : Nat) (path : List Position) :
    Decidable (validChain input width height path) :=
  validChainDec input width height path

/-- The list `path` is a walk from `a` to `b` by valid moves. -/
def isPath (input : List Char) (width height : Nat) (a b : Position) (path : List Position) :
    Prop :=
  path.head? = some a ∧ path.getLast? = some b ∧ validChain input width height path

instance (input : List Char) (width height : Nat) (a b : Position) (path : List Position) :
    Decidable (isPath input width height a b path) :=
  inferInstanceAs (Decidable
    (path.head? = some a ∧ path.getLast? = some b ∧ validChain input width height path))

/-- Cost of a path: the sum of the entry costs of the positions after the first. -/
def pathCost (input : List Char) (width : Nat) (path : List Position) : Nat :=
  (path.tail.map (cellCost input width)).sum

/-- The cell read `v[coord_to_idx(p.x, p.y, width)]`. -/
def rd {α : Type} (width : Nat) (v : List α) (p : Position) : Outcome α :=
  vget v (coord_to_idx p.x p.y width)

/-- The vector `v` after the write `v[coord_to_idx(p.x, p.y, width)] = a`. -/
def wr {α : Type} (width : Nat) (v : List α) (p : Position) (a : α) : List α :=
  v.set (coord_to_idx p.x p.y width).toNat a


/-- The predecessor chain from `p` meets, after exactly `n` steps through stored
predecessors other than the sentinel, a cell whose stored predecessor is the sentinel. -/
def chainEnds (prev : List Position) (width : Nat) : Nat → Position → Bool
  | 0, p => decide (rd width prev p = done sentinel)
  | n + 1, p =>
    match rd width prev p with
    | done q => decide (q ≠ sentinel) && chainEnds prev width n q
    | _ => false

/-! ## Invariants -/

/-- Invariant of the main loop of `find_path_a_star`.  `v p` is the g-score a closed cell
`p` had when it was expanded; while `cur` is being expanded, `T` holds of the neighbours
not yet visited by `checkNeighbour`. -/
structure AStarInv (input : List Char) (W H : Nat) (start goal : Position)
    (v : Position → Nat) (cur : Position) (T : Position → Prop) (st : AStarState) : Prop where
  len_in : input.length = W * H
  len_g : st.g.length = W * H
  len_f : st.f.length = W * H
  len_prev : st.prev.length = W * H
  open_inb : ∀ p ∈ st.openList, ¬ outOfBounds W H p
  closed_inb : ∀ p ∈ st.closedList, ¬ outOfBounds W H p
  closed_nodup : st.closedList.Nodup
  start_inb : ¬ outOfBounds W H start
  g_start : rd W st.g start = done (some 0)
  prev_start : rd W st.prev start = done sentinel
  f_eq : ∀ p n, ¬ outOfBounds W H p → rd W st.g p = done (some n) →
    rd W st.f p = done (some (n, heuristic p goal))
  open_fin : ∀ p ∈ st.openList, ∃ n, rd W st.g p = done (some n)
  tree : ∀ p n, ¬ outOfBounds W H p → p ≠ start → rd W st.g p = done (some n) →
    ∃ q m, rd W st.prev p = done q ∧ ¬ outOfBounds W H q ∧ validStep input W H q p ∧
      rd W st.g q = done (some m) ∧ m + cellCost input W p ≤ n
  start_queued : start ∈ st.openList ∨ start ∈ st.closedList
  goal_open : goal ∉ st.closedList
  relaxed : ∀ p ∈ st.closedList, ∀ q, validStep input W H p q → (p = cur → ¬ T q) →
    (q ∈ st.openList ∨ q ∈ st.closedList) ∧
      ∃ m, rd W st.g q = done (some m) ∧ m ≤ v p + cellCost input W q
  opt : ∀ p ∈ st.closedList, ∀ π, isPath input W H start p π → v p ≤ pathCost input W π

/-- The four orthogonal neighbours of a cell, in the order `checkNeighbour` is called. -/
def neighbours (p : Position) : List Position :=
  [⟨p.x + 1, p.y⟩, ⟨p.x - 1, p.y⟩, ⟨p.x, p.y + 1⟩, ⟨p.x, p.y - 1⟩]

/-- Every in-bounds orthogonal neighbour of `p` is Blocked. -/
def enclosed (input : List Char) (width height : Nat) (p : Position) : Prop :=
  ∀ q ∈ neighbours p, ¬ outOfBounds width height q → blocked input width q

instance (input : List Char) (width height : Nat) (p : Position) :
    Decidable (enclosed input width height p) :=
  inferInstanceAs
    (Decidable (∀ q ∈ neighbours p, ¬ outOfBounds width height q → blocked input width q))

/-- Invariant of the loop of `find_path_ara_star`.  `cl` is the local closed list; `v p` is
the g-score a cell `p` had when it was last expanded (`none`: never); while `cur` is being
expanded, `T` holds of the neighbours not yet visited by `checkNeighbour`. -/
structure AraInv (input : List Char) (W H : Nat) (start goal : Position) (epsilon : ℚ)
    (v : Position → Option Nat) (cl : List Position) (cur : Position) (T : Position → Prop)
    (st : AraState) : Prop where
  len_in : input.length = W * H
  len_g : st.gScoreAra.length = W * H
  len_prev : st.prevPath.length = W * H
  open_inb : ∀ p ∈ st.openListAra, ¬ outOfBounds W H p
  next_inb : ∀ p ∈ st.nextIter, ¬ outOfBounds W H p
  closed_inb : ∀ p ∈ cl, ¬ outOfBounds W H p
  open_nodup : st.openListAra.Nodup
  closed_nodup : cl.Nodup
  open_closed : ∀ p ∈ st.openListAra, p ∉ cl
  start_inb : ¬ outOfBounds W H start
  goal_inb : ¬ outOfBounds W H goal
  g_start : rd W st.gScoreAra start = done (some 0)
  prev_start : rd W st.prevPath start = done sentinel
  open_fin : ∀ p ∈ st.openListAra, ∃ n, rd W st.gScoreAra p = done (some n)
  next_fin : ∀ p ∈ st.nextIter, ∃ n, rd W st.gScoreAra p = done (some n)
  tree : ∀ p n, ¬ outOfBounds W H p → p ≠ start → rd W st.gScoreAra p = done (some n) →
    ∃ q m, rd W st.prevPath p = done q ∧ ¬ outOfBounds W H q ∧ validStep input W H q p ∧
      rd W st.gScoreAra q = done (some m) ∧ m + cellCost input W p ≤ n
  relaxed : ∀ p n, v p = some n → ∀ q, validStep input W H p q → (p = cur → ¬ T q) →
    ∃ m, rd W st.gScoreAra q = done (some m) ∧ m ≤ n + cellCost input W q
  queued : ∀ p m, ¬ outOfBounds W H p → rd W st.gScoreAra p = done (some m) →
    v p = some m ∨ p ∈ st.openListAra ∨ p ∈ st.nextIter
  next_closed : ∀ p ∈ st.nextIter, p ∈ cl
  closed_v : ∀ p ∈ cl, ∃ n, v p = some n ∧
    (1 ≤ epsilon → ∀ π, isPath input W H start p π →
      (n : ℝ) ≤ (epsilon : ℝ) * (pathCost input W π : ℝ))
  goal_unexp : v goal = none

/-- What one call of `find_path_ara_star` made with `epsilon` on globals `s` achieves, for
its result `r` (returned vector and globals on return): no g-score rises; and either the
result is empty, the open list is empty and the goal cannot be reached, or the result is a
path from start to goal that costs at most the g-score of the goal, which (for
`epsilon ≥ 1`) is at most `epsilon` times the cost of any path. -/
def araCallSpec (input : List Char) (W H : Nat) (start goal : Position) (s : AraState)
    (epsilon : ℚ) (r : List Position × AraState) : Prop :=
  (∀ p m, ¬ outOfBounds W H p → rd W s.gScoreAra p = done (some m) →
    ∃ m', m' ≤ m ∧ rd W r.2.gScoreAra p = done (some m')) ∧
  ((r.1 = [] ∧ r.2.openListAra = [] ∧ ∀ π, ¬ isPath input W H start goal π) ∨
   (isPath input W H start goal r.1 ∧
    ∃ n, rd W r.2.gScoreAra goal = done (some n) ∧ pathCost input W r.1 ≤ n ∧
      (1 ≤ epsilon → ∀ π, isPath input W H start goal π →
        (n : ℝ) ≤ (epsilon : ℝ) * (pathCost input W π : ℝ))))

/-- The specification `araCallSpec` along a whole campaign started on globals `s`. -/
def araCampaignSpec (input : List Char) (W H : Nat) (start goal : Position) :
    AraState → List ℚ → List (List Position × AraState) → Prop
  | _, [], [] => True
  | s, epsilon :: es, r :: rs =>
    araCallSpec input W H start goal s epsilon r ∧
      araCampaignSpec input W H start goal r.2 es rs
  | _, _, _ => False

/-- The globals between two calls of a campaign: either the loop invariant holds with an
empty closed list (for whatever epsilon comes next), or the open list is exhausted and the
goal cannot be reached. -/
def AraBetween (input : List Char) (W H : Nat) (start goal : Position) (st : AraState) : Prop :=
  (∃ v, ∀ e c, AraInv input W H start goal e v [] c (fun _ => False) st) ∨
  (st.openListAra = [] ∧ ∀ π, ¬ isPath input W H start goal π)

/-! ## Shape of the scores and of the predecessor map -/

/-- The g-scores `g` and the predecessor map `prev` form a tree rooted at `start`: the
start has g-score 0 and the sentinel as predecessor, a cell with g-score at the float
maximum has the sentinel as predecessor, and every other cell has as predecessor an
in-bounds cell from which it is entered by a valid move and whose g-score plus the entry
cost does not exceed its own. -/
structure TreeInv (input : List Char) (W H : Nat) (start : Position) (g : List GScore)
    (prev : List Position) : Prop where
  len_in : input.length = W * H
  len_g : g.length = W * H
  len_prev : prev.length = W * H
  start_inb : ¬ outOfBounds W H start
  g_start : rd W g start = done (some 0)
  prev_start : rd W prev start = done sentinel
  prev_none : ∀ p, ¬ outOfBounds W H p → rd W g p = done none → rd W prev p = done sentinel
  tree : ∀ p n, ¬ outOfBounds W H p → p ≠ start → rd W g p = done (some n) →
    ∃ q m, rd W prev p = done q ∧ ¬ outOfBounds W H q ∧ validStep input W H q p ∧
      rd W g q = done (some m) ∧ m + cellCost input W p ≤ n

/-- What the g-scores `g` and the predecessor map `prev` are required to satisfy: the
predecessor of the start is the sentinel; a predecessor `q` other than the sentinel, of an
in-bounds cell `p`, is an in-bounds orthogonal neighbour of `p`, `p` is not Blocked, and
the g-score of `p` is at least that of `q` plus the cost of entering `p`; and from every
in-bounds cell `p` with a g-score below the float maximum, `reconstruct_path` walks a chain
without repeated cell that is a walk from the start to `p` of cost at most that g-score. -/
def chainShape (input : List Char) (W H : Nat) (start : Position) (g : List GScore)
    (prev : List Position) : Prop :=
  rd W prev start = done sentinel ∧
  (∀ p q, ¬ outOfBounds W H p → rd W prev p = done q → q ≠ sentinel →
    ¬ outOfBounds W H q ∧ adjacent q p ∧ ¬ blocked input W p ∧
    ∃ n m, rd W g p = done (some n) ∧ rd W g q = done (some m) ∧
      m + cellCost input W p ≤ n) ∧
  (∀ p n, ¬ outOfBounds W H p → rd W g p = done (some n) →
    ∃ π, reconstruct_path (W * H + 1) prev p W = done π ∧ π.Nodup ∧
      isPath input W H start p π ∧ pathCost input W π ≤ n)

/-- No g-score of an in-bounds cell rises from `g` to `g'`. -/
def scoresFall (W H : Nat) (g g' : List GScore) : Prop :=
  ∀ p n, ¬ outOfBounds W H p → rd W g p = done (some n) →
    ∃ m, m ≤ n ∧ rd W g' p = done (some m)

/-- Invariant of the globals of `find_path_ara_star` that does not depend on the goal; `cl`
is the local closed list. -/
structure AraWeak (input : List Char) (W H : Nat) (start : Position) (cl : List Position)
    (st : AraState) : Prop where
  shape : TreeInv input W H start st.gScoreAra st.prevPath
  open_inb : ∀ p ∈ st.openListAra, ¬ outOfBounds W H p
  next_inb : ∀ p ∈ st.nextIter, ¬ outOfBounds W H p
  closed_inb : ∀ p ∈ cl, ¬ outOfBounds W H p
  open_nodup : st.openListAra.Nodup
  closed_nodup : cl.Nodup
  open_closed : ∀ p ∈ st.openListAra, p ∉ cl
  open_fin : ∀ p ∈ st.openListAra, ∃ n, rd W st.gScoreAra p = done (some n)
  next_fin : ∀ p ∈ st.nextIter, ∃ n, rd W st.gScoreAra p = done (some n)

/-- A property `Step s epsilon r` of every call of a campaign: `s` the globals before the
call, `epsilon` its argument, `r` its result. -/
def campaignAll (Step : AraState → ℚ → List Position × AraState → Prop) :
    AraState → List ℚ → List (List Position × AraState) → Prop
  | _, [], [] => True
  | s, epsilon :: es, r :: rs => Step s epsilon r ∧ campaignAll Step r.2 es rs
  | _, _, _ => False

/-! ## Iterations of the loop of `find_path_ara_star` -/

/-- One iteration of the `while` loop of `find_path_ara_star` that takes the `if` branch,
from globals `st` and local closed list `cl`: the best open member `cur` has an f-score
below that of the goal, it is appended to the trace and to the closed list, erased from the
open list, and its four neighbours are checked. -/
inductive AraPop (input : List Char) (W H : Nat) (goal : Position) (epsilon : ℚ) :
    AraState → List Position → AraState → List Position → Prop where
  | pop (st st2 : AraState) (cl : List Position) (k : Nat) (cur : Position)
      (fGoal fBest : FScore) :
      st.openListAra ≠ [] →
      bestIndex (fLt epsilon) (ara_getF W goal st) st.openListAra = done k →
      vget st.openListAra k = done cur →
      ara_getF W goal st goal = done fGoal → ara_getF W goal st cur = done fBest →
      fLt epsilon fBest fGoal = true →
      ara_expand input W H cur (cl ++ [cur])
        { st with currentPathOnDraw := st.currentPathOnDraw ++ [cur],
                  openListAra := st.openListAra.eraseIdx k } = done st2 →
      AraPop input W H goal epsilon st cl st2 (cl ++ [cur])

/-- Zero or more successive iterations `AraPop`. -/
inductive AraPops (input : List Char) (W H : Nat) (goal : Position) (epsilon : ℚ) :
    AraState → List Position → AraState → List Position → Prop where
  | refl (st : AraState) (cl : List Position) : AraPops input W H goal epsilon st cl st cl
  | step (st st1 st2 : AraState) (cl cl1 cl2 : List Position) :
      AraPop input W H goal epsilon st cl st1 cl1 →
      AraPops input W H goal epsilon st1 cl1 st2 cl2 →
      AraPops input W H goal epsilon st cl st2 cl2

/-! ## Intermediate states of `find_path_a_star` -/

/-- One elementary step of the main loop of `find_path_a_star`: the best open member (not
the goal) is erased from the open list and found closed already (`skip`), or erased and
appended to the closed list (`close`), or one call `checkNeighbour(p)` is run for a
neighbour `p` of the cell appended last (`check`). -/
inductive AStarStep (input : List Char) (W H : Nat) (goal : Position) :
    AStarState → AStarState → Prop where
  | skip (st : AStarState) (k : Nat) (cur : Position) :
      bestIndex (fLt 1) (fun p => vget st.f (coord_to_idx p.x p.y W)) st.openList = done k →
      vget st.openList k = done cur → cur ≠ goal → cur ∈ st.closedList →
      AStarStep input W H goal st { st with openList := st.openList.eraseIdx k }
  | close (st : AStarState) (k : Nat) (cur : Position) :
      bestIndex (fLt 1) (fun p => vget st.f (coord_to_idx p.x p.y W)) st.openList = done k →
      vget st.openList k = done cur → cur ≠ goal → cur ∉ st.closedList →
      AStarStep input W H goal st
        { st with openList := st.openList.eraseIdx k, closedList := st.closedList ++ [cur] }
  | check (st st' : AStarState) (cur p : Position) :
      st.closedList.getLast? = some cur → p ∈ neighbours cur →
      a_star_checkNeighbour input W H goal cur st p = done st' →
      AStarStep input W H goal st st'

/-- The states `find_path_a_star` passes through: the state built before the loop and
every state reached from it by elementary steps. -/
inductive AStarReach (input : List Char) (W H : Nat) (start goal : Position) :
    AStarState → Prop where
  | init (st : AStarState) : ¬ outOfBounds W H start →
      a_star_init W H start goal = done st → AStarReach input W H start goal st
  | step (st st' : AStarState) : AStarReach input W H start goal st →
      AStarStep input W H goal st st' → AStarReach input W H start goal st'

/-- Invariant of the intermediate states of `find_path_a_star`. -/
structure AStarWeak (input : List Char) (W H : Nat) (start : Position) (st : AStarState) :
    Prop where
  shape : TreeInv input W H start st.g st.prev
  len_f : st.f.length = W * H
  open_inb : ∀ p ∈ st.openList, ¬ outOfBounds W H p
  open_fin : ∀ p ∈ st.openList, ∃ n, rd W st.g p = done (some n)
  closed_inb : ∀ p ∈ st.closedList, ¬ outOfBounds W H p
  closed_fin : ∀ p ∈ st.closedList, ∃ n, rd W st.g p = done (some n)

/-! ## Staircase paths -/

/-- A move that raises `x` by 1 or `y` by 1. -/
def stairStep (p q : Position) : Prop :=
  q = ⟨p.x + 1, p.y⟩ ∨ q = ⟨p.x, p.y + 1⟩

instance (p q : Position) : Decidable (stairStep p q) :=
  inferInstanceAs (Decidable (q = ⟨p.x + 1, p.y⟩ ∨ q = ⟨p.x, p.y + 1⟩))

/-- Every move of the path raises `x` by 1 or `y` by 1. -/
def isStaircase : List Position → Prop
  | a :: b :: rest => stairStep a b ∧ isStaircase (b :: rest)
  | _ => True

/-- Decision procedure for `isStaircase`. -/
def isStaircaseDec : (path : List Position) → Decidable (isStaircase path)
  | [] => isTrue trivial
  | [_] => isTrue trivial
  | a :: b :: rest =>
    have : Decidable (isStaircase (b :: rest)) := isStaircaseDec (b :: rest)
    inferInstanceAs (Decidable (stairStep a b ∧ isStaircase (b :: rest)))

instance (path : List Position) : Decidable (isStaircase path) := isStaircaseDec path

/-! ## The campaign driver -/

/-- The constant `eps_def = 5.0f`. -/
def eps_def : ℚ := 5

/-- The constant `eps_step = 0.5f`. -/
def eps_step : ℚ := 1 / 2

/-- The globals of the driver: `eps`, `next`, `lastPath` and the globals of
`find_path_ara_star`. -/
structure DriverState where
  eps : ℚ
  next : Int
  lastPath : List Position
  ara : AraState

/-- The globals at program start: `eps = eps_def`, `next = 0`, all vectors empty. -/
def driver_init : DriverState :=
  { eps := eps_def, next := 0, lastPath := [],
    ara := { gScoreAra := [], prevPath := [], openListAra := [], nextIter := [],
             currentPathOnDraw := [] } }

/-- The reset block, the same statements in `draw_nav_ara_data` and in the two click
branches of `main`: `eps = eps_def; openListAra = {from}; gScoreAra.clear();
gScoreAra.resize(inpSize, max); gScoreAra[coord_to_idx(from)] = 0; prevPath.clear();
prevPath.resize(inpSize, {-1,-1})`. -/
def session_reset (width height : Nat) (start : Position) (d : DriverState) :
    Outcome DriverState :=
  match vset (List.replicate (width * height) (none : GScore))
      (coord_to_idx start.x start.y width) (some 0) with
  | done g =>
    done { d with
      eps := eps_def,
      ara := { d.ara with
        openListAra := [start], gScoreAra := g,
        prevPath := List.replicate (width * height) sentinel } }
  | _ => fault

/-- The function `draw_nav_ara_data(input, width, height, from, to, next)` on the driver
globals (one tick).  The drawing, which only reads `gScoreAra` at the traced cells, is left
out. -/
def draw_nav_ara_data (fuel : Nat) (input : List Char) (width height : Nat)
    (start goal : Position) (d : DriverState) : Outcome DriverState :=
  let d1 := { d with next := d.next - 1 }
  if d1.next < 0 then
    match (if d1.eps < 1 ∨ d1.ara.openListAra = [] then session_reset width height start d1
           else done d1) with
    | done d2 =>
      let eps := d2.eps - eps_step
      match find_path_ara_star fuel input width height start goal eps
          { d2.ara with currentPathOnDraw := [] } with
      | done (path, ara) => done { eps := eps, next := 30, lastPath := path, ara := ara }
      | fault => fault
      | timeout => timeout
    | fault => fault
    | timeout => timeout
  else done d1

/-- Successive ticks of the driver with the same arguments: `n` calls of
`draw_nav_ara_data`.  It yields the epsilons passed to `find_path_ara_star`, in order, and
the driver globals at the end. -/
def driver_ticks (fuel : Nat) (input : List Char) (width height : Nat) (start goal : Position) :
    Nat → DriverState → Outcome (List ℚ × DriverState)
  | 0, d => done ([], d)
  | n + 1, d =>
    match draw_nav_ara_data fuel input width height start goal d with
    | done d1 =>
      match driver_ticks fuel input width height start goal n d1 with
      | done (passed, d2) => done ((if d.next - 1 < 0 then [d1.eps] else []) ++ passed, d2)
      | fault => fault
      | timeout => timeout
    | fault => fault
    | timeout => timeout
/-! ## Indexing lemmas -/

theorem done_inj {α : Type} {a b : α} (h : (done a : Outcome α) = done b) : a = b := by
  injection h

theorem rd_eq {α : Type} (width : Nat) (v : List α) (p : Position) :
    vget v (coord_to_idx p.x p.y width) = rd width v p := rfl

theorem idx_nonneg {W H : Nat} {p : Position} (h : ¬ outOfBounds W H p) :
    0 ≤ coord_to_idx p.x p.y W := by
  unfold outOfBounds at h
  push_neg at h
  unfold coord_to_idx
  have h1 : 0 ≤ p.y * (W : Int) := mul_nonneg h.2.1 (Int.ofNat_nonneg W)
  omega

theorem idx_lt {W H : Nat} {p : Position} (h : ¬ outOfBounds W H p) :
    (coord_to_idx p.x p.y W).toNat < W * H := by
  unfold outOfBounds at h
  push_neg at h
  obtain ⟨hx, hy, hxW, hyH⟩ := h
  have h0 := @idx_nonneg W H p (by unfold outOfBounds; push_neg; exact ⟨hx, hy, hxW, hyH⟩)
  have h2 : coord_to_idx p.x p.y W < (W : Int) * H := by
    unfold coord_to_idx
    have h3 : p.y + 1 ≤ (H : Int) := by omega
    have h4 : (p.y + 1) * (W : Int) ≤ (H : Int) * W :=
      mul_le_mul_of_nonneg_right h3 (Int.ofNat_nonneg W)
    nlinarith
  have h5 : ((coord_to_idx p.x p.y W).toNat : Int) = coord_to_idx p.x p.y W := Int.toNat_of_nonneg h0
  have h6 : ((coord_to_idx p.x p.y W).toNat : Int) < ((W * H : Nat) : Int) := by
    rw [h5]; push_cast; exact h2
  exact_mod_cast h6

theorem idx_inj {W H : Nat} {p q : Position} (hp : ¬ outOfBounds W H p)
    (hq : ¬ outOfBounds W H q) (h : coord_to_idx p.x p.y W = coord_to_idx q.x q.y W) : p = q := by
  unfold outOfBounds at hp hq
  push_neg at hp hq
  obtain ⟨hpx, hpy, hpxW, hpyH⟩ := hp
  obtain ⟨hqx, hqy, hqxW, hqyH⟩ := hq
  unfold coord_to_idx at h
  have hy : p.y = q.y := by
    by_contra hne
    rcases lt_or_gt_of_ne hne with hlt | hgt
    · have h3 : p.y + 1 ≤ q.y := by omega
      have h4 : (p.y + 1) * (W : Int) ≤ q.y * W := mul_le_mul_of_nonneg_right h3 (Int.ofNat_nonneg W)
      nlinarith
    · have h3 : q.y + 1 ≤ p.y := by omega
      have h4 : (q.y + 1) * (W : Int) ≤ p.y * W := mul_le_mul_of_nonneg_right h3 (Int.ofNat_nonneg W)
      nlinarith
  have hx : p.x = q.x := by rw [hy] at h; omega
  cases p; cases q; simp_all

theorem idx_toNat_inj {W H : Nat} {p q : Position} (hp : ¬ outOfBounds W H p)
    (hq : ¬ outOfBounds W H q)
    (h : (coord_to_idx p.x p.y W).toNat = (coord_to_idx q.x q.y W).toNat) : p = q := by
  apply idx_inj hp hq
  have h1 := Int.toNat_of_nonneg (idx_nonneg hp)
  have h2 := Int.toNat_of_nonneg (idx_nonneg hq)
  omega

theorem rd_total {α : Type} {W H : Nat} {v : List α} {p : Position}
    (hp : ¬ outOfBounds W H p) (hv : v.length = W * H) : ∃ a, rd W v p = done a := by
  unfold rd vget
  have h1 := idx_nonneg hp
  have h2 := idx_lt hp
  rw [← hv] at h2
  simp only [h1, if_true]
  rw [List.getElem?_eq_getElem h2]
  exact ⟨_, rfl⟩

theorem vset_eq {α : Type} {W H : Nat} {v : List α} {p : Position} (a : α)
    (hp : ¬ outOfBounds W H p) (hv : v.length = W * H) :
    vset v (coord_to_idx p.x p.y W) a = done (wr W v p a) := by
  unfold vset wr
  have h1 := idx_nonneg hp
  have h2 := idx_lt hp
  rw [← hv] at h2
  simp [h1, h2]

theorem wr_length {α : Type} (W : Nat) (v : List α) (p : Position) (a : α) :
    (wr W v p a).length = v.length := by
  unfold wr; simp

theorem rd_wr_same {α : Type} {W H : Nat} {v : List α} {p : Position} (a : α)
    (hp : ¬ outOfBounds W H p) (hv : v.length = W * H) : rd W (wr W v p a) p = done a := by
  unfold rd wr vget
  have h1 := idx_nonneg hp
  have h2 := idx_lt hp
  rw [← hv] at h2
  simp [h1, h2]

theorem rd_wr_other {α : Type} {W H : Nat} {v : List α} {p q : Position} (a : α)
    (hp : ¬ outOfBounds W H p) (hq : ¬ outOfBounds W H q) (hne : q ≠ p) :
    rd W (wr W v p a) q = rd W v q := by
  unfold rd wr vget
  have hne2 : (coord_to_idx p.x p.y W).toNat ≠ (coord_to_idx q.x q.y W).toNat := by
    intro h
    exact hne (idx_toNat_inj hq hp h.symm)
  rw [List.getElem?_set_ne hne2]

theorem sentinel_outOfBounds (W H : Nat) : outOfBounds W H sentinel := by
  unfold outOfBounds sentinel
  left; decide

theorem adjacent_ne {p q : Position} (h : adjacent p q) : q ≠ p := by
  unfold adjacent at h
  intro he
  subst he
  rcases h with h | h | h | h <;>
  · have hx := congrArg Position.x h
    have hy := congrArg Position.y h
    simp only at hx hy
    omega
/-! ## `reconstruct_path` -/

theorem reconstruct_loop_chain (prev : List Position) (W : Nat) :
    ∀ (n : Nat) (p : Position) (acc : List Position) (fuel : Nat),
      chainEnds prev W n p = true → n < fuel →
      ∃ pre, reconstruct_loop prev W fuel p acc = done (pre ++ acc) ∧ pre.length = n ∧
        List.Chain' (fun a b => rd W prev b = done a) (pre ++ [p]) ∧
        ∃ first, (pre ++ [p]).head? = some first ∧ rd W prev first = done sentinel := by
  intro n
  induction n with
  | zero =>
    intro p acc fuel h hf
    obtain ⟨k, rfl⟩ : ∃ k, fuel = k + 1 := ⟨fuel - 1, by omega⟩
    simp only [chainEnds, decide_eq_true_eq] at h
    refine ⟨[], ?_, rfl, by simp, p, by simp, h⟩
    simp only [reconstruct_loop, rd_eq, h]
    simp
  | succ n ih =>
    intro p acc fuel h hf
    obtain ⟨k, rfl⟩ : ∃ k, fuel = k + 1 := ⟨fuel - 1, by omega⟩
    simp only [chainEnds] at h
    cases hq : rd W prev p with
    | done q =>
      rw [hq] at h
      simp only [Bool.and_eq_true, decide_eq_true_eq] at h
      obtain ⟨pre, h1, h2, h3, first, h4, h5⟩ := ih q (q :: acc) k h.2 (by omega)
      refine ⟨pre ++ [q], ?_, by simp [h2], ?_, first, ?_, h5⟩
      · simp only [reconstruct_loop, rd_eq, hq, h.1, ne_eq, not_false_eq_true, if_true, h1]
        simp
      · rw [List.chain'_append]
        refine ⟨h3, by simp, ?_⟩
        intro a ha b hb
        simp only [List.getLast?_append, List.getLast?_singleton,
          Option.mem_def] at ha
        simp [Option.or] at ha
        simp only [List.head?_cons, Option.mem_def, Option.some.injEq] at hb
        subst ha; subst hb
        exact hq
      · rw [List.head?_append_of_ne_nil _ (by simp)]
        exact h4
    | fault => rw [hq] at h; simp at h
    | timeout => rw [hq] at h; simp at h

/-! ## Exact comparison of scores -/

theorem sqrtSubLt_iff (n m : Nat) (c : Int) :
    sqrtSubLt n m c = true ↔ Real.sqrt n - Real.sqrt m < c := by
  have hn : (0:ℝ) ≤ n := Nat.cast_nonneg n
  have hm : (0:ℝ) ≤ m := Nat.cast_nonneg m
  have hsn := Real.sqrt_nonneg (n:ℝ)
  have hsm := Real.sqrt_nonneg (m:ℝ)
  have hn2 := Real.sq_sqrt hn
  have hm2 := Real.sq_sqrt hm
  unfold sqrtSubLt
  by_cases hc : 0 ≤ c
  · have hcR : (0:ℝ) ≤ c := by exact_mod_cast hc
    simp only [hc, if_true]
    by_cases ht : (n:Int) - m - c * c < 0
    · simp only [ht, if_true, true_iff]
      have htR : (n:ℝ) - m - c * c < 0 := by exact_mod_cast ht
      by_contra hcon
      push_neg at hcon
      have h1 : Real.sqrt m + c ≤ Real.sqrt n := by linarith
      have h2 : (Real.sqrt m + c) ^ 2 ≤ (Real.sqrt n) ^ 2 :=
        pow_le_pow_left₀ (by positivity) h1 2
      nlinarith
    · simp only [ht, if_false, decide_eq_true_eq]
      push_neg at ht
      have htR : (0:ℝ) ≤ (n:ℝ) - m - c * c := by exact_mod_cast ht
      have hcast : ((n:Int) - m - c * c) * ((n:Int) - m - c * c) < 4 * c * c * m ↔
          ((n:ℝ) - m - c * c) * ((n:ℝ) - m - c * c) < 4 * c * c * m := by
        constructor
        · intro h; exact_mod_cast h
        · intro h; exact_mod_cast h
      rw [hcast]
      constructor
      · intro h
        by_contra hcon
        push_neg at hcon
        have h1 : Real.sqrt m + c ≤ Real.sqrt n := by linarith
        have h2 : (Real.sqrt m + c) ^ 2 ≤ (Real.sqrt n) ^ 2 :=
          pow_le_pow_left₀ (by positivity) h1 2
        have h3 : 2 * c * Real.sqrt m ≤ (n:ℝ) - m - c * c := by nlinarith
        have h4 : (2 * c * Real.sqrt m) ^ 2 ≤ ((n:ℝ) - m - c * c) ^ 2 :=
          pow_le_pow_left₀ (by positivity) h3 2
        nlinarith
      · intro h
        have h1 : Real.sqrt n < Real.sqrt m + c := by linarith
        have h2 : (Real.sqrt n) ^ 2 < (Real.sqrt m + c) ^ 2 :=
          pow_lt_pow_left₀ h1 hsn (by norm_num)
        have h3 : (n:ℝ) - m - c * c < 2 * c * Real.sqrt m := by nlinarith
        have h4 : ((n:ℝ) - m - c * c) ^ 2 < (2 * c * Real.sqrt m) ^ 2 :=
          pow_lt_pow_left₀ h3 htR (by norm_num)
        nlinarith
  · push_neg at hc
    have hcR : (c:ℝ) < 0 := by exact_mod_cast hc
    have hc' : ¬ (0 ≤ c) := by omega
    simp only [hc', if_false]
    by_cases hs : (m:Int) - n - c * c ≤ 0
    · simp only [hs, if_true, Bool.false_eq_true, false_iff, not_lt]
      have hsR : (m:ℝ) - n - c * c ≤ 0 := by exact_mod_cast hs
      by_contra hcon
      push_neg at hcon
      have h1 : Real.sqrt n + (-c) < Real.sqrt m := by linarith
      have h2 : (Real.sqrt n + (-c)) ^ 2 < (Real.sqrt m) ^ 2 :=
        pow_lt_pow_left₀ h1 (by linarith) (by norm_num)
      nlinarith
    · simp only [hs, if_false, decide_eq_true_eq]
      push_neg at hs
      have hsR : (0:ℝ) < (m:ℝ) - n - c * c := by exact_mod_cast hs
      have hcast : 4 * c * c * (n:Int) < ((m:Int) - n - c * c) * ((m:Int) - n - c * c) ↔
          4 * c * c * (n:ℝ) < ((m:ℝ) - n - c * c) * ((m:ℝ) - n - c * c) := by
        constructor
        · intro h; exact_mod_cast h
        · intro h; exact_mod_cast h
      rw [hcast]
      constructor
      · intro h
        by_contra hcon
        push_neg at hcon
        have h1 : Real.sqrt m ≤ Real.sqrt n + (-c) := by linarith
        have h2 : (Real.sqrt m) ^ 2 ≤ (Real.sqrt n + (-c)) ^ 2 :=
          pow_le_pow_left₀ hsm h1 2
        have h3 : (m:ℝ) - n - c * c ≤ 2 * (-c) * Real.sqrt n := by nlinarith
        have h4 : ((m:ℝ) - n - c * c) ^ 2 ≤ (2 * (-c) * Real.sqrt n) ^ 2 :=
          pow_le_pow_left₀ hsR.le h3 2
        nlinarith
      · intro h
        have h1 : Real.sqrt n + (-c) < Real.sqrt m := by linarith
        have h2 : (Real.sqrt n + (-c)) ^ 2 < (Real.sqrt m) ^ 2 :=
          pow_lt_pow_left₀ h1 (by linarith) (by norm_num)
        have h3 : 2 * (-c) * Real.sqrt n < (m:ℝ) - n - c * c := by nlinarith
        have h0 : (0:ℝ) ≤ 2 * (-c) * Real.sqrt n :=
          mul_nonneg (mul_nonneg (by norm_num) (by linarith)) hsn
        have h4 : (2 * (-c) * Real.sqrt n) ^ 2 < ((m:ℝ) - n - c * c) ^ 2 :=
          pow_lt_pow_left₀ h3 h0 (by norm_num)
        have h5 : (2 * (-c) * Real.sqrt n) ^ 2 = 4 * c * c * (n:ℝ) := by
          rw [mul_pow, hn2]; ring
        rw [h5] at h4
        calc 4 * c * c * (n:ℝ) < ((m:ℝ) - n - c * c) ^ 2 := h4
          _ = ((m:ℝ) - n - c * c) * ((m:ℝ) - n - c * c) := by ring


theorem sqrt_natAbs_mul (a : Int) (d : Nat) :
    Real.sqrt ((a.natAbs * a.natAbs * d : Nat) : ℝ) = |(a:ℝ)| * Real.sqrt d := by
  have h1 : ((a.natAbs * a.natAbs * d : Nat) : ℝ) = (|(a:ℝ)| * |(a:ℝ)|) * (d:ℝ) := by
    push_cast
    rw [Nat.cast_natAbs]
    push_cast
    ring
  rw [h1, Real.sqrt_mul (mul_self_nonneg _), Real.sqrt_mul_self (abs_nonneg _)]

theorem fLt_some_iff (epsilon : ℚ) (g₁ d₁ g₂ d₂ : Nat) :
    fLt epsilon (some (g₁, d₁)) (some (g₂, d₂)) = true ↔
      (g₁:ℝ) + (epsilon:ℝ) * Real.sqrt d₁ < (g₂:ℝ) + (epsilon:ℝ) * Real.sqrt d₂ := by
  have hden : (0:ℝ) < (epsilon.den : ℝ) := by exact_mod_cast epsilon.den_pos
  have heps : (epsilon:ℝ) = (epsilon.num : ℝ) / (epsilon.den : ℝ) := by
    rw [Rat.cast_def]
  have hkey : (g₁:ℝ) + (epsilon:ℝ) * Real.sqrt d₁ < (g₂:ℝ) + (epsilon:ℝ) * Real.sqrt d₂ ↔
      (epsilon.num:ℝ) * Real.sqrt d₁ - (epsilon.num:ℝ) * Real.sqrt d₂ <
        (epsilon.den:ℝ) * ((g₂:ℝ) - g₁) := by
    rw [heps]
    constructor
    · intro h
      have h2 := mul_lt_mul_of_pos_left h hden
      have e1 : (epsilon.den:ℝ) * ((g₁:ℝ) + (epsilon.num:ℝ) / epsilon.den * Real.sqrt d₁) =
          epsilon.den * g₁ + epsilon.num * Real.sqrt d₁ := by field_simp; ring
      have e2 : (epsilon.den:ℝ) * ((g₂:ℝ) + (epsilon.num:ℝ) / epsilon.den * Real.sqrt d₂) =
          epsilon.den * g₂ + epsilon.num * Real.sqrt d₂ := by field_simp; ring
      rw [e1, e2] at h2
      linarith
    · intro h
      have e1 : (g₁:ℝ) + (epsilon.num:ℝ) / epsilon.den * Real.sqrt d₁ =
          (epsilon.den * g₁ + epsilon.num * Real.sqrt d₁) / epsilon.den := by field_simp; ring
      have e2 : (g₂:ℝ) + (epsilon.num:ℝ) / epsilon.den * Real.sqrt d₂ =
          (epsilon.den * g₂ + epsilon.num * Real.sqrt d₂) / epsilon.den := by field_simp; ring
      rw [e1, e2]
      apply div_lt_div_of_pos_right _ hden
      linarith
  rw [hkey]
  unfold fLt
  simp only
  have hc : (((epsilon.den : Int) * ((g₂:Int) - g₁) : Int) : ℝ) = (epsilon.den:ℝ) * ((g₂:ℝ) - g₁) := by
    push_cast; ring
  by_cases hnum : 0 ≤ epsilon.num
  · simp only [hnum, if_true]
    rw [sqrtSubLt_iff, sqrt_natAbs_mul, sqrt_natAbs_mul, hc]
    have habs : |(epsilon.num:ℝ)| = epsilon.num := abs_of_nonneg (by exact_mod_cast hnum)
    rw [habs]
  · simp only [hnum, if_false]
    rw [sqrtSubLt_iff, sqrt_natAbs_mul, sqrt_natAbs_mul, hc]
    push_neg at hnum
    have habs : |(epsilon.num:ℝ)| = -epsilon.num := abs_of_neg (by exact_mod_cast hnum)
    rw [habs]
    constructor <;> intro h <;> linarith

/-- The order `fLt epsilon` is the order of the real values of the scores, the float
maximum lying above all of them. -/
theorem fLt_order (epsilon : ℚ) :
    ∃ val : FScore → WithTop ℝ,
      (∀ a b, fLt epsilon a b = true ↔ val a < val b) ∧
      (∀ g d : Nat, val (some (g, d)) = (((g:ℝ) + (epsilon:ℝ) * Real.sqrt d : ℝ) : WithTop ℝ)) ∧
      val none = ⊤ := by
  refine ⟨fun a => match a with
    | none => ⊤
    | some (g, d) => (((g:ℝ) + (epsilon:ℝ) * Real.sqrt d : ℝ) : WithTop ℝ), ?_, fun _ _ => rfl, rfl⟩
  intro a b
  cases a with
  | none => simp [fLt]
  | some a =>
    cases b with
    | none =>
      obtain ⟨g, d⟩ := a
      simp only [fLt, true_iff]
      exact WithTop.coe_lt_top _
    | some b =>
      obtain ⟨g₁, d₁⟩ := a
      obtain ⟨g₂, d₂⟩ := b
      rw [fLt_some_iff]
      simp only
      exact WithTop.coe_lt_coe.symm

theorem sqrt_shift (X Y s : ℝ) (hs : s = 1 ∨ s = -1) :
    Real.sqrt (X * X + Y * Y) ≤ 1 + Real.sqrt ((X + s) * (X + s) + Y * Y) := by
  have hZ : |X + s| ≤ Real.sqrt ((X + s) * (X + s) + Y * Y) := by
    apply Real.abs_le_sqrt
    nlinarith [mul_self_nonneg Y]
  have hpos := Real.sqrt_nonneg ((X + s) * (X + s) + Y * Y)
  have hsq := Real.sq_sqrt (show (0:ℝ) ≤ (X + s) * (X + s) + Y * Y by nlinarith [mul_self_nonneg Y, mul_self_nonneg (X + s)])
  rw [Real.sqrt_le_iff]
  refine ⟨by linarith, ?_⟩
  have h1 := neg_abs_le (X + s)
  have h2 := le_abs_self (X + s)
  rcases hs with hs | hs <;> subst hs <;> nlinarith

theorem heuristic_cast (a goal : Position) :
    ((heuristic a goal : Nat) : ℝ) =
      ((a.x - goal.x : Int) : ℝ) * ((a.x - goal.x : Int) : ℝ) +
      ((a.y - goal.y : Int) : ℝ) * ((a.y - goal.y : Int) : ℝ) := by
  unfold heuristic
  have h : 0 ≤ (a.x - goal.x) * (a.x - goal.x) + (a.y - goal.y) * (a.y - goal.y) := by
    nlinarith [mul_self_nonneg (a.x - goal.x), mul_self_nonneg (a.y - goal.y)]
  have h2 := Int.toNat_of_nonneg h
  have h3 : (((((a.x - goal.x) * (a.x - goal.x) + (a.y - goal.y) * (a.y - goal.y)).toNat : Nat) : Int) : ℝ)
      = ((((a.x - goal.x) * (a.x - goal.x) + (a.y - goal.y) * (a.y - goal.y)) : Int) : ℝ) := by
    rw [h2]
  rw [Int.cast_natCast] at h3
  rw [h3]
  push_cast
  ring

/-- Consistency of the straight-line heuristic over one grid move. -/
theorem heuristic_step (a b goal : Position) (h : adjacent a b) :
    Real.sqrt (heuristic a goal) ≤ 1 + Real.sqrt (heuristic b goal) := by
  rw [heuristic_cast, heuristic_cast]
  unfold adjacent at h
  rcases h with h | h | h | h <;> subst h <;> simp only
  · have := sqrt_shift ((a.x - goal.x : Int) : ℝ) ((a.y - goal.y : Int) : ℝ) 1 (Or.inl rfl)
    convert this using 3
    push_cast; ring
  · have := sqrt_shift ((a.x - goal.x : Int) : ℝ) ((a.y - goal.y : Int) : ℝ) (-1) (Or.inr rfl)
    convert this using 3
    push_cast; ring
  · have := sqrt_shift ((a.y - goal.y : Int) : ℝ) ((a.x - goal.x : Int) : ℝ) 1 (Or.inl rfl)
    rw [add_comm (((a.x - goal.x : Int) : ℝ) * _)]
    convert this using 3
    push_cast; ring
  · have := sqrt_shift ((a.y - goal.y : Int) : ℝ) ((a.x - goal.x : Int) : ℝ) (-1) (Or.inr rfl)
    rw [add_comm (((a.x - goal.x : Int) : ℝ) * _)]
    convert this using 3
    push_cast; ring

theorem heuristic_self (goal : Position) : heuristic goal goal = 0 := by
  unfold heuristic; simp

/-! ## The linear scan for the best open member -/

theorem vget_natCast {α : Type} (v : List α) (k : Nat) (a : α) (h : v[k]? = some a) :
    vget v (k : Int) = done a := by
  unfold vget
  simp [h]

theorem scanBest_spec {β : Type} [LinearOrder β] (val : FScore → β)
    (lt : FScore → FScore → Bool) (hlt : ∀ a b, lt a b = true ↔ val a < val b)
    (getF : Position → Outcome FScore) (F : Position → FScore) :
    ∀ (rest pre : List Position) (bestIdx : Nat) (pb : Position),
      (∀ p ∈ pre ++ rest, getF p = done (F p)) →
      pre[bestIdx]? = some pb →
      (∀ p ∈ pre, val (F pb) ≤ val (F p)) →
      (∀ j p, j < bestIdx → pre[j]? = some p → val (F pb) < val (F p)) →
      ∃ k pk, scanBest lt getF rest pre.length bestIdx (F pb) = done k ∧
        (pre ++ rest)[k]? = some pk ∧
        (∀ p ∈ pre ++ rest, val (F pk) ≤ val (F p)) ∧
        (∀ j p, j < k → (pre ++ rest)[j]? = some p → val (F pk) < val (F p)) := by
  intro rest
  induction rest with
  | nil =>
    intro pre bestIdx pb hF hb hmin hfirst
    refine ⟨bestIdx, pb, rfl, ?_, ?_, ?_⟩
    · simpa using hb
    · simpa using hmin
    · simpa using hfirst
  | cons q rest ih =>
    intro pre bestIdx pb hF hb hmin hfirst
    have hq : getF q = done (F q) := hF q (by simp)
    have hlen : bestIdx < pre.length := by
      by_contra hcon
      rw [List.getElem?_eq_none (by omega)] at hb
      exact Option.noConfusion hb
    simp only [scanBest, hq]
    have happ : pre ++ q :: rest = (pre ++ [q]) ++ rest := by simp
    have hlen2 : (pre ++ [q]).length = pre.length + 1 := by simp
    by_cases hcmp : lt (F q) (F pb) = true
    · simp only [hcmp, if_true]
      have hlt2 : val (F q) < val (F pb) := (hlt _ _).mp hcmp
      have := ih (pre ++ [q]) pre.length q (by rw [← happ]; exact hF)
        (by simp)
        (by
          intro p hp
          rw [List.mem_append] at hp
          rcases hp with hp | hp
          · exact le_trans hlt2.le (hmin p hp)
          · simp at hp; subst hp; exact le_refl _)
        (by
          intro j p hj hp
          rw [List.getElem?_append_left hj] at hp
          exact lt_of_lt_of_le hlt2 (hmin p (List.getElem?_mem hp)))
      rw [hlen2, ← happ] at this
      exact this
    · simp only [hcmp]
      have hnlt : ¬ val (F q) < val (F pb) := fun h => hcmp ((hlt _ _).mpr h)
      have := ih (pre ++ [q]) bestIdx pb (by rw [← happ]; exact hF)
        (by rw [List.getElem?_append_left hlen]; exact hb)
        (by
          intro p hp
          rw [List.mem_append] at hp
          rcases hp with hp | hp
          · exact hmin p hp
          · simp at hp; subst hp; exact not_lt.mp hnlt)
        (by
          intro j p hj hp
          rw [List.getElem?_append_left (by omega)] at hp
          exact hfirst j p hj hp)
      rw [hlen2, ← happ] at this
      simpa using this

theorem bestIndex_spec {β : Type} [LinearOrder β] (val : FScore → β)
    (lt : FScore → FScore → Bool) (hlt : ∀ a b, lt a b = true ↔ val a < val b)
    (getF : Position → Outcome FScore) (F : Position → FScore) (openList : List Position)
    (hne : openList ≠ []) (hF : ∀ p ∈ openList, getF p = done (F p)) :
    ∃ k pk, bestIndex lt getF openList = done k ∧ openList[k]? = some pk ∧
      (∀ p ∈ openList, val (F pk) ≤ val (F p)) ∧
      (∀ j p, j < k → openList[j]? = some p → val (F pk) < val (F p)) := by
  cases openList with
  | nil => exact absurd rfl hne
  | cons p0 rest =>
    have h0 : getF p0 = done (F p0) := hF p0 (by simp)
    simp only [bestIndex, h0]
    have := scanBest_spec val lt hlt getF F rest [p0] 0 p0 (by simpa using hF) (by simp)
      (by intro p hp; simp at hp; subst hp; exact le_refl _)
      (by intro j p hj; omega)
    simpa using this

/-! ## Paths -/

theorem validChain_iff (input : List Char) (W H : Nat) :
    ∀ l : List Position, validChain input W H l ↔ List.Chain' (validStep input W H) l := by
  intro l
  induction l with
  | nil => simp [validChain]
  | cons a t ih =>
    cases t with
    | nil => simp [validChain]
    | cons b rest =>
      rw [List.chain'_cons, ← ih]
      simp [validChain]

theorem isPath_single (input : List Char) (W H : Nat) (a : Position) :
    isPath input W H a a [a] := by
  unfold isPath; simp [validChain]

theorem isPath_snoc {input : List Char} {W H : Nat} {a b c : Position} {π : List Position}
    (h : isPath input W H a b π) (hs : validStep input W H b c) :
    isPath input W H a c (π ++ [c]) := by
  obtain ⟨h1, h2, h3⟩ := h
  have hne : π ≠ [] := by
    intro he; rw [he] at h1; simp at h1
  refine ⟨?_, by simp, ?_⟩
  · rw [List.head?_append_of_ne_nil _ hne]; exact h1
  · rw [validChain_iff] at h3 ⊢
    rw [List.chain'_append]
    refine ⟨h3, by simp, ?_⟩
    intro x hx y hy
    rw [h2] at hx
    simp only [Option.mem_def, Option.some.injEq] at hx
    simp only [List.head?_cons, Option.mem_def, Option.some.injEq] at hy
    subst hx; subst hy
    exact hs

theorem pathCost_single (input : List Char) (W : Nat) (a : Position) :
    pathCost input W [a] = 0 := by
  unfold pathCost; simp

theorem pathCost_snoc (input : List Char) (W : Nat) (π : List Position) (c : Position)
    (hne : π ≠ []) : pathCost input W (π ++ [c]) = pathCost input W π + cellCost input W c := by
  unfold pathCost
  cases π with
  | nil => exact absurd rfl hne
  | cons a t => simp

theorem isPath_ne_nil {input : List Char} {W H : Nat} {a b : Position} {π : List Position}
    (h : isPath input W H a b π) : π ≠ [] := by
  intro he; rw [he] at h; simp [isPath] at h

/-- Induction along a path, one move at a time from its first cell. -/
theorem isPath_induction {input : List Char} {W H : Nat} {start : Position}
    (P : Position → List Position → Prop) (h0 : P start [start])
    (hstep : ∀ b c π, isPath input W H start b π → P b π → validStep input W H b c →
      P c (π ++ [c])) :
    ∀ (π : List Position) (u : Position), isPath input W H start u π → P u π := by
  intro π
  induction π using List.reverseRecOn with
  | nil => intro u h; exact absurd rfl (isPath_ne_nil h)
  | append_singleton π c ih =>
    intro u h
    obtain ⟨h1, h2, h3⟩ := h
    have hcu : c = u := by simpa using h2
    subst hcu
    by_cases hne : π = []
    · subst hne
      simp only [List.nil_append, List.head?_cons, Option.some.injEq] at h1
      subst h1
      exact h0
    · rw [validChain_iff, List.chain'_append] at h3
      obtain ⟨h4, _, h5⟩ := h3
      rw [← validChain_iff] at h4
      obtain ⟨b, hb⟩ : ∃ b, π.getLast? = some b := by
        cases hl : π.getLast? with
        | none => exact absurd (List.getLast?_eq_none_iff.mp hl) hne
        | some b => exact ⟨b, rfl⟩
      have hpath : isPath input W H start b π := by
        refine ⟨?_, hb, h4⟩
        rw [List.head?_append_of_ne_nil _ hne] at h1
        exact h1
      exact hstep b c π hpath (ih b hpath) (h5 b (by simp [hb]) c (by simp))

theorem isPath_last_inBounds {input : List Char} {W H : Nat} {start : Position}
    (hs : ¬ outOfBounds W H start) :
    ∀ (π : List Position) (u : Position), isPath input W H start u π → ¬ outOfBounds W H u := by
  apply isPath_induction (fun u _ => ¬ outOfBounds W H u) hs
  intro b c π _ _ hstep
  exact hstep.2.1

/-! ## Counting cells -/

theorem length_le_cells {W H : Nat} (l : List Position) (hnd : l.Nodup)
    (hin : ∀ p ∈ l, ¬ outOfBounds W H p) : l.length ≤ W * H := by
  have hmap : (l.map (fun p => (coord_to_idx p.x p.y W).toNat)).Nodup := by
    apply List.Nodup.map_on _ hnd
    intro p hp q hq h
    exact idx_toNat_inj (hin p hp) (hin q hq) h
  have hsub : (l.map (fun p => (coord_to_idx p.x p.y W).toNat)).toFinset ⊆ Finset.range (W * H) := by
    intro n hn
    simp only [List.mem_toFinset, List.mem_map] at hn
    obtain ⟨p, hp, rfl⟩ := hn
    exact Finset.mem_range.mpr (idx_lt (hin p hp))
  have hcard := Finset.card_le_card hsub
  rw [List.toFinset_card_of_nodup hmap, Finset.card_range, List.length_map] at hcard
  exact hcard

/-! ## Walking the predecessor map -/

theorem cellCost_pos (input : List Char) (W : Nat) (p : Position) : 1 ≤ cellCost input W p := by
  unfold cellCost; split <;> omega

theorem mem_eraseIdx_of_ne {α : Type} {l : List α} {k : Nat} {c q : α}
    (hk : l[k]? = some c) (hq : q ∈ l) (hne : q ≠ c) : q ∈ l.eraseIdx k := by
  rw [List.mem_eraseIdx_iff_getElem?]
  obtain ⟨i, hi⟩ := List.getElem?_of_mem hq
  refine ⟨i, ?_, hi⟩
  intro hik
  rw [hik, hk] at hi
  simp only [Option.some.injEq] at hi
  exact hne hi.symm

/-- From a predecessor map in which every reached cell other than `start` points to a
cheaper reached neighbour, the walk from a reached cell `p` yields a path from `start`
to `p` that costs at most the g-score of `p`. -/
theorem walk_tree {input : List Char} {W H : Nat} {start : Position}
    {g : List GScore} {prev : List Position}
    (hs : ¬ outOfBounds W H start) (hps : rd W prev start = done sentinel)
    (htree : ∀ p n, ¬ outOfBounds W H p → p ≠ start → rd W g p = done (some n) →
      ∃ q m, rd W prev p = done q ∧ ¬ outOfBounds W H q ∧ validStep input W H q p ∧
        rd W g q = done (some m) ∧ m + cellCost input W p ≤ n) :
    ∀ (n : Nat) (p : Position), ¬ outOfBounds W H p → rd W g p = done (some n) →
      ∃ π, isPath input W H start p π ∧ pathCost input W π ≤ n ∧ π.Nodup ∧
        (∀ x ∈ π, ¬ outOfBounds W H x ∧ ∃ k, k ≤ n ∧ rd W g x = done (some k)) ∧
        ∀ fuel acc, π.length ≤ fuel →
          reconstruct_loop prev W fuel p (p :: acc) = done (π ++ acc) := by
  intro n
  induction n using Nat.strong_induction_on with
  | _ n ih =>
    intro p hp hn
    by_cases hps' : p = start
    · subst hps'
      refine ⟨[p], isPath_single _ _ _ _, by rw [pathCost_single]; omega, by simp, ?_, ?_⟩
      · intro x hx
        simp only [List.mem_singleton] at hx
        subst hx
        exact ⟨hp, n, le_refl _, hn⟩
      · intro fuel acc hf
        obtain ⟨k, rfl⟩ : ∃ k, fuel = k + 1 := ⟨fuel - 1, by simp at hf; omega⟩
        simp [reconstruct_loop, rd_eq, hps]
    · obtain ⟨q, m, hq1, hq2, hq3, hq4, hq5⟩ := htree p n hp hps' hn
      have hc := cellCost_pos input W p
      obtain ⟨π, h1, h2, h3, h4, h5⟩ := ih m (by omega) q hq2 hq4
      have hne := isPath_ne_nil h1
      refine ⟨π ++ [p], isPath_snoc h1 hq3, ?_, ?_, ?_, ?_⟩
      · rw [pathCost_snoc _ _ _ _ hne]; omega
      · rw [List.nodup_append]
        refine ⟨h3, by simp, ?_⟩
        intro x hx hx2
        simp only [List.mem_singleton] at hx2
        subst hx2
        obtain ⟨_, k, hk, hk2⟩ := h4 x hx
        rw [hn] at hk2
        have := done_inj hk2
        simp only [Option.some.injEq] at this
        omega
      · intro x hx
        rw [List.mem_append] at hx
        rcases hx with hx | hx
        · obtain ⟨hx1, k, hk, hk2⟩ := h4 x hx
          exact ⟨hx1, k, by omega, hk2⟩
        · simp only [List.mem_singleton] at hx
          subst hx
          exact ⟨hp, n, le_refl _, hn⟩
      · intro fuel acc hf
        obtain ⟨k, rfl⟩ : ∃ k, fuel = k + 1 := ⟨fuel - 1, by simp at hf; omega⟩
        have hqs : q ≠ sentinel := by
          intro he
          rw [he] at hq2
          exact hq2 (sentinel_outOfBounds W H)
        simp only [reconstruct_loop, rd_eq, hq1, hqs, ne_eq, not_false_eq_true, if_true]
        rw [h5 k (p :: acc) (by simp at hf; omega)]
        simp

/-- The walk of the predecessor map, as run by `reconstruct_path`. -/
theorem reconstruct_path_tree {input : List Char} {W H : Nat} {start goal : Position}
    {g : List GScore} {prev : List Position}
    (hs : ¬ outOfBounds W H start) (hps : rd W prev start = done sentinel)
    (htree : ∀ p n, ¬ outOfBounds W H p → p ≠ start → rd W g p = done (some n) →
      ∃ q m, rd W prev p = done q ∧ ¬ outOfBounds W H q ∧ validStep input W H q p ∧
        rd W g q = done (some m) ∧ m + cellCost input W p ≤ n)
    (n : Nat) (hgoal : ¬ outOfBounds W H goal) (hn : rd W g goal = done (some n))
    (fuel : Nat) (hfuel : W * H ≤ fuel) :
    ∃ π, reconstruct_path fuel prev goal W = done π ∧ isPath input W H start goal π ∧
      pathCost input W π ≤ n := by
  obtain ⟨π, h1, h2, h3, h4, h5⟩ := walk_tree hs hps htree n goal hgoal hn
  have hlen : π.length ≤ W * H := length_le_cells π h3 (fun x hx => (h4 x hx).1)
  refine ⟨π, ?_, h1, h2⟩
  unfold reconstruct_path
  rw [h5 fuel [] (by omega)]
  simp

/-! ## One call of `checkNeighbour` in `find_path_a_star` -/

theorem cell_facts {input : List Char} {W : Nat} {p : Position} {c : Char}
    (h : rd W input p = done c) :
    (blocked input W p ↔ c = '#') ∧ cellCost input W p = (if c = 'o' then 10 else 1) := by
  unfold rd at h
  unfold blocked cellCost
  rw [h]
  simp

theorem gLt_some_iff (n : Nat) (g : GScore) :
    gLt (some n) g = true ↔ g = none ∨ ∃ m, g = some m ∧ n < m := by
  cases g with
  | none => simp [gLt]
  | some m => simp [gLt]

theorem gLt_false_some (n : Nat) (g : GScore) (h : ¬ gLt (some n) g = true) :
    ∃ m, g = some m ∧ m ≤ n := by
  cases g with
  | none => simp [gLt] at h
  | some m => simp [gLt] at h; exact ⟨m, rfl, h⟩

/-- What one call `checkNeighbour(p)` does to the state of `find_path_a_star`. -/
theorem a_star_checkNeighbour_spec {input : List Char} {W H : Nat} (goal : Position)
    {cur : Position}
    {st : AStarState} {gc : Nat}
    (hin : input.length = W * H) (hg : st.g.length = W * H) (hf : st.f.length = W * H)
    (hprev : st.prev.length = W * H)
    (hgc : rd W st.g cur = done (some gc)) (p : Position) :
    ∃ st', a_star_checkNeighbour input W H goal cur st p = done st' ∧
      st'.closedList = st.closedList ∧
      ((outOfBounds W H p ∨ blocked input W p) ∧ st' = st ∨
       (¬ outOfBounds W H p ∧ ¬ blocked input W p ∧
        st'.openList = (if p ∈ st.openList then st.openList else st.openList ++ [p]) ∧
        ∃ gp, rd W st.g p = done gp ∧
          ((gLt (some (gc + cellCost input W p)) gp = true ∧
             st'.g = wr W st.g p (some (gc + cellCost input W p)) ∧
             st'.prev = wr W st.prev p cur ∧
             st'.f = wr W st.f p (some (gc + cellCost input W p, heuristic p goal))) ∨
           (¬ gLt (some (gc + cellCost input W p)) gp = true ∧
             st'.g = st.g ∧ st'.prev = st.prev ∧ st'.f = st.f)))) := by
  by_cases hoob : outOfBounds W H p
  · refine ⟨st, ?_, rfl, Or.inl ⟨Or.inl hoob, rfl⟩⟩
    simp [a_star_checkNeighbour, hoob]
  · obtain ⟨c, hc⟩ := rd_total hoob hin
    obtain ⟨gp, hgp⟩ := rd_total hoob hg
    obtain ⟨hbl, hcost⟩ := cell_facts hc
    have hc' : vget input (coord_to_idx p.x p.y W) = done c := hc
    have hgc' : vget st.g (coord_to_idx cur.x cur.y W) = done (some gc) := hgc
    have hgp' : vget st.g (coord_to_idx p.x p.y W) = done gp := hgp
    by_cases hblk : c = '#'
    · refine ⟨st, ?_, rfl, Or.inl ⟨Or.inr (hbl.mpr hblk), rfl⟩⟩
      simp [a_star_checkNeighbour, hoob, hc', hblk]
    · have hnb : ¬ blocked input W p := fun h => hblk (hbl.mp h)
      by_cases hlt : gLt (some (gc + cellCost input W p)) gp = true
      · refine ⟨{ st with
            prev := wr W st.prev p cur, g := wr W st.g p (some (gc + cellCost input W p)),
            f := wr W st.f p (some (gc + cellCost input W p, heuristic p goal)),
            openList := if p ∈ st.openList then st.openList else st.openList ++ [p] },
          ?_, rfl, Or.inr ⟨hoob, hnb, rfl, gp, hgp, Or.inl ⟨hlt, rfl, rfl, rfl⟩⟩⟩
        rw [hcost] at hlt
        simp only [a_star_checkNeighbour, hoob, if_false, hc', hblk, hgc', hgp', gAdd,
          Option.map_some', hlt, if_true, vset_eq _ hoob hprev, vset_eq _ hoob hg,
          vset_eq _ hoob hf, fAdd, hcost]
        by_cases hmem : p ∈ st.openList <;> simp [hmem]
      · refine ⟨{ st with
            openList := if p ∈ st.openList then st.openList else st.openList ++ [p] },
          ?_, rfl, Or.inr ⟨hoob, hnb, rfl, gp, hgp, Or.inr ⟨hlt, rfl, rfl, rfl⟩⟩⟩
        rw [hcost] at hlt
        simp only [a_star_checkNeighbour, hoob, if_false, hc', hblk, hgc', hgp', gAdd,
          Option.map_some', hlt]
        by_cases hmem : p ∈ st.openList <;> simp [hmem]


/-- Effect of `checkNeighbour(p)` on an in-bounds, non-Blocked `p`, cell by cell. -/
theorem a_star_checkNeighbour_frame {input : List Char} {W H : Nat} {start : Position}
    (goal : Position) {cur : Position}
    {st : AStarState} {gc : Nat}
    (hin : input.length = W * H) (hg : st.g.length = W * H) (hf : st.f.length = W * H)
    (hprev : st.prev.length = W * H)
    (hgc : rd W st.g cur = done (some gc))
    (hstart : rd W st.g start = done (some 0))
    (p : Position) (hp : ¬ outOfBounds W H p) (hnb : ¬ blocked input W p) :
    ∃ st', a_star_checkNeighbour input W H goal cur st p = done st' ∧
      st'.closedList = st.closedList ∧
      st'.openList = (if p ∈ st.openList then st.openList else st.openList ++ [p]) ∧
      st'.g.length = W * H ∧ st'.f.length = W * H ∧ st'.prev.length = W * H ∧
      (∀ q m, ¬ outOfBounds W H q → rd W st.g q = done (some m) →
        ∃ m', m' ≤ m ∧ rd W st'.g q = done (some m')) ∧
      (∀ q, ¬ outOfBounds W H q → q ≠ p →
        rd W st'.g q = rd W st.g q ∧ rd W st'.prev q = rd W st.prev q ∧
        rd W st'.f q = rd W st.f q) ∧
      (∃ m', rd W st'.g p = done (some m') ∧ m' ≤ gc + cellCost input W p) ∧
      ((rd W st'.g p = rd W st.g p ∧ rd W st'.prev p = rd W st.prev p ∧
          rd W st'.f p = rd W st.f p) ∨
       (rd W st'.g p = done (some (gc + cellCost input W p)) ∧ rd W st'.prev p = done cur ∧
          rd W st'.f p = done (some (gc + cellCost input W p, heuristic p goal)) ∧
          p ≠ start)) := by
  obtain ⟨st', h1, h2, h3⟩ := a_star_checkNeighbour_spec goal hin hg hf hprev hgc p
  rcases h3 with ⟨h3, _⟩ | ⟨_, _, hopen, gp, hgp, h4⟩
  · rcases h3 with h3 | h3
    · exact absurd h3 hp
    · exact absurd h3 hnb
  · refine ⟨st', h1, h2, hopen, ?_⟩
    rcases h4 with ⟨hlt, e1, e2, e3⟩ | ⟨hlt, e1, e2, e3⟩
    · have hne : p ≠ start := by
        intro he
        rw [he, hstart] at hgp
        rw [← done_inj hgp] at hlt
        simp [gLt] at hlt
      rw [e1, e2, e3]
      refine ⟨by rw [wr_length]; exact hg, by rw [wr_length]; exact hf,
        by rw [wr_length]; exact hprev, ?_, ?_, ?_, ?_⟩
      · intro q m hq hm
        by_cases hqp : q = p
        · subst hqp
          rw [hm] at hgp
          rw [← done_inj hgp] at hlt
          simp only [gLt, decide_eq_true_eq] at hlt
          exact ⟨_, hlt.le, rd_wr_same _ hq hg⟩
        · exact ⟨m, le_refl _, by rw [rd_wr_other _ hp hq hqp]; exact hm⟩
      · intro q hq hqp
        exact ⟨rd_wr_other _ hp hq hqp, rd_wr_other _ hp hq hqp, rd_wr_other _ hp hq hqp⟩
      · exact ⟨_, rd_wr_same _ hp hg, le_refl _⟩
      · exact Or.inr ⟨rd_wr_same _ hp hg, rd_wr_same _ hp hprev, rd_wr_same _ hp hf, hne⟩
    · rw [e1, e2, e3]
      refine ⟨hg, hf, hprev, ?_, ?_, ?_, ?_⟩
      · intro q m _ hm
        exact ⟨m, le_refl _, hm⟩
      · intro q _ _
        exact ⟨rfl, rfl, rfl⟩
      · obtain ⟨m, hm, hle⟩ := gLt_false_some _ _ hlt
        exact ⟨m, by rw [hgp, hm], hle⟩
      · exact Or.inl ⟨rfl, rfl, rfl⟩

theorem validStep_adjacent_ne {input : List Char} {W H : Nat} {p q : Position}
    (h : validStep input W H p q) : q ≠ p := adjacent_ne h.1

/-- One call `checkNeighbour(p)` keeps the loop invariant and settles the neighbour `p`. -/
theorem a_star_checkNeighbour_inv {input : List Char} {W H : Nat} {start goal cur : Position}
    {v : Position → Nat} {T : Position → Prop} {st : AStarState} {gc : Nat}
    (hinv : AStarInv input W H start goal v cur T st)
    (hcur : ¬ outOfBounds W H cur)
    (hgc : rd W st.g cur = done (some gc)) (hv : v cur = gc)
    (p : Position) (hadj : adjacent cur p) :
    ∃ st', a_star_checkNeighbour input W H goal cur st p = done st' ∧
      AStarInv input W H start goal v cur (fun q => T q ∧ q ≠ p) st' ∧
      st'.closedList = st.closedList ∧
      st'.openList.length ≤ st.openList.length + 1 ∧
      rd W st'.g cur = done (some gc) := by
  by_cases hvalid : ¬ outOfBounds W H p ∧ ¬ blocked input W p
  · obtain ⟨hp, hnb⟩ := hvalid
    obtain ⟨st', h1, hcl, hop, lg, lf, lp, hmono, hframe, hrel, hcase⟩ :=
      a_star_checkNeighbour_frame goal hinv.len_in hinv.len_g hinv.len_f hinv.len_prev
        hgc hinv.g_start p hp hnb
    have hpc : p ≠ cur := adjacent_ne hadj
    have hsub : ∀ q, q ∈ st.openList → q ∈ st'.openList := by
      intro q hq
      rw [hop]
      by_cases hmem : p ∈ st.openList
      · simpa [hmem] using hq
      · simp [hmem, hq]
    have hpmem : p ∈ st'.openList := by
      rw [hop]
      by_cases hmem : p ∈ st.openList <;> simp [hmem]
    have hopen_cases : ∀ q, q ∈ st'.openList → q ∈ st.openList ∨ q = p := by
      intro q hq
      rw [hop] at hq
      by_cases hmem : p ∈ st.openList
      · simp only [hmem, if_true] at hq; exact Or.inl hq
      · simp only [hmem, if_false, List.mem_append, List.mem_singleton] at hq; exact hq
    have hgcur : rd W st'.g cur = done (some gc) := by
      rw [(hframe cur hcur hpc.symm).1]; exact hgc
    refine ⟨st', h1, ?_, hcl, ?_, hgcur⟩
    · refine
        { len_in := hinv.len_in, len_g := lg, len_f := lf, len_prev := lp,
          open_inb := ?_, closed_inb := by rw [hcl]; exact hinv.closed_inb,
          closed_nodup := by rw [hcl]; exact hinv.closed_nodup,
          start_inb := hinv.start_inb, g_start := ?_, prev_start := ?_, f_eq := ?_,
          open_fin := ?_, tree := ?_, start_queued := ?_,
          goal_open := by rw [hcl]; exact hinv.goal_open, relaxed := ?_,
          opt := by rw [hcl]; exact hinv.opt }
      · intro q hq
        rcases hopen_cases q hq with h | h
        · exact hinv.open_inb q h
        · rw [h]; exact hp
      · by_cases hsp : start = p
        · rcases hcase with ⟨e, _, _⟩ | ⟨_, _, _, hne⟩
          · rw [hsp, e, ← hsp]; exact hinv.g_start
          · exact absurd hsp.symm hne
        · rw [(hframe start hinv.start_inb hsp).1]; exact hinv.g_start
      · by_cases hsp : start = p
        · rcases hcase with ⟨_, e, _⟩ | ⟨_, _, _, hne⟩
          · rw [hsp, e, ← hsp]; exact hinv.prev_start
          · exact absurd hsp.symm hne
        · rw [(hframe start hinv.start_inb hsp).2.1]; exact hinv.prev_start
      · intro q n hq hn
        by_cases hqp : q = p
        · subst hqp
          rcases hcase with ⟨e1, _, e3⟩ | ⟨e1, _, e3, _⟩
          · rw [e3]; rw [e1] at hn; exact hinv.f_eq q n hq hn
          · rw [e1] at hn
            have hn' := done_inj hn
            simp only [Option.some.injEq] at hn'
            rw [e3, hn']
        · rw [(hframe q hq hqp).2.2]
          rw [(hframe q hq hqp).1] at hn
          exact hinv.f_eq q n hq hn
      · intro q hq
        rcases hopen_cases q hq with h | h
        · obtain ⟨n, hn⟩ := hinv.open_fin q h
          obtain ⟨m', _, hm'⟩ := hmono q n (hinv.open_inb q h) hn
          exact ⟨m', hm'⟩
        · obtain ⟨m', hm', _⟩ := hrel
          rw [h]; exact ⟨m', hm'⟩
      · intro q n hq hqs hn
        have hold : ∀ n0, rd W st.g q = done (some n0) → rd W st.prev q = rd W st'.prev q →
            n0 ≤ n →
            ∃ r m, rd W st'.prev q = done r ∧ ¬ outOfBounds W H r ∧ validStep input W H r q ∧
              rd W st'.g r = done (some m) ∧ m + cellCost input W q ≤ n := by
          intro n0 hn0 hpe hle
          obtain ⟨r, m, hr1, hr2, hr3, hr4, hr5⟩ := hinv.tree q n0 hq hqs hn0
          obtain ⟨m', hm'le, hm'⟩ := hmono r m hr2 hr4
          exact ⟨r, m', by rw [← hpe]; exact hr1, hr2, hr3, hm', by omega⟩
        by_cases hqp : q = p
        · subst hqp
          rcases hcase with ⟨e1, e2, _⟩ | ⟨e1, e2, _, _⟩
          · rw [e1] at hn
            exact hold n hn e2.symm (le_refl _)
          · rw [e1] at hn
            have hn' := done_inj hn
            simp only [Option.some.injEq] at hn'
            exact ⟨cur, gc, e2, hcur, ⟨hadj, hq, hnb⟩, hgcur, by omega⟩
        · obtain ⟨e1, e2, _⟩ := hframe q hq hqp
          rw [e1] at hn
          exact hold n hn e2.symm (le_refl _)
      · rcases hinv.start_queued with h | h
        · exact Or.inl (hsub _ h)
        · exact Or.inr (by rw [hcl]; exact h)
      · intro a ha q hstep hT
        rw [hcl] at ha
        by_cases hcase2 : a = cur ∧ q = p
        · obtain ⟨ha2, hq2⟩ := hcase2
          subst ha2; subst hq2
          obtain ⟨m', hm', hle⟩ := hrel
          exact ⟨Or.inl hpmem, m', hm', by rw [hv]; exact hle⟩
        · have hT' : a = cur → ¬ T q := by
            intro hac hTq
            exact hT hac ⟨hTq, fun hqp => hcase2 ⟨hac, hqp⟩⟩
          obtain ⟨hmem, m, hm, hle⟩ := hinv.relaxed a ha q hstep hT'
          obtain ⟨m', hm'le, hm'⟩ := hmono q m hstep.2.1 hm
          refine ⟨?_, m', hm', by omega⟩
          rcases hmem with h | h
          · exact Or.inl (hsub _ h)
          · exact Or.inr (by rw [hcl]; exact h)
    · rw [hop]
      by_cases hmem : p ∈ st.openList <;> simp [hmem]
  · obtain ⟨st', h1, h2, h3⟩ := a_star_checkNeighbour_spec goal hinv.len_in hinv.len_g
      hinv.len_f hinv.len_prev hgc p
    have hst : st' = st := by
      rcases h3 with ⟨_, h⟩ | ⟨h, h', _⟩
      · exact h
      · exact absurd ⟨h, h'⟩ hvalid
    subst hst
    refine ⟨st', h1, ?_, rfl, by omega, hgc⟩
    refine { hinv with relaxed := ?_ }
    intro a ha q hstep hT
    apply hinv.relaxed a ha q hstep
    intro hac hTq
    apply hT hac
    refine ⟨hTq, ?_⟩
    intro hqp
    subst hqp
    exact hvalid ⟨hstep.2.1, hstep.2.2⟩


/-! ## One iteration of the main loop of `find_path_a_star` -/

theorem a_star_inv_weaken {input : List Char} {W H : Nat} {start goal cur : Position}
    {v : Position → Nat} {T : Position → Prop} {st : AStarState}
    (h : AStarInv input W H start goal v cur T st)
    (hT : ∀ q, validStep input W H cur q → ¬ T q) (cur' : Position) :
    AStarInv input W H start goal v cur' (fun _ => False) st :=
  { h with
    relaxed := fun a ha q hstep _ =>
      h.relaxed a ha q hstep (fun hac => hT q (hac ▸ hstep)) }

theorem a_star_expand_inv {input : List Char} {W H : Nat} {start goal cur : Position}
    {v : Position → Nat} {st : AStarState} {gc : Nat}
    (hinv : AStarInv input W H start goal v cur (fun _ => True) st)
    (hcur : ¬ outOfBounds W H cur)
    (hgc : rd W st.g cur = done (some gc)) (hv : v cur = gc) :
    ∃ st', a_star_expand input W H goal cur st = done st' ∧
      AStarInv input W H start goal v cur (fun _ => False) st' ∧
      st'.closedList = st.closedList ∧
      st'.openList.length ≤ st.openList.length + 4 := by
  have a1 : adjacent cur ⟨cur.x + 1, cur.y + 0⟩ := by unfold adjacent; simp
  have a2 : adjacent cur ⟨cur.x - 1, cur.y + 0⟩ := by unfold adjacent; simp
  have a3 : adjacent cur ⟨cur.x + 0, cur.y + 1⟩ := by unfold adjacent; simp
  have a4 : adjacent cur ⟨cur.x + 0, cur.y - 1⟩ := by unfold adjacent; simp
  obtain ⟨s1, e1, i1, c1, l1, g1⟩ := a_star_checkNeighbour_inv hinv hcur hgc hv _ a1
  obtain ⟨s2, e2, i2, c2, l2, g2⟩ := a_star_checkNeighbour_inv i1 hcur g1 hv _ a2
  obtain ⟨s3, e3, i3, c3, l3, g3⟩ := a_star_checkNeighbour_inv i2 hcur g2 hv _ a3
  obtain ⟨s4, e4, i4, c4, l4, g4⟩ := a_star_checkNeighbour_inv i3 hcur g3 hv _ a4
  refine ⟨s4, ?_, ?_, by rw [c4, c3, c2, c1], by omega⟩
  · simp only [a_star_expand, e1, Outcome.bind, e2, e3, e4]
  · apply a_star_inv_weaken i4
    intro q hstep hT
    obtain ⟨⟨⟨⟨_, h1⟩, h2⟩, h3⟩, h4⟩ := hT
    have hadj := hstep.1
    unfold adjacent at hadj
    simp only [add_zero] at h1 h2 h3 h4
    rcases hadj with h | h | h | h
    · exact h1 h
    · exact h2 h
    · exact h3 h
    · exact h4 h

/-- Along any path from `start`, either its end is closed or some open cell lies on a
route that is at least as good. -/
theorem a_star_frontier {input : List Char} {W H : Nat} {start goal cur : Position}
    {v : Position → Nat} {st : AStarState}
    (hinv : AStarInv input W H start goal v cur (fun _ => False) st) :
    ∀ (π : List Position) (u : Position), isPath input W H start u π →
      u ∈ st.closedList ∨ ∃ w ∈ st.openList, ∃ m, rd W st.g w = done (some m) ∧
        (m:ℝ) + Real.sqrt (heuristic w goal) ≤
          (pathCost input W π : ℝ) + Real.sqrt (heuristic u goal) := by
  apply isPath_induction
  · rcases hinv.start_queued with h | h
    · right
      refine ⟨start, h, 0, hinv.g_start, ?_⟩
      rw [pathCost_single]
    · exact Or.inl h
  · intro b c π hπ hP hstep
    have hne := isPath_ne_nil hπ
    have hcost : ((pathCost input W (π ++ [c]) : Nat) : ℝ) =
        (pathCost input W π : ℝ) + (cellCost input W c : ℝ) := by
      rw [pathCost_snoc _ _ _ _ hne]; push_cast; ring
    rcases hP with hb | ⟨w, hw, m, hm, hle⟩
    · obtain ⟨hmem, m, hm, hle⟩ := hinv.relaxed b hb c hstep (fun _ h => h)
      rcases hmem with h | h
      · right
        refine ⟨c, h, m, hm, ?_⟩
        have hv := hinv.opt b hb π hπ
        have : (m:ℝ) ≤ (pathCost input W π : ℝ) + (cellCost input W c : ℝ) := by
          have : m ≤ pathCost input W π + cellCost input W c := by omega
          exact_mod_cast this
        rw [hcost]; linarith
      · exact Or.inl h
    · right
      refine ⟨w, hw, m, hm, ?_⟩
      have hcons := heuristic_step b c goal hstep.1
      have hc1 : (1:ℝ) ≤ (cellCost input W c : ℝ) := by
        exact_mod_cast cellCost_pos input W c
      rw [hcost]; linarith


/-- Popping the best open member: the invariant gives its g-score as a lower bound of
every path to it, once it is not closed. -/
theorem a_star_best_opt {input : List Char} {W H : Nat} {start goal cur : Position}
    {v : Position → Nat} {st : AStarState} {pk : Position} {gc : Nat}
    (hinv : AStarInv input W H start goal v cur (fun _ => False) st)
    (hncl : pk ∉ st.closedList)
    (hmin : ∀ w ∈ st.openList, ∀ m, rd W st.g w = done (some m) →
      (gc:ℝ) + Real.sqrt (heuristic pk goal) ≤ (m:ℝ) + Real.sqrt (heuristic w goal)) :
    ∀ π, isPath input W H start pk π → gc ≤ pathCost input W π := by
  intro π hπ
  rcases a_star_frontier hinv π pk hπ with h | ⟨w, hw, m, hm, hle⟩
  · exact absurd h hncl
  · have h1 := hmin w hw m hm
    have h2 : (gc:ℝ) ≤ (pathCost input W π : ℝ) := by linarith
    exact_mod_cast h2

theorem a_star_loop_correct {input : List Char} {W H : Nat} {start goal : Position}
    (rfuel : Nat) (hr : W * H ≤ rfuel) :
    ∀ (fuel : Nat) (st : AStarState) (v : Position → Nat) (cur : Position),
      AStarInv input W H start goal v cur (fun _ => False) st →
      5 * (W * H - st.closedList.length) + st.openList.length < fuel →
      ∃ res, a_star_loop input W H goal rfuel fuel st = done res ∧
        ((res = [] ∧ ∀ π, ¬ isPath input W H start goal π) ∨
         (isPath input W H start goal res ∧
           ∀ π, isPath input W H start goal π → pathCost input W res ≤ pathCost input W π)) := by
  intro fuel
  induction fuel with
  | zero => intro st v cur _ h; omega
  | succ fuel ih =>
    intro st v cur hinv hfuel
    by_cases hopen : st.openList = []
    · refine ⟨[], by simp [a_star_loop, hopen], Or.inl ⟨rfl, ?_⟩⟩
      intro π hπ
      rcases a_star_frontier hinv π goal hπ with h | ⟨w, hw, _⟩
      · exact hinv.goal_open h
      · rw [hopen] at hw; simp at hw
    · obtain ⟨val, hval, hvs, _⟩ := fLt_order 1
      have hF : ∀ p ∈ st.openList,
          (fun p => vget st.f (coord_to_idx p.x p.y W)) p =
            done ((fun p => match rd W st.f p with | done s => s | _ => none) p) := by
        intro p hp
        obtain ⟨n, hn⟩ := hinv.open_fin p hp
        have := hinv.f_eq p n (hinv.open_inb p hp) hn
        simp only [rd_eq, this]
      obtain ⟨k, pk, hbest, hk, hmin, _⟩ := bestIndex_spec val (fLt 1) hval _ _ st.openList hopen hF
      have hpk : pk ∈ st.openList := List.getElem?_mem hk
      have hpkin := hinv.open_inb pk hpk
      obtain ⟨gc, hgc⟩ := hinv.open_fin pk hpk
      have hklt : k < st.openList.length := by
        by_contra hcon
        rw [List.getElem?_eq_none (by omega)] at hk
        exact Option.noConfusion hk
      have hminR : ∀ w ∈ st.openList, ∀ m, rd W st.g w = done (some m) →
          (gc:ℝ) + Real.sqrt (heuristic pk goal) ≤ (m:ℝ) + Real.sqrt (heuristic w goal) := by
        intro w hw m hm
        have h1 := hmin w hw
        simp only [hinv.f_eq pk gc hpkin hgc, hinv.f_eq w m (hinv.open_inb w hw) hm, hvs] at h1
        have h2 := WithTop.coe_le_coe.mp h1
        simpa using h2
      have hloop : a_star_loop input W H goal rfuel (fuel + 1) st =
          if pk = goal then reconstruct_path rfuel st.prev goal W
          else if pk ∈ st.closedList then
            a_star_loop input W H goal rfuel fuel { st with openList := st.openList.eraseIdx k }
          else
            match a_star_expand input W H goal pk
              { st with openList := st.openList.eraseIdx k,
                        closedList := st.closedList ++ [pk] } with
            | done st3 => a_star_loop input W H goal rfuel fuel st3
            | fault => fault
            | timeout => timeout := by
        rw [a_star_loop]
        simp only [hopen, if_false, hbest, vget_natCast _ _ _ hk]
        try rfl
      rw [hloop]
      by_cases hgoal : pk = goal
      · simp only [hgoal, if_true]
        subst hgoal
        obtain ⟨π0, h1, h2, h3⟩ := reconstruct_path_tree hinv.start_inb hinv.prev_start hinv.tree
          gc hpkin hgc rfuel hr
        refine ⟨π0, h1, Or.inr ⟨h2, ?_⟩⟩
        intro π hπ
        have := a_star_best_opt hinv hinv.goal_open hminR π hπ
        omega
      · simp only [hgoal, if_false]
        have herase_sub : ∀ q, q ∈ st.openList.eraseIdx k → q ∈ st.openList :=
          fun q hq => List.mem_of_mem_eraseIdx hq
        have herase_len : (st.openList.eraseIdx k).length = st.openList.length - 1 :=
          List.length_eraseIdx_of_lt hklt
        by_cases hcl : pk ∈ st.closedList
        · simp only [hcl, if_true]
          apply ih _ v cur
          · exact
              { len_in := hinv.len_in, len_g := hinv.len_g, len_f := hinv.len_f,
                len_prev := hinv.len_prev,
                open_inb := fun q hq => hinv.open_inb q (herase_sub q hq),
                closed_inb := hinv.closed_inb, closed_nodup := hinv.closed_nodup,
                start_inb := hinv.start_inb, g_start := hinv.g_start,
                prev_start := hinv.prev_start, f_eq := hinv.f_eq,
                open_fin := fun q hq => hinv.open_fin q (herase_sub q hq),
                tree := hinv.tree,
                start_queued := by
                  rcases hinv.start_queued with h | h
                  · by_cases hs : start = pk
                    · exact Or.inr (hs ▸ hcl)
                    · exact Or.inl (mem_eraseIdx_of_ne hk h hs)
                  · exact Or.inr h
                goal_open := hinv.goal_open,
                relaxed := by
                  intro a ha q hstep hT
                  obtain ⟨hmem, hrest⟩ := hinv.relaxed a ha q hstep hT
                  refine ⟨?_, hrest⟩
                  rcases hmem with h | h
                  · by_cases hs : q = pk
                    · exact Or.inr (hs ▸ hcl)
                    · exact Or.inl (mem_eraseIdx_of_ne hk h hs)
                  · exact Or.inr h
                opt := hinv.opt }
          · simp only [herase_len]
            omega
        · simp only [hcl, if_false]
          have hnd : (st.closedList ++ [pk]).Nodup := by
            rw [List.nodup_append]
            refine ⟨hinv.closed_nodup, by simp, ?_⟩
            intro x hx hx2
            simp only [List.mem_singleton] at hx2
            subst hx2
            exact hcl hx
          have hcin : ∀ q ∈ st.closedList ++ [pk], ¬ outOfBounds W H q := by
            intro q hq
            rw [List.mem_append] at hq
            rcases hq with h | h
            · exact hinv.closed_inb q h
            · simp only [List.mem_singleton] at h; subst h; exact hpkin
          have hcount := length_le_cells _ hnd hcin
          simp only [List.length_append, List.length_singleton] at hcount
          have hinv2 : AStarInv input W H start goal (Function.update v pk gc) pk
              (fun _ => True)
              { st with openList := st.openList.eraseIdx k,
                        closedList := st.closedList ++ [pk] } :=
            { len_in := hinv.len_in, len_g := hinv.len_g, len_f := hinv.len_f,
              len_prev := hinv.len_prev,
              open_inb := fun q hq => hinv.open_inb q (herase_sub q hq),
              closed_inb := hcin, closed_nodup := hnd,
              start_inb := hinv.start_inb, g_start := hinv.g_start,
              prev_start := hinv.prev_start, f_eq := hinv.f_eq,
              open_fin := fun q hq => hinv.open_fin q (herase_sub q hq),
              tree := hinv.tree,
              start_queued := by
                rcases hinv.start_queued with h | h
                · by_cases hs : start = pk
                  · exact Or.inr (by simp [hs])
                  · exact Or.inl (mem_eraseIdx_of_ne hk h hs)
                · exact Or.inr (by simp [h])
              goal_open := by
                intro h
                simp only [List.mem_append, List.mem_singleton] at h
                rcases h with h | h
                · exact hinv.goal_open h
                · exact hgoal h.symm
              relaxed := by
                intro a ha q hstep hT
                simp only [List.mem_append, List.mem_singleton] at ha
                rcases ha with ha | ha
                · have hane : a ≠ pk := fun h => hcl (h ▸ ha)
                  obtain ⟨hmem, hrest⟩ := hinv.relaxed a ha q hstep (fun _ h => h)
                  refine ⟨?_, ?_⟩
                  · rcases hmem with h | h
                    · by_cases hs : q = pk
                      · exact Or.inr (by simp [hs])
                      · exact Or.inl (mem_eraseIdx_of_ne hk h hs)
                    · exact Or.inr (by simp [h])
                  · rw [Function.update_noteq hane]; exact hrest
                · exact absurd trivial (hT ha)
              opt := by
                intro a ha π hπ
                simp only [List.mem_append, List.mem_singleton] at ha
                rcases ha with ha | ha
                · have hane : a ≠ pk := fun h => hcl (h ▸ ha)
                  rw [Function.update_noteq hane]; exact hinv.opt a ha π hπ
                · subst ha
                  rw [Function.update_same]
                  exact a_star_best_opt hinv hcl hminR π hπ }
          obtain ⟨st3, he, hinv3, hc3, hl3⟩ := a_star_expand_inv hinv2 hpkin hgc
            (Function.update_same _ _ _)
          simp only [he]
          apply ih st3 _ pk hinv3
          simp only [hc3, List.length_append, List.length_singleton]
          simp only [herase_len] at hl3
          omega


/-! ## `find_path_a_star` as a whole -/

theorem rd_replicate {α : Type} {W H : Nat} {p : Position} (a : α)
    (hp : ¬ outOfBounds W H p) : rd W (List.replicate (W * H) a) p = done a := by
  unfold rd vget
  have h1 := idx_nonneg hp
  have h2 := idx_lt hp
  simp [h1, h2]

theorem a_star_init_inv {input : List Char} {W H : Nat} {start : Position} (goal : Position)
    (hin : input.length = W * H) (hs : ¬ outOfBounds W H start)
    (v : Position → Nat) (cur : Position) :
    ∃ st, a_star_init W H start goal = done st ∧
      AStarInv input W H start goal v cur (fun _ => False) st ∧
      st.openList = [start] ∧ st.closedList = [] := by
  have hlg : (List.replicate (W * H) (none : GScore)).length = W * H := by simp
  have hlf : (List.replicate (W * H) (none : FScore)).length = W * H := by simp
  refine ⟨{ g := wr W (List.replicate (W * H) (none : GScore)) start (some 0),
            f := wr W (List.replicate (W * H) (none : FScore)) start
              (some (0, heuristic start goal)),
            prev := List.replicate (W * H) sentinel,
            openList := [start], closedList := [] }, ?_, ?_, rfl, rfl⟩
  · simp only [a_star_init, vset_eq _ hs hlg, vset_eq _ hs hlf, fAdd, Option.map_some']
  · have hg0 : ∀ p n, ¬ outOfBounds W H p →
        rd W (wr W (List.replicate (W * H) (none : GScore)) start (some 0)) p = done (some n) →
        p = start ∧ n = 0 := by
      intro p n hp hn
      by_cases hps : p = start
      · subst hps
        rw [rd_wr_same _ hp hlg] at hn
        have := done_inj hn
        simp only [Option.some.injEq] at this
        exact ⟨rfl, this.symm⟩
      · rw [rd_wr_other _ hs hp hps, rd_replicate _ hp] at hn
        have := done_inj hn
        exact Option.noConfusion this
    exact
      { len_in := hin
        len_g := by rw [wr_length]; exact hlg
        len_f := by rw [wr_length]; exact hlf
        len_prev := by simp
        open_inb := by intro p hp; simp only [List.mem_singleton] at hp; subst hp; exact hs
        closed_inb := by intro p hp; simp at hp
        closed_nodup := List.nodup_nil
        start_inb := hs
        g_start := rd_wr_same _ hs hlg
        prev_start := rd_replicate _ hs
        f_eq := by
          intro p n hp hn
          obtain ⟨h1, h2⟩ := hg0 p n hp hn
          subst h1; subst h2
          exact rd_wr_same _ hp hlf
        open_fin := by
          intro p hp
          simp only [List.mem_singleton] at hp
          subst hp
          exact ⟨0, rd_wr_same _ hs hlg⟩
        tree := by
          intro p n hp hps hn
          exact absurd (hg0 p n hp hn).1 hps
        start_queued := Or.inl (by simp)
        goal_open := by simp
        relaxed := by intro p hp; simp at hp
        opt := by intro p hp; simp at hp }

/-- With enough fuel `find_path_a_star` returns: either the empty vector, and then `goal`
cannot be reached from `start`, or a path from `start` to `goal` of least cost. -/
theorem a_star_correct {input : List Char} {W H : Nat} {start : Position} (goal : Position)
    (hin : input.length = W * H) (hs : ¬ outOfBounds W H start)
    (fuel : Nat) (hfuel : 5 * (W * H) + 2 ≤ fuel) :
    ∃ res, find_path_a_star fuel input W H start goal = done res ∧
      ((res = [] ∧ ∀ π, ¬ isPath input W H start goal π) ∨
       (isPath input W H start goal res ∧
         ∀ π, isPath input W H start goal π → pathCost input W res ≤ pathCost input W π)) := by
  obtain ⟨st, h1, h2, h3, h4⟩ := a_star_init_inv goal hin hs (fun _ => 0) start
  have := a_star_loop_correct fuel (by omega) fuel st _ _ h2 (by rw [h3, h4]; simp; omega)
  simpa only [find_path_a_star, hs, if_false, h1] using this

theorem chain_targets {α : Type} {R : α → α → Prop} :
    ∀ (l : List α) (a : α), List.Chain' R (a :: l) → ∀ x ∈ l, ∃ y, R y x := by
  intro l
  induction l with
  | nil => intro a _ x hx; simp at hx
  | cons b t ih =>
    intro a h x hx
    rw [List.chain'_cons] at h
    rcases List.mem_cons.mp hx with hx | hx
    · subst hx; exact ⟨a, h.1⟩
    · exact ih b h.2 x hx

theorem isPath_cells {input : List Char} {W H : Nat} {a b : Position} {π : List Position}
    (h : isPath input W H a b π) :
    ∀ x ∈ π.tail, ¬ outOfBounds W H x ∧ ¬ blocked input W x := by
  obtain ⟨_, _, h3⟩ := h
  rw [validChain_iff] at h3
  cases π with
  | nil => intro x hx; simp at hx
  | cons c t =>
    intro x hx
    obtain ⟨y, hy⟩ := chain_targets t c h3 x hx
    exact ⟨hy.2.1, hy.2.2⟩

/-! ## One call of `checkNeighbour` in `find_path_ara_star` -/

/-- What one call `checkNeighbour(p)` does to the globals of `find_path_ara_star`. -/
theorem ara_checkNeighbour_frame {input : List Char} {W H : Nat} {start cur : Position}
    (cl : List Position) {st : AraState} {gc : Nat}
    (hin : input.length = W * H) (hg : st.gScoreAra.length = W * H)
    (hprev : st.prevPath.length = W * H)
    (hgc : rd W st.gScoreAra cur = done (some gc))
    (hstart : rd W st.gScoreAra start = done (some 0)) (p : Position) :
    ∃ st', ara_checkNeighbour input W H cur cl st p = done st' ∧
      st'.currentPathOnDraw = st.currentPathOnDraw ∧
      st'.gScoreAra.length = W * H ∧ st'.prevPath.length = W * H ∧
      (∀ q m, ¬ outOfBounds W H q → rd W st.gScoreAra q = done (some m) →
        ∃ m', m' ≤ m ∧ rd W st'.gScoreAra q = done (some m')) ∧
      (∀ q, ¬ outOfBounds W H q → q ≠ p →
        rd W st'.gScoreAra q = rd W st.gScoreAra q ∧
        rd W st'.prevPath q = rd W st.prevPath q) ∧
      ((st' = st ∧ (outOfBounds W H p ∨ blocked input W p ∨
          ∃ m, rd W st.gScoreAra p = done (some m) ∧ m ≤ gc + cellCost input W p)) ∨
       (¬ outOfBounds W H p ∧ ¬ blocked input W p ∧ p ≠ start ∧
        rd W st'.gScoreAra p = done (some (gc + cellCost input W p)) ∧
        rd W st'.prevPath p = done cur ∧
        ((p ∈ cl ∧ st'.openListAra = st.openListAra ∧
            st'.nextIter = (if p ∈ st.nextIter then st.nextIter else st.nextIter ++ [p])) ∨
         (p ∉ cl ∧ st'.nextIter = st.nextIter ∧
            st'.openListAra =
              (if p ∈ st.openListAra then st.openListAra else st.openListAra ++ [p]))))) := by
  have hsame : ∀ q m, ¬ outOfBounds W H q → rd W st.gScoreAra q = done (some m) →
      ∃ m', m' ≤ m ∧ rd W st.gScoreAra q = done (some m') :=
    fun q m _ hm => ⟨m, le_refl _, hm⟩
  have hframe0 : ∀ q, ¬ outOfBounds W H q → q ≠ p →
      rd W st.gScoreAra q = rd W st.gScoreAra q ∧ rd W st.prevPath q = rd W st.prevPath q :=
    fun _ _ _ => ⟨rfl, rfl⟩
  by_cases hoob : outOfBounds W H p
  · refine ⟨st, ?_, rfl, hg, hprev, hsame, hframe0, Or.inl ⟨rfl, Or.inl hoob⟩⟩
    simp [ara_checkNeighbour, hoob]
  · obtain ⟨c, hc⟩ := rd_total hoob hin
    obtain ⟨gp, hgp⟩ := rd_total hoob hg
    obtain ⟨hbl, hcost⟩ := cell_facts hc
    have hc' : vget input (coord_to_idx p.x p.y W) = done c := hc
    have hgc' : vget st.gScoreAra (coord_to_idx cur.x cur.y W) = done (some gc) := hgc
    have hgp' : vget st.gScoreAra (coord_to_idx p.x p.y W) = done gp := hgp
    by_cases hblk : c = '#'
    · refine ⟨st, ?_, rfl, hg, hprev, hsame, hframe0, Or.inl ⟨rfl, Or.inr (Or.inl (hbl.mpr hblk))⟩⟩
      simp [ara_checkNeighbour, hoob, hc', hblk]
    · have hnb : ¬ blocked input W p := fun h => hblk (hbl.mp h)
      by_cases hlt : gLt (some (gc + cellCost input W p)) gp = true
      · have hne : p ≠ start := by
          intro he
          rw [he, hstart] at hgp
          rw [← done_inj hgp] at hlt
          simp [gLt] at hlt
        have hmono : ∀ q m, ¬ outOfBounds W H q → rd W st.gScoreAra q = done (some m) →
            ∃ m', m' ≤ m ∧
              rd W (wr W st.gScoreAra p (some (gc + cellCost input W p))) q = done (some m') := by
          intro q m hq hm
          by_cases hqp : q = p
          · subst hqp
            rw [hm] at hgp
            rw [← done_inj hgp] at hlt
            simp only [gLt, decide_eq_true_eq] at hlt
            exact ⟨_, hlt.le, rd_wr_same _ hq hg⟩
          · exact ⟨m, le_refl _, by rw [rd_wr_other _ hoob hq hqp]; exact hm⟩
        have hfr : ∀ q, ¬ outOfBounds W H q → q ≠ p →
            rd W (wr W st.gScoreAra p (some (gc + cellCost input W p))) q =
              rd W st.gScoreAra q ∧
            rd W (wr W st.prevPath p cur) q = rd W st.prevPath q :=
          fun q hq hqp => ⟨rd_wr_other _ hoob hq hqp, rd_wr_other _ hoob hq hqp⟩
        have hlt' := hlt
        rw [hcost] at hlt'
        by_cases hcl : p ∈ cl
        · refine ⟨{ st with
              prevPath := wr W st.prevPath p cur,
              gScoreAra := wr W st.gScoreAra p (some (gc + cellCost input W p)),
              nextIter := if p ∈ st.nextIter then st.nextIter else st.nextIter ++ [p] },
            ?_, rfl, by simp [wr_length, hg], by simp [wr_length, hprev], hmono, hfr,
            Or.inr ⟨hoob, hnb, hne, rd_wr_same _ hoob hg, rd_wr_same _ hoob hprev,
              Or.inl ⟨hcl, rfl, rfl⟩⟩⟩
          simp only [ara_checkNeighbour, hoob, if_false, hc', hblk, hgc', hgp', gAdd,
            Option.map_some', hlt', if_true, vset_eq _ hoob hprev, vset_eq _ hoob hg, hcl, hcost]
          by_cases hmem : p ∈ st.nextIter <;> simp [hmem]
        · refine ⟨{ st with
              prevPath := wr W st.prevPath p cur,
              gScoreAra := wr W st.gScoreAra p (some (gc + cellCost input W p)),
              openListAra :=
                if p ∈ st.openListAra then st.openListAra else st.openListAra ++ [p] },
            ?_, rfl, by simp [wr_length, hg], by simp [wr_length, hprev], hmono, hfr,
            Or.inr ⟨hoob, hnb, hne, rd_wr_same _ hoob hg, rd_wr_same _ hoob hprev,
              Or.inr ⟨hcl, rfl, rfl⟩⟩⟩
          simp only [ara_checkNeighbour, hoob, if_false, hc', hblk, hgc', hgp', gAdd,
            Option.map_some', hlt', if_true, vset_eq _ hoob hprev, vset_eq _ hoob hg, hcl, hcost]
          by_cases hmem : p ∈ st.openListAra <;> simp [hmem]
      · obtain ⟨m, hm, hle⟩ := gLt_false_some _ _ hlt
        refine ⟨st, ?_, rfl, hg, hprev, hsame, hframe0,
          Or.inl ⟨rfl, Or.inr (Or.inr ⟨m, by rw [hgp, hm], hle⟩)⟩⟩
        rw [hcost] at hlt
        simp [ara_checkNeighbour, hoob, hc', hblk, hgc', hgp', gAdd, hlt]


theorem mem_push_iff {α : Type} [DecidableEq α] (l : List α) (p q : α) :
    q ∈ (if p ∈ l then l else l ++ [p]) ↔ q ∈ l ∨ q = p := by
  by_cases h : p ∈ l
  · simp only [h, if_true]
    constructor
    · exact fun hq => Or.inl hq
    · rintro (hq | hq)
      · exact hq
      · rw [hq]; exact h
  · simp [h]

theorem nodup_push {α : Type} [DecidableEq α] (l : List α) (p : α) (h : l.Nodup) :
    (if p ∈ l then l else l ++ [p]).Nodup := by
  by_cases hm : p ∈ l
  · simpa [hm] using h
  · simp only [hm, if_false]
    rw [List.nodup_append]
    refine ⟨h, by simp, ?_⟩
    intro x hx hx2
    simp only [List.mem_singleton] at hx2
    subst hx2
    exact hm hx

/-- One call `checkNeighbour(p)` keeps the loop invariant of `find_path_ara_star` and
settles the neighbour `p`. -/
theorem ara_checkNeighbour_inv {input : List Char} {W H : Nat} {start goal cur : Position}
    {epsilon : ℚ} {v : Position → Option Nat} {cl : List Position} {T : Position → Prop}
    {st : AraState} {gc : Nat}
    (hinv : AraInv input W H start goal epsilon v cl cur T st)
    (hcur : ¬ outOfBounds W H cur)
    (hgc : rd W st.gScoreAra cur = done (some gc)) (hv : v cur = some gc)
    (p : Position) (hadj : adjacent cur p) :
    ∃ st', ara_checkNeighbour input W H cur cl st p = done st' ∧
      AraInv input W H start goal epsilon v cl cur (fun q => T q ∧ q ≠ p) st' ∧
      rd W st'.gScoreAra cur = done (some gc) ∧
      (∀ q m, ¬ outOfBounds W H q → rd W st.gScoreAra q = done (some m) →
        ∃ m', m' ≤ m ∧ rd W st'.gScoreAra q = done (some m')) := by
  obtain ⟨st', h1, _, lg, lp, hmono, hframe, hcase⟩ :=
    ara_checkNeighbour_frame cl hinv.len_in hinv.len_g hinv.len_prev hgc hinv.g_start p
  have hpc : p ≠ cur := adjacent_ne hadj
  rcases hcase with ⟨hst, hwhy⟩ | ⟨hp, hnb, hps, hgp, hpp, hroute⟩
  · subst hst
    refine ⟨st', h1, ?_, hgc, hmono⟩
    refine { hinv with relaxed := ?_ }
    intro a n ha q hstep hT
    by_cases hcase2 : a = cur ∧ q = p
    · obtain ⟨ha2, hq2⟩ := hcase2
      subst ha2; subst hq2
      rw [hv] at ha
      simp only [Option.some.injEq] at ha
      subst ha
      rcases hwhy with h | h | h
      · exact absurd h hstep.2.1
      · exact absurd h hstep.2.2
      · exact h
    · apply hinv.relaxed a n ha q hstep
      intro hac hTq
      exact hT hac ⟨hTq, fun hqp => hcase2 ⟨hac, hqp⟩⟩
  · have hgcur : rd W st'.gScoreAra cur = done (some gc) := by
      rw [(hframe cur hcur hpc.symm).1]; exact hgc
    have hopen_sub : ∀ q, q ∈ st.openListAra → q ∈ st'.openListAra := by
      intro q hq
      rcases hroute with ⟨_, e, _⟩ | ⟨_, _, e⟩
      · rw [e]; exact hq
      · rw [e, mem_push_iff]; exact Or.inl hq
    have hnext_sub : ∀ q, q ∈ st.nextIter → q ∈ st'.nextIter := by
      intro q hq
      rcases hroute with ⟨_, _, e⟩ | ⟨_, e, _⟩
      · rw [e, mem_push_iff]; exact Or.inl hq
      · rw [e]; exact hq
    have hopen_cases : ∀ q, q ∈ st'.openListAra → q ∈ st.openListAra ∨ (q = p ∧ p ∉ cl) := by
      intro q hq
      rcases hroute with ⟨_, e, _⟩ | ⟨hcl, _, e⟩
      · rw [e] at hq; exact Or.inl hq
      · rw [e, mem_push_iff] at hq
        rcases hq with h | h
        · exact Or.inl h
        · exact Or.inr ⟨h, hcl⟩
    have hnext_cases : ∀ q, q ∈ st'.nextIter → q ∈ st.nextIter ∨ (q = p ∧ p ∈ cl) := by
      intro q hq
      rcases hroute with ⟨hcl, _, e⟩ | ⟨_, e, _⟩
      · rw [e, mem_push_iff] at hq
        rcases hq with h | h
        · exact Or.inl h
        · exact Or.inr ⟨h, hcl⟩
      · rw [e] at hq; exact Or.inl hq
    have hfin_old : ∀ q, ¬ outOfBounds W H q → (∃ n, rd W st.gScoreAra q = done (some n)) →
        ∃ n, rd W st'.gScoreAra q = done (some n) := by
      intro q hq ⟨n, hn⟩
      obtain ⟨m', _, hm'⟩ := hmono q n hq hn
      exact ⟨m', hm'⟩
    refine ⟨st', h1, ?_, hgcur, hmono⟩
    exact
      { len_in := hinv.len_in, len_g := lg, len_prev := lp
        open_inb := by
          intro q hq
          rcases hopen_cases q hq with h | ⟨h, _⟩
          · exact hinv.open_inb q h
          · rw [h]; exact hp
        next_inb := by
          intro q hq
          rcases hnext_cases q hq with h | ⟨h, _⟩
          · exact hinv.next_inb q h
          · rw [h]; exact hp
        closed_inb := hinv.closed_inb
        open_nodup := by
          rcases hroute with ⟨_, e, _⟩ | ⟨_, _, e⟩
          · rw [e]; exact hinv.open_nodup
          · rw [e]; exact nodup_push _ _ hinv.open_nodup
        closed_nodup := hinv.closed_nodup
        open_closed := by
          intro q hq
          rcases hopen_cases q hq with h | ⟨h, hcl⟩
          · exact hinv.open_closed q h
          · rw [h]; exact hcl
        start_inb := hinv.start_inb
        goal_inb := hinv.goal_inb
        g_start := by
          rw [(hframe start hinv.start_inb (Ne.symm hps)).1]; exact hinv.g_start
        prev_start := by
          rw [(hframe start hinv.start_inb (Ne.symm hps)).2]; exact hinv.prev_start
        open_fin := by
          intro q hq
          rcases hopen_cases q hq with h | ⟨h, _⟩
          · exact hfin_old q (hinv.open_inb q h) (hinv.open_fin q h)
          · rw [h]; exact ⟨_, hgp⟩
        next_fin := by
          intro q hq
          rcases hnext_cases q hq with h | ⟨h, _⟩
          · exact hfin_old q (hinv.next_inb q h) (hinv.next_fin q h)
          · rw [h]; exact ⟨_, hgp⟩
        tree := by
          intro q n hq hqs hn
          by_cases hqp : q = p
          · subst hqp
            rw [hgp] at hn
            have hn' := done_inj hn
            simp only [Option.some.injEq] at hn'
            exact ⟨cur, gc, hpp, hcur, ⟨hadj, hq, hnb⟩, hgcur, by omega⟩
          · obtain ⟨e1, e2⟩ := hframe q hq hqp
            rw [e1] at hn
            obtain ⟨r, m, hr1, hr2, hr3, hr4, hr5⟩ := hinv.tree q n hq hqs hn
            obtain ⟨m', hm'le, hm'⟩ := hmono r m hr2 hr4
            exact ⟨r, m', by rw [e2]; exact hr1, hr2, hr3, hm', by omega⟩
        relaxed := by
          intro a n ha q hstep hT
          by_cases hcase2 : a = cur ∧ q = p
          · obtain ⟨ha2, hq2⟩ := hcase2
            subst ha2; subst hq2
            rw [hv] at ha
            simp only [Option.some.injEq] at ha
            subst ha
            exact ⟨_, hgp, le_refl _⟩
          · have hT' : a = cur → ¬ T q := by
              intro hac hTq
              exact hT hac ⟨hTq, fun hqp => hcase2 ⟨hac, hqp⟩⟩
            obtain ⟨m, hm, hle⟩ := hinv.relaxed a n ha q hstep hT'
            obtain ⟨m', hm'le, hm'⟩ := hmono q m hstep.2.1 hm
            exact ⟨m', hm', by omega⟩
        queued := by
          intro q m hq hm
          by_cases hqp : q = p
          · subst hqp
            rcases hroute with ⟨hcl, _, e⟩ | ⟨hcl, _, e⟩
            · right; right; rw [e, mem_push_iff]; exact Or.inr rfl
            · right; left; rw [e, mem_push_iff]; exact Or.inr rfl
          · rw [(hframe q hq hqp).1] at hm
            rcases hinv.queued q m hq hm with h | h | h
            · exact Or.inl h
            · exact Or.inr (Or.inl (hopen_sub q h))
            · exact Or.inr (Or.inr (hnext_sub q h))
        next_closed := by
          intro q hq
          rcases hnext_cases q hq with h | ⟨h, hcl⟩
          · exact hinv.next_closed q h
          · rw [h]; exact hcl
        closed_v := hinv.closed_v
        goal_unexp := hinv.goal_unexp }

theorem ara_inv_weaken {input : List Char} {W H : Nat} {start goal cur : Position}
    {epsilon : ℚ} {v : Position → Option Nat} {cl : List Position} {T : Position → Prop}
    {st : AraState}
    (h : AraInv input W H start goal epsilon v cl cur T st)
    (hT : ∀ q, validStep input W H cur q → ¬ T q) (cur' : Position) :
    AraInv input W H start goal epsilon v cl cur' (fun _ => False) st :=
  { h with
    relaxed := fun a n ha q hstep _ =>
      h.relaxed a n ha q hstep (fun hac => hT q (hac ▸ hstep)) }

theorem ara_expand_inv {input : List Char} {W H : Nat} {start goal cur : Position}
    {epsilon : ℚ} {v : Position → Option Nat} {cl : List Position} {st : AraState} {gc : Nat}
    (hinv : AraInv input W H start goal epsilon v cl cur (fun _ => True) st)
    (hcur : ¬ outOfBounds W H cur)
    (hgc : rd W st.gScoreAra cur = done (some gc)) (hv : v cur = some gc) :
    ∃ st', ara_expand input W H cur cl st = done st' ∧
      AraInv input W H start goal epsilon v cl cur (fun _ => False) st' ∧
      (∀ q m, ¬ outOfBounds W H q → rd W st.gScoreAra q = done (some m) →
        ∃ m', m' ≤ m ∧ rd W st'.gScoreAra q = done (some m')) := by
  have a1 : adjacent cur ⟨cur.x + 1, cur.y + 0⟩ := by unfold adjacent; simp
  have a2 : adjacent cur ⟨cur.x - 1, cur.y + 0⟩ := by unfold adjacent; simp
  have a3 : adjacent cur ⟨cur.x + 0, cur.y + 1⟩ := by unfold adjacent; simp
  have a4 : adjacent cur ⟨cur.x + 0, cur.y - 1⟩ := by unfold adjacent; simp
  obtain ⟨s1, e1, i1, g1, m1⟩ := ara_checkNeighbour_inv hinv hcur hgc hv _ a1
  obtain ⟨s2, e2, i2, g2, m2⟩ := ara_checkNeighbour_inv i1 hcur g1 hv _ a2
  obtain ⟨s3, e3, i3, g3, m3⟩ := ara_checkNeighbour_inv i2 hcur g2 hv _ a3
  obtain ⟨s4, e4, i4, g4, m4⟩ := ara_checkNeighbour_inv i3 hcur g3 hv _ a4
  refine ⟨s4, ?_, ?_, ?_⟩
  · simp only [ara_expand, e1, Outcome.bind, e2, e3, e4]
  · apply ara_inv_weaken i4
    intro q hstep hT
    obtain ⟨⟨⟨⟨_, h1⟩, h2⟩, h3⟩, h4⟩ := hT
    have hadj := hstep.1
    unfold adjacent at hadj
    simp only [add_zero] at h1 h2 h3 h4
    rcases hadj with h | h | h | h
    · exact h1 h
    · exact h2 h
    · exact h3 h
    · exact h4 h
  · intro q m hq hm
    obtain ⟨k1, l1, r1⟩ := m1 q m hq hm
    obtain ⟨k2, l2, r2⟩ := m2 q k1 hq r1
    obtain ⟨k3, l3, r3⟩ := m3 q k2 hq r2
    obtain ⟨k4, l4, r4⟩ := m4 q k3 hq r3
    exact ⟨k4, by omega, r4⟩


/-! ## The loop of `find_path_ara_star` -/

/-- Along any path from `start`: its end has a g-score within `epsilon` times the cost of
the path, or some open cell lies on a route that is at least as good. -/
theorem ara_frontier {input : List Char} {W H : Nat} {start goal cur : Position}
    {epsilon : ℚ} {v : Position → Option Nat} {cl : List Position} {st : AraState}
    (hinv : AraInv input W H start goal epsilon v cl cur (fun _ => False) st)
    (heps : 1 ≤ epsilon) :
    ∀ (π : List Position) (u : Position), isPath input W H start u π →
      (∃ m, rd W st.gScoreAra u = done (some m) ∧
        (m:ℝ) ≤ (epsilon:ℝ) * (pathCost input W π : ℝ)) ∨
      ∃ w ∈ st.openListAra, ∃ m, rd W st.gScoreAra w = done (some m) ∧
        (m:ℝ) + (epsilon:ℝ) * Real.sqrt (heuristic w goal) ≤
          (epsilon:ℝ) * ((pathCost input W π : ℝ) + Real.sqrt (heuristic u goal)) := by
  have hepsR : (1:ℝ) ≤ (epsilon:ℝ) := by exact_mod_cast heps
  apply isPath_induction
  · left
    refine ⟨0, hinv.g_start, ?_⟩
    rw [pathCost_single]; simp
  · intro b c π hπ hP hstep
    have hne := isPath_ne_nil hπ
    have hb := isPath_last_inBounds hinv.start_inb π b hπ
    have hcost : ((pathCost input W (π ++ [c]) : Nat) : ℝ) =
        (pathCost input W π : ℝ) + (cellCost input W c : ℝ) := by
      rw [pathCost_snoc _ _ _ _ hne]; push_cast; ring
    have hcons := heuristic_step b c goal hstep.1
    have hc1 : (1:ℝ) ≤ (cellCost input W c : ℝ) := by
      exact_mod_cast cellCost_pos input W c
    have hcnn : (0:ℝ) ≤ (pathCost input W π : ℝ) := Nat.cast_nonneg _
    have hsb := Real.sqrt_nonneg ((heuristic b goal : Nat) : ℝ)
    have hsc := Real.sqrt_nonneg ((heuristic c goal : Nat) : ℝ)
    have hfromv : ∀ n : Nat, v b = some n → (n:ℝ) ≤ (epsilon:ℝ) * (pathCost input W π : ℝ) →
        ∃ m, rd W st.gScoreAra c = done (some m) ∧
          (m:ℝ) ≤ (epsilon:ℝ) * (pathCost input W (π ++ [c]) : ℝ) := by
      intro n hn hle
      obtain ⟨m, hm, hmle⟩ := hinv.relaxed b n hn c hstep (fun _ h => h)
      refine ⟨m, hm, ?_⟩
      have : (m:ℝ) ≤ (n:ℝ) + (cellCost input W c : ℝ) := by exact_mod_cast hmle
      rw [hcost]
      nlinarith
    have hshift : ∀ (w : Position) (m : Nat),
        (m:ℝ) + (epsilon:ℝ) * Real.sqrt (heuristic w goal) ≤
          (epsilon:ℝ) * ((pathCost input W π : ℝ) + Real.sqrt (heuristic b goal)) →
        (m:ℝ) + (epsilon:ℝ) * Real.sqrt (heuristic w goal) ≤
          (epsilon:ℝ) * ((pathCost input W (π ++ [c]) : ℝ) + Real.sqrt (heuristic c goal)) := by
      intro w m hle
      rw [hcost]
      have h1 : (pathCost input W π : ℝ) + Real.sqrt (heuristic b goal) ≤
          (pathCost input W π : ℝ) + (cellCost input W c : ℝ) + Real.sqrt (heuristic c goal) := by
        linarith
      have h2 := mul_le_mul_of_nonneg_left h1 (by linarith : (0:ℝ) ≤ (epsilon:ℝ))
      linarith
    rcases hP with ⟨m, hm, hle⟩ | ⟨w, hw, m, hm, hle⟩
    · rcases hinv.queued b m hb hm with h | h | h
      · exact Or.inl (hfromv m h hle)
      · right
        refine ⟨b, h, m, hm, hshift b m ?_⟩
        have := mul_le_mul_of_nonneg_left (le_refl (Real.sqrt (heuristic b goal)))
          (by linarith : (0:ℝ) ≤ (epsilon:ℝ))
        linarith [mul_add (epsilon:ℝ) (pathCost input W π : ℝ) (Real.sqrt (heuristic b goal))]
      · obtain ⟨n, hn, hbound⟩ := hinv.closed_v b (hinv.next_closed b h)
        exact Or.inl (hfromv n hn (hbound heps π hπ))
    · exact Or.inr ⟨w, hw, m, hm, hshift w m hle⟩

/-- With the open list empty, every cell that can be reached from `start` has been
expanded. -/
theorem ara_all_expanded {input : List Char} {W H : Nat} {start goal cur : Position}
    {epsilon : ℚ} {v : Position → Option Nat} {cl : List Position} {st : AraState}
    (hinv : AraInv input W H start goal epsilon v cl cur (fun _ => False) st)
    (hopen : st.openListAra = []) :
    ∀ (π : List Position) (u : Position), isPath input W H start u π → ∃ n, v u = some n := by
  have hq : ∀ p m, ¬ outOfBounds W H p → rd W st.gScoreAra p = done (some m) →
      ∃ n, v p = some n := by
    intro p m hp hm
    rcases hinv.queued p m hp hm with h | h | h
    · exact ⟨m, h⟩
    · rw [hopen] at h; simp at h
    · obtain ⟨n, hn, _⟩ := hinv.closed_v p (hinv.next_closed p h)
      exact ⟨n, hn⟩
  apply isPath_induction
  · exact hq start 0 hinv.start_inb hinv.g_start
  · intro b c π _ hP hstep
    obtain ⟨n, hn⟩ := hP
    obtain ⟨m, hm, _⟩ := hinv.relaxed b n hn c hstep (fun _ h => h)
    exact hq c m hstep.2.1 hm

theorem mem_fold_next (next : List Position) :
    ∀ (o : List Position) (q : Position),
      q ∈ next.foldl (fun o q => if q ∈ o then o else o ++ [q]) o ↔ q ∈ o ∨ q ∈ next := by
  induction next with
  | nil => intro o q; simp
  | cons a t ih =>
    intro o q
    rw [List.foldl_cons, ih, mem_push_iff]
    simp only [List.mem_cons]
    tauto

theorem nodup_fold_next (next : List Position) :
    ∀ (o : List Position), o.Nodup →
      (next.foldl (fun o q => if q ∈ o then o else o ++ [q]) o).Nodup := by
  induction next with
  | nil => intro o h; simpa using h
  | cons a t ih =>
    intro o h
    rw [List.foldl_cons]
    exact ih _ (nodup_push o a h)

/-- The `else` branch leaves a state that satisfies the invariant with an empty closed
list, for whatever epsilon comes next. -/
theorem ara_fold_next_inv {input : List Char} {W H : Nat} {start goal cur : Position}
    {epsilon : ℚ} {v : Position → Option Nat} {cl : List Position} {st : AraState}
    (hinv : AraInv input W H start goal epsilon v cl cur (fun _ => False) st)
    (epsilon' : ℚ) (cur' : Position) :
    AraInv input W H start goal epsilon' v [] cur' (fun _ => False) (ara_fold_next st) :=
  { len_in := hinv.len_in, len_g := hinv.len_g, len_prev := hinv.len_prev
    open_inb := by
      intro p hp
      rcases (mem_fold_next _ _ _).mp hp with h | h
      · exact hinv.open_inb p h
      · exact hinv.next_inb p h
    next_inb := by intro p hp; simp [ara_fold_next] at hp
    closed_inb := by intro p hp; simp at hp
    open_nodup := nodup_fold_next _ _ hinv.open_nodup
    closed_nodup := List.nodup_nil
    open_closed := by intro p _ hp; simp at hp
    start_inb := hinv.start_inb, goal_inb := hinv.goal_inb
    g_start := hinv.g_start, prev_start := hinv.prev_start
    open_fin := by
      intro p hp
      rcases (mem_fold_next _ _ _).mp hp with h | h
      · exact hinv.open_fin p h
      · exact hinv.next_fin p h
    next_fin := by intro p hp; simp [ara_fold_next] at hp
    tree := hinv.tree
    relaxed := fun a n ha q hstep _ => hinv.relaxed a n ha q hstep (fun _ h => h)
    queued := by
      intro p m hp hm
      rcases hinv.queued p m hp hm with h | h | h
      · exact Or.inl h
      · exact Or.inr (Or.inl ((mem_fold_next _ _ _).mpr (Or.inl h)))
      · exact Or.inr (Or.inl ((mem_fold_next _ _ _).mpr (Or.inr h)))
    next_closed := by intro p hp; simp [ara_fold_next] at hp
    closed_v := by intro p hp; simp at hp
    goal_unexp := hinv.goal_unexp }


theorem not_mem_eraseIdx_of_nodup {α : Type} {l : List α} {k : Nat} {c : α}
    (hnd : l.Nodup) (hk : l[k]? = some c) : c ∉ l.eraseIdx k := by
  intro h
  rw [List.mem_eraseIdx_iff_getElem?] at h
  obtain ⟨i, hik, hi⟩ := h
  have hil : i < l.length := by
    by_contra hcon
    rw [List.getElem?_eq_none (by omega)] at hi
    exact Option.noConfusion hi
  have hkl : k < l.length := by
    by_contra hcon
    rw [List.getElem?_eq_none (by omega)] at hk
    exact Option.noConfusion hk
  rw [List.getElem?_eq_getElem hil] at hi
  rw [List.getElem?_eq_getElem hkl] at hk
  simp only [Option.some.injEq] at hi hk
  exact hik ((List.Nodup.getElem_inj_iff hnd).mp (hi.trans hk.symm))

theorem ara_loop_correct {input : List Char} {W H : Nat} {start goal : Position}
    (epsilon : ℚ) (rfuel : Nat) (hr : W * H ≤ rfuel) :
    ∀ (fuel : Nat) (st : AraState) (cl : List Position) (v : Position → Option Nat)
      (cur : Position),
      AraInv input W H start goal epsilon v cl cur (fun _ => False) st →
      W * H - cl.length < fuel →
      ∃ r, ara_star_loop input W H goal epsilon rfuel fuel st cl = done r ∧
        araCallSpec input W H start goal st epsilon r ∧
        (r.1 ≠ [] → r.2.nextIter = [] ∧
          ∃ v', ∀ e' c', AraInv input W H start goal e' v' [] c' (fun _ => False) r.2) := by
  intro fuel
  induction fuel with
  | zero => intro st cl v cur _ h; omega
  | succ fuel ih =>
    intro st cl v cur hinv hfuel
    have hrefl : ∀ p m, ¬ outOfBounds W H p → rd W st.gScoreAra p = done (some m) →
        ∃ m', m' ≤ m ∧ rd W st.gScoreAra p = done (some m') :=
      fun p m _ hm => ⟨m, le_refl _, hm⟩
    by_cases hopen : st.openListAra = []
    · refine ⟨([], st), by simp [ara_star_loop, hopen], ⟨hrefl, Or.inl ⟨rfl, hopen, ?_⟩⟩,
        fun h => absurd rfl h⟩
      intro π hπ
      obtain ⟨n, hn⟩ := ara_all_expanded hinv hopen π goal hπ
      rw [hinv.goal_unexp] at hn
      exact Option.noConfusion hn
    · obtain ⟨val, hval, hvs, hvn⟩ := fLt_order epsilon
      have hgetF : ∀ p g, rd W st.gScoreAra p = done g →
          ara_getF W goal st p = done (fAdd g (heuristic p goal)) := by
        intro p g hg
        unfold rd at hg
        simp [ara_getF, hg]
      have hF : ∀ p ∈ st.openListAra,
          ara_getF W goal st p =
            done ((fun p => match rd W st.gScoreAra p with
              | done g => fAdd g (heuristic p goal)
              | _ => none) p) := by
        intro p hp
        obtain ⟨n, hn⟩ := hinv.open_fin p hp
        simp only [hn]
        exact hgetF p _ hn
      obtain ⟨k, pk, hbest, hk, hmin, _⟩ :=
        bestIndex_spec val (fLt epsilon) hval _ _ st.openListAra hopen hF
      have hpk : pk ∈ st.openListAra := List.getElem?_mem hk
      have hpkin := hinv.open_inb pk hpk
      obtain ⟨gc, hgc⟩ := hinv.open_fin pk hpk
      obtain ⟨gg, hgg⟩ := rd_total hinv.goal_inb hinv.len_g
      have hminR : ∀ w ∈ st.openListAra, ∀ m, rd W st.gScoreAra w = done (some m) →
          (gc:ℝ) + (epsilon:ℝ) * Real.sqrt (heuristic pk goal) ≤
            (m:ℝ) + (epsilon:ℝ) * Real.sqrt (heuristic w goal) := by
        intro w hw m hm
        have h1 := hmin w hw
        simp only [hgc, hm, fAdd, Option.map_some', hvs] at h1
        exact WithTop.coe_le_coe.mp h1
      have hloop : ara_star_loop input W H goal epsilon rfuel (fuel + 1) st cl =
          if fLt epsilon (some (gc, heuristic pk goal)) (fAdd gg (heuristic goal goal)) = true then
            match ara_expand input W H pk (cl ++ [pk])
              { st with currentPathOnDraw := st.currentPathOnDraw ++ [pk],
                        openListAra := st.openListAra.eraseIdx k } with
            | done st2 => ara_star_loop input W H goal epsilon rfuel fuel st2 (cl ++ [pk])
            | fault => fault
            | timeout => timeout
          else
            match reconstruct_path rfuel (ara_fold_next st).prevPath goal W with
            | done res => done (res, ara_fold_next st)
            | fault => fault
            | timeout => timeout := by
        rw [ara_star_loop]
        simp only [hopen, if_false, hbest, vget_natCast _ _ _ hk, hgetF goal gg hgg,
          hgetF pk (some gc) hgc, fAdd, Option.map_some']
        try rfl
      rw [hloop]
      by_cases hcmp : fLt epsilon (some (gc, heuristic pk goal)) (fAdd gg (heuristic goal goal)) = true
      · simp only [hcmp, if_true]
        have hpg : pk ≠ goal := by
          intro he
          subst he
          rw [hgc] at hgg
          rw [← done_inj hgg] at hcmp
          have := (hval _ _).mp hcmp
          simp only [fAdd, Option.map_some'] at this
          exact lt_irrefl _ this
        have hncl : pk ∉ cl := hinv.open_closed pk hpk
        have hnd : (cl ++ [pk]).Nodup := by
          rw [List.nodup_append]
          refine ⟨hinv.closed_nodup, by simp, ?_⟩
          intro x hx hx2
          simp only [List.mem_singleton] at hx2
          subst hx2
          exact hncl hx
        have hcin : ∀ q ∈ cl ++ [pk], ¬ outOfBounds W H q := by
          intro q hq
          rw [List.mem_append] at hq
          rcases hq with h | h
          · exact hinv.closed_inb q h
          · simp only [List.mem_singleton] at h; subst h; exact hpkin
        have hcount := length_le_cells _ hnd hcin
        simp only [List.length_append, List.length_singleton] at hcount
        have herase_sub : ∀ q, q ∈ st.openListAra.eraseIdx k → q ∈ st.openListAra :=
          fun q hq => List.mem_of_mem_eraseIdx hq
        have hpk_gone : pk ∉ st.openListAra.eraseIdx k :=
          not_mem_eraseIdx_of_nodup hinv.open_nodup hk
        have hinv2 : AraInv input W H start goal epsilon (Function.update v pk (some gc))
            (cl ++ [pk]) pk (fun _ => True)
            { st with currentPathOnDraw := st.currentPathOnDraw ++ [pk],
                      openListAra := st.openListAra.eraseIdx k } :=
          { len_in := hinv.len_in, len_g := hinv.len_g, len_prev := hinv.len_prev
            open_inb := fun q hq => hinv.open_inb q (herase_sub q hq)
            next_inb := hinv.next_inb
            closed_inb := hcin
            open_nodup := List.Nodup.eraseIdx k hinv.open_nodup
            closed_nodup := hnd
            open_closed := by
              intro q hq hq2
              rw [List.mem_append] at hq2
              rcases hq2 with h | h
              · exact hinv.open_closed q (herase_sub q hq) h
              · simp only [List.mem_singleton] at h; subst h; exact hpk_gone hq
            start_inb := hinv.start_inb, goal_inb := hinv.goal_inb
            g_start := hinv.g_start, prev_start := hinv.prev_start
            open_fin := fun q hq => hinv.open_fin q (herase_sub q hq)
            next_fin := hinv.next_fin
            tree := hinv.tree
            relaxed := by
              intro a n ha q hstep hT
              by_cases hac : a = pk
              · exact absurd trivial (hT hac)
              · rw [Function.update_noteq hac] at ha
                exact hinv.relaxed a n ha q hstep (fun _ h => h)
            queued := by
              intro q m hq hm
              by_cases hqp : q = pk
              · subst hqp
                rw [hgc] at hm
                have := done_inj hm
                left
                rw [Function.update_same, this]
              · rw [Function.update_noteq hqp]
                rcases hinv.queued q m hq hm with h | h | h
                · exact Or.inl h
                · exact Or.inr (Or.inl (mem_eraseIdx_of_ne hk h hqp))
                · exact Or.inr (Or.inr h)
            next_closed := fun q hq => List.mem_append_left _ (hinv.next_closed q hq)
            closed_v := by
              intro a ha
              rw [List.mem_append] at ha
              rcases ha with ha | ha
              · have hane : a ≠ pk := fun h => hncl (h ▸ ha)
                rw [Function.update_noteq hane]
                exact hinv.closed_v a ha
              · simp only [List.mem_singleton] at ha
                subst ha
                refine ⟨gc, Function.update_same _ _ _, ?_⟩
                intro heps π hπ
                have hepsR : (1:ℝ) ≤ (epsilon:ℝ) := by exact_mod_cast heps
                rcases ara_frontier hinv heps π a hπ with ⟨m, hm, hle⟩ | ⟨w, hw, m, hm, hle⟩
                · rw [hgc] at hm
                  have := done_inj hm
                  simp only [Option.some.injEq] at this
                  rw [this]; exact hle
                · have h1 := hminR w hw m hm
                  have h2 : (gc:ℝ) + (epsilon:ℝ) * Real.sqrt (heuristic a goal) ≤
                      (epsilon:ℝ) * (pathCost input W π : ℝ) +
                        (epsilon:ℝ) * Real.sqrt (heuristic a goal) := by
                    rw [← mul_add]; linarith
                  linarith
            goal_unexp := by
              rw [Function.update_noteq (Ne.symm hpg)]; exact hinv.goal_unexp }
        obtain ⟨st3, he, hinv3, hmono3⟩ := ara_expand_inv hinv2 hpkin hgc
          (Function.update_same _ _ _)
        simp only [he]
        obtain ⟨r, hr1, hr2, hr3⟩ := ih st3 (cl ++ [pk]) _ pk hinv3
          (by simp only [List.length_append, List.length_singleton]; omega)
        refine ⟨r, hr1, ⟨?_, hr2.2⟩, hr3⟩
        intro p m hp hm
        obtain ⟨m1, hle1, hm1⟩ := hmono3 p m hp hm
        obtain ⟨m2, hle2, hm2⟩ := hr2.1 p m1 hp hm1
        exact ⟨m2, by omega, hm2⟩
      · simp only [hcmp]
        have hle : val (fAdd gg (heuristic goal goal)) ≤ val (some (gc, heuristic pk goal)) := by
          apply not_lt.mp
          intro h
          exact hcmp ((hval _ _).mpr h)
        obtain ⟨n, hn⟩ : ∃ n, gg = some n := by
          cases gg with
          | none =>
            simp only [fAdd, Option.map_none', hvn, hvs, top_le_iff] at hle
            exact absurd hle (WithTop.coe_ne_top)
          | some n => exact ⟨n, rfl⟩
        subst hn
        simp only [fAdd, Option.map_some', hvs, heuristic_self] at hle
        have hleR := WithTop.coe_le_coe.mp hle
        simp only [Nat.cast_zero, Real.sqrt_zero, mul_zero, add_zero] at hleR
        obtain ⟨π0, h1, h2, h3⟩ := reconstruct_path_tree hinv.start_inb hinv.prev_start
          hinv.tree n hinv.goal_inb hgg rfuel hr
        have hprev : (ara_fold_next st).prevPath = st.prevPath := rfl
        rw [hprev, h1]
        refine ⟨(π0, ara_fold_next st), rfl, ⟨hrefl, Or.inr ⟨h2, n, hgg, h3, ?_⟩⟩,
          fun _ => ⟨rfl, v, fun e' c' => ara_fold_next_inv hinv e' c'⟩⟩
        intro heps π hπ
        rcases ara_frontier hinv heps π goal hπ with ⟨m, hm, hle2⟩ | ⟨w, hw, m, hm, hle2⟩
        · rw [hgg] at hm
          have := done_inj hm
          simp only [Option.some.injEq] at this
          rw [this]; exact hle2
        · have hm1 := hminR w hw m hm
          rw [heuristic_self] at hle2
          simp only [Nat.cast_zero, Real.sqrt_zero, add_zero] at hle2
          linarith


/-! ## Calls and campaigns of `find_path_ara_star` -/

theorem ara_reset_between {input : List Char} {W H : Nat} {start goal : Position}
    (hin : input.length = W * H) (hs : ¬ outOfBounds W H start)
    (hg : ¬ outOfBounds W H goal) :
    AraBetween input W H start goal (ara_reset_state W H start) := by
  left
  refine ⟨fun _ => none, fun e c => ?_⟩
  have hlg : (List.replicate (W * H) (none : GScore)).length = W * H := by simp
  have hgdef : (ara_reset_state W H start).gScoreAra =
      wr W (List.replicate (W * H) (none : GScore)) start (some 0) := rfl
  have hg0 : ∀ p n, ¬ outOfBounds W H p →
      rd W (ara_reset_state W H start).gScoreAra p = done (some n) → p = start ∧ n = 0 := by
    intro p n hp hn
    rw [hgdef] at hn
    by_cases hps : p = start
    · subst hps
      rw [rd_wr_same _ hp hlg] at hn
      have := done_inj hn
      simp only [Option.some.injEq] at this
      exact ⟨rfl, this.symm⟩
    · rw [rd_wr_other _ hs hp hps, rd_replicate _ hp] at hn
      have := done_inj hn
      exact Option.noConfusion this
  have hgs : rd W (ara_reset_state W H start).gScoreAra start = done (some 0) := by
    rw [hgdef]; exact rd_wr_same _ hs hlg
  exact
    { len_in := hin
      len_g := by rw [hgdef, wr_length]; exact hlg
      len_prev := by simp [ara_reset_state]
      open_inb := by
        intro p hp
        simp only [ara_reset_state, List.mem_singleton] at hp
        subst hp; exact hs
      next_inb := by intro p hp; simp [ara_reset_state] at hp
      closed_inb := by intro p hp; simp at hp
      open_nodup := by simp [ara_reset_state]
      closed_nodup := List.nodup_nil
      open_closed := by intro p _ hp; simp at hp
      start_inb := hs, goal_inb := hg
      g_start := hgs
      prev_start := rd_replicate _ hs
      open_fin := by
        intro p hp
        simp only [ara_reset_state, List.mem_singleton] at hp
        subst hp; exact ⟨0, hgs⟩
      next_fin := by intro p hp; simp [ara_reset_state] at hp
      tree := by
        intro p n hp hps hn
        exact absurd (hg0 p n hp hn).1 hps
      relaxed := by intro p n hn; exact Option.noConfusion hn
      queued := by
        intro p m hp hm
        obtain ⟨h1, _⟩ := hg0 p m hp hm
        right; left
        simp [ara_reset_state, h1]
      next_closed := by intro p hp; simp [ara_reset_state] at hp
      closed_v := by intro p hp; simp at hp
      goal_unexp := rfl }

/-- One call of `find_path_ara_star` in a campaign: it returns, meets `araCallSpec`, and
leaves globals fit for the next call. -/
theorem ara_call_correct {input : List Char} {W H : Nat} {start goal : Position}
    (hs : ¬ outOfBounds W H start) (epsilon : ℚ) (st : AraState)
    (hst : AraBetween input W H start goal st) (fuel : Nat) (hfuel : W * H + 1 ≤ fuel) :
    ∃ r, find_path_ara_star fuel input W H start goal epsilon st = done r ∧
      araCallSpec input W H start goal st epsilon r ∧
      AraBetween input W H start goal r.2 := by
  simp only [find_path_ara_star, hs, if_false]
  rcases hst with ⟨v, hv⟩ | ⟨hopen, hno⟩
  · obtain ⟨r, h1, h2, h3⟩ := ara_loop_correct epsilon fuel (by omega) fuel st []
      v start (hv epsilon start) (by simp; omega)
    refine ⟨r, h1, h2, ?_⟩
    by_cases hr : r.1 = []
    · rcases h2.2 with ⟨_, ho, hn⟩ | ⟨hp, _⟩
      · exact Or.inr ⟨ho, hn⟩
      · exact absurd hr (isPath_ne_nil hp)
    · exact Or.inl (h3 hr).2
  · obtain ⟨k, rfl⟩ : ∃ k, fuel = k + 1 := ⟨fuel - 1, by omega⟩
    refine ⟨([], st), by simp [ara_star_loop, hopen],
      ⟨fun p m _ hm => ⟨m, le_refl _, hm⟩, Or.inl ⟨rfl, hopen, hno⟩⟩, Or.inr ⟨hopen, hno⟩⟩

theorem ara_campaign_correct {input : List Char} {W H : Nat} {start goal : Position}
    (hs : ¬ outOfBounds W H start) (fuel : Nat) (hfuel : W * H + 1 ≤ fuel) :
    ∀ (eps : List ℚ) (st : AraState), AraBetween input W H start goal st →
      ∃ results, ara_campaign fuel input W H start goal eps st = done results ∧
        araCampaignSpec input W H start goal st eps results := by
  intro eps
  induction eps with
  | nil => intro st _; exact ⟨[], rfl, trivial⟩
  | cons e es ih =>
    intro st hst
    obtain ⟨r, h1, h2, h3⟩ := ara_call_correct hs e st hst fuel hfuel
    obtain ⟨rs, h4, h5⟩ := ih r.2 h3
    refine ⟨r :: rs, ?_, ⟨h2, h5⟩⟩
    obtain ⟨path, st1⟩ := r
    simp only [ara_campaign, h1, h4]

/-! ## Campaign-level consequences -/

theorem campaign_bound {input : List Char} {W H : Nat} {start goal : Position} :
    ∀ (eps : List ℚ) (st : AraState) (results : List (List Position × AraState)),
      araCampaignSpec input W H start goal st eps results →
      List.Forall₂ (fun e r => 1 ≤ e → r.1 ≠ [] →
        ∀ π, isPath input W H start goal π →
          (pathCost input W r.1 : ℚ) ≤ e * (pathCost input W π : ℚ)) eps results := by
  intro eps
  induction eps with
  | nil =>
    intro st results h
    cases results with
    | nil => exact List.Forall₂.nil
    | cons r rs => exact absurd h (by simp [araCampaignSpec])
  | cons e es ih =>
    intro st results h
    cases results with
    | nil => exact absurd h (by simp [araCampaignSpec])
    | cons r rs =>
      obtain ⟨h1, h2⟩ := h
      refine List.Forall₂.cons ?_ (ih r.2 rs h2)
      intro he hne π hπ
      rcases h1.2 with ⟨hnil, _⟩ | ⟨_, n, _, hcost, hbound⟩
      · exact absurd hnil hne
      · have hb := hbound he π hπ
        have hc : (pathCost input W r.1 : ℝ) ≤ (n : ℝ) := by exact_mod_cast hcost
        have : ((pathCost input W r.1 : ℚ) : ℝ) ≤ ((e * (pathCost input W π : ℚ) : ℚ) : ℝ) := by
          push_cast; linarith
        exact_mod_cast this

theorem campaign_scores {input : List Char} {W H : Nat} {start goal : Position}
    (hg : ¬ outOfBounds W H goal) :
    ∀ (eps : List ℚ) (st : AraState) (results : List (List Position × AraState)),
      araCampaignSpec input W H start goal st eps results →
      (∀ r ∈ results, r.1 ≠ [] →
        ∃ n, rd W r.2.gScoreAra goal = done (some n) ∧ pathCost input W r.1 ≤ n) ∧
      List.Chain (fun s r => ∀ n₁, rd W s.gScoreAra goal = done (some n₁) →
        ∃ n₂, n₂ ≤ n₁ ∧ rd W r.gScoreAra goal = done (some n₂)) st (results.map Prod.snd) := by
  intro eps
  induction eps with
  | nil =>
    intro st results h
    cases results with
    | nil => exact ⟨by simp, List.Chain.nil⟩
    | cons r rs => exact absurd h (by simp [araCampaignSpec])
  | cons e es ih =>
    intro st results h
    cases results with
    | nil => exact absurd h (by simp [araCampaignSpec])
    | cons r rs =>
      obtain ⟨h1, h2⟩ := h
      obtain ⟨ih1, ih2⟩ := ih r.2 rs h2
      refine ⟨?_, List.Chain.cons (fun n₁ hn => h1.1 goal n₁ hg hn) ih2⟩
      intro r' hr' hne
      rcases List.mem_cons.mp hr' with he | he
      · subst he
        rcases h1.2 with ⟨hnil, _⟩ | ⟨_, n, hn, hcost, _⟩
        · exact absurd hnil hne
        · exact ⟨n, hn, hcost⟩
      · exact ih1 r' he hne

theorem campaign_last {input : List Char} {W H : Nat} {start goal : Position} :
    ∀ (es : List ℚ) (e : ℚ) (st : AraState) (results : List (List Position × AraState)),
      araCampaignSpec input W H start goal st (es ++ [e]) results →
      ∃ s r, results.getLast? = some r ∧ araCallSpec input W H start goal s e r := by
  intro es
  induction es with
  | nil =>
    intro e st results h
    cases results with
    | nil => exact absurd h (by simp [araCampaignSpec])
    | cons r rs =>
      cases rs with
      | nil => exact ⟨st, r, rfl, h.1⟩
      | cons r2 rs2 => exact absurd h.2 (by simp [araCampaignSpec])
  | cons e0 es ih =>
    intro e st results h
    cases results with
    | nil => exact absurd h (by simp [araCampaignSpec])
    | cons r rs =>
      obtain ⟨s, r', h1, h2⟩ := ih e r.2 rs h.2
      refine ⟨s, r', ?_, h2⟩
      cases rs with
      | nil => simp at h1
      | cons r2 rs2 => simpa using h1

theorem adjacent_symm {p q : Position} (h : adjacent p q) : adjacent q p := by
  unfold adjacent at h ⊢
  rcases h with h | h | h | h <;> subst h <;> simp

theorem adjacent_mem_neighbours {p q : Position} (h : adjacent p q) : q ∈ neighbours p := by
  unfold adjacent at h
  unfold neighbours
  simp only [List.mem_cons, List.mem_singleton, List.not_mem_nil, or_false]
  exact h

/-- With `start ≠ goal`, an enclosed start, or an enclosed goal together with a start that
is not Blocked, leaves no path from start to goal. -/
theorem enclosed_no_path {input : List Char} {W H : Nat} {start goal : Position}
    (hs : ¬ outOfBounds W H start) (hne : start ≠ goal)
    (henc : enclosed input W H start ∨
      (enclosed input W H goal ∧ ¬ blocked input W start)) :
    ∀ π, ¬ isPath input W H start goal π := by
  rcases henc with henc | ⟨henc, hsb⟩
  · have key : ∀ (π : List Position) (u : Position), isPath input W H start u π → u = start := by
      apply isPath_induction
      · rfl
      · intro b c π _ hb hstep
        subst hb
        exact absurd (henc c (adjacent_mem_neighbours hstep.1) hstep.2.1) hstep.2.2
    intro π hπ
    exact hne (key π goal hπ).symm
  · have key : ∀ (π : List Position) (u : Position), isPath input W H start u π →
        ¬ outOfBounds W H u ∧ u ≠ goal ∧ ¬ blocked input W u := by
      apply isPath_induction
      · exact ⟨hs, hne, hsb⟩
      · intro b c π _ hb hstep
        refine ⟨hstep.2.1, ?_, hstep.2.2⟩
        intro hc
        subst hc
        exact hb.2.2 (henc b (adjacent_mem_neighbours (adjacent_symm hstep.1)) hb.1)
    intro π hπ
    exact (key π goal hπ).2.1 rfl


theorem cellCost_uniform (n W : Nat) (p : Position) :
    cellCost (List.replicate n ' ') W p = 1 := by
  unfold cellCost
  rw [if_neg]
  intro h
  unfold vget at h
  split at h
  · cases hx : (List.replicate n ' ')[(coord_to_idx p.x p.y W).toNat]? with
    | none => rw [hx] at h; simp at h
    | some c =>
      rw [hx] at h
      have hc : c = ' ' := by
        have := List.getElem?_mem hx
        exact List.eq_of_mem_replicate this
      subst hc
      simp at h
  · simp at h

theorem staircase_of_short {input : List Char} {W H : Nat}
    (hc : ∀ p, cellCost input W p = 1) :
    ∀ (l : List Position) (a b : Position), (a :: l).getLast? = some b →
      validChain input W H (a :: l) →
      pathCost input W (a :: l) = l.length ∧
      (b.x + b.y) - (a.x + a.y) ≤ (l.length : Int) ∧
      ((b.x + b.y) - (a.x + a.y) = (l.length : Int) → isStaircase (a :: l)) := by
  intro l
  induction l with
  | nil =>
    intro a b hl _
    simp at hl
    subst hl
    simp [pathCost, isStaircase]
  | cons c l ih =>
    intro a b hl hv
    have hl2 : (c :: l).getLast? = some b := by
      simpa [List.getLast?_cons_cons] using hl
    obtain ⟨hstep, hv2⟩ := hv
    obtain ⟨h1, h2, h3⟩ := ih c b hl2 hv2
    have hadj := hstep.1
    refine ⟨?_, ?_, ?_⟩
    · simp only [pathCost, List.tail_cons, List.map_cons, List.sum_cons, List.length_cons] at h1 ⊢
      rw [hc c, h1]; omega
    · simp only [List.length_cons]
      rcases hadj with h | h | h | h <;> subst h <;> push_cast <;> simp only [] at h2 ⊢ <;> omega
    · intro heq
      simp only [List.length_cons] at heq
      push_cast at heq
      have hs : stairStep a c ∧ (b.x + b.y) - (c.x + c.y) = (l.length : Int) := by
        unfold stairStep
        rcases hadj with h | h | h | h <;> subst h <;> simp only [] at h2 heq ⊢
        · exact ⟨by simp, by omega⟩
        · omega
        · exact ⟨by simp, by omega⟩
        · omega
      exact ⟨hs.1, h3 hs.2⟩

theorem scan_first_min {β : Type} [LinearOrder β] (val : FScore → β)
    (lt : FScore → FScore → Bool) (hlt : ∀ a b, lt a b = true ↔ val a < val b)
    (getF : Position → Outcome FScore)
    (openList : List Position) (hne : openList ≠ [])
    (hF : ∀ p ∈ openList, ∃ s, getF p = done s) :
    ∃ k pk s, bestIndex lt getF openList = done k ∧
      vget openList k = done pk ∧ getF pk = done s ∧
      (∀ p ∈ openList, ∀ sp, getF p = done sp → val s ≤ val sp) ∧
      (∀ j p sp, j < k → openList[j]? = some p → getF p = done sp → val s < val sp) := by
  let F : Position → FScore := fun p => match getF p with
    | done s => s
    | _ => none
  have hFF : ∀ p ∈ openList, getF p = done (F p) := by
    intro p hp
    obtain ⟨s, hs⟩ := hF p hp
    simp only [F, hs]
  have hFs : ∀ p s, getF p = done s → F p = s := by
    intro p s hs
    simp only [F, hs]
  obtain ⟨k, pk, h1, h2, h3, h4⟩ := bestIndex_spec val lt hlt getF F openList hne hFF
  have hpk : pk ∈ openList := List.getElem?_mem h2
  refine ⟨k, pk, F pk, h1, ?_, hFF pk hpk, ?_, ?_⟩
  · exact vget_natCast _ _ _ h2
  · intro p hp sp hsp
    have := h3 p hp
    rwa [hFs p sp hsp] at this
  · intro j p sp hj hjp hsp
    have := h4 j p hj hjp
    rwa [hFs p sp hsp] at this

/-! ## The goal-independent invariants -/

theorem idx_alias {W H : Nat} (i : Int) (h0 : 0 ≤ i) (h1 : i.toNat < W * H) :
    ∃ c : Position, ¬ outOfBounds W H c ∧ coord_to_idx c.x c.y W = i := by
  have hW : 0 < W := by
    rcases Nat.eq_zero_or_pos W with h | h
    · subst h; simp at h1
    · exact h
  have hWz : (0 : Int) < (W : Int) := by exact_mod_cast hW
  have hi : i < (W : Int) * (H : Int) := by
    have h2 := Int.toNat_of_nonneg h0
    have h3 : (i.toNat : Int) < ((W * H : Nat) : Int) := by exact_mod_cast h1
    push_cast at h3
    omega
  refine ⟨⟨i % W, i / W⟩, ?_, ?_⟩
  · unfold outOfBounds
    push_neg
    refine ⟨Int.emod_nonneg _ (by omega), Int.ediv_nonneg h0 (by omega),
      Int.emod_lt_of_pos _ hWz, ?_⟩
    exact Int.ediv_lt_of_lt_mul hWz (by rw [mul_comm]; exact hi)
  · unfold coord_to_idx
    simp only []
    have := Int.ediv_add_emod i W
    rw [mul_comm] at this
    exact this

theorem vget_index {α : Type} {v : List α} {i : Int} {a : α} (h : vget v i = done a) :
    0 ≤ i ∧ i.toNat < v.length := by
  unfold vget at h
  split at h
  · rename_i h0
    refine ⟨h0, ?_⟩
    cases hx : v[i.toNat]? with
    | none => rw [hx] at h; simp at h
    | some c =>
      rw [List.getElem?_eq_some_iff] at hx
      exact hx.1
  · simp at h

theorem vget_ne_timeout {α : Type} (v : List α) (i : Int) : vget v i ≠ timeout := by
  unfold vget
  split
  · split <;> simp
  · simp

theorem scoresFall_refl (W H : Nat) (g : List GScore) : scoresFall W H g g :=
  fun _ n _ h => ⟨n, le_refl n, h⟩

theorem scoresFall_trans {W H : Nat} {g1 g2 g3 : List GScore}
    (h12 : scoresFall W H g1 g2) (h23 : scoresFall W H g2 g3) : scoresFall W H g1 g3 := by
  intro p n hp h
  obtain ⟨m, hm, h2⟩ := h12 p n hp h
  obtain ⟨k, hk, h3⟩ := h23 p m hp h2
  exact ⟨k, le_trans hk hm, h3⟩

theorem treeInv_update {input : List Char} {W H : Nat} {start : Position}
    {g g' : List GScore} {prev prev' : List Position} {cur p : Position} {gc : Nat}
    (h : TreeInv input W H start g prev)
    (hg' : g'.length = W * H) (hprev' : prev'.length = W * H)
    (hcur : ¬ outOfBounds W H cur) (hgc : rd W g cur = done (some gc))
    (hp : ¬ outOfBounds W H p) (hnb : ¬ blocked input W p) (hadj : adjacent cur p)
    (hmono : scoresFall W H g g')
    (hframe : ∀ q, ¬ outOfBounds W H q → q ≠ p →
      rd W g' q = rd W g q ∧ rd W prev' q = rd W prev q)
    (hat : (rd W g' p = rd W g p ∧ rd W prev' p = rd W prev p) ∨
      (rd W g' p = done (some (gc + cellCost input W p)) ∧ rd W prev' p = done cur ∧
        p ≠ start)) :
    TreeInv input W H start g' prev' := by
  have hcases : ∀ q, ¬ outOfBounds W H q →
      (rd W g' q = rd W g q ∧ rd W prev' q = rd W prev q) ∨
      (q = p ∧ rd W g' p = done (some (gc + cellCost input W p)) ∧ rd W prev' p = done cur ∧
        p ≠ start) := by
    intro q hq
    by_cases hqp : q = p
    · subst hqp
      rcases hat with h1 | h1
      · exact Or.inl h1
      · exact Or.inr ⟨rfl, h1⟩
    · exact Or.inl (hframe q hq hqp)
  have hcp : cur ≠ p := fun e => adjacent_ne hadj e.symm
  refine ⟨h.len_in, hg', hprev', h.start_inb, ?_, ?_, ?_, ?_⟩
  · rcases hcases start h.start_inb with h1 | h1
    · rw [h1.1]; exact h.g_start
    · exact absurd h1.1.symm h1.2.2.2
  · rcases hcases start h.start_inb with h1 | h1
    · rw [h1.2]; exact h.prev_start
    · exact absurd h1.1.symm h1.2.2.2
  · intro q hq hn
    rcases hcases q hq with h1 | h1
    · rw [h1.2]; rw [h1.1] at hn; exact h.prev_none q hq hn
    · obtain ⟨rfl, h2, _, _⟩ := h1
      rw [h2] at hn
      cases done_inj hn
  · intro q n hq hqs hn
    rcases hcases q hq with h1 | h1
    · rw [h1.1] at hn
      obtain ⟨q', m, k1, k2, k3, k4, k5⟩ := h.tree q n hq hqs hn
      obtain ⟨m', hm', k6⟩ := hmono q' m k2 k4
      exact ⟨q', m', by rw [h1.2]; exact k1, k2, k3, k6, by omega⟩
    · obtain ⟨rfl, h2, h3, _⟩ := h1
      rw [h2] at hn
      have hn2 : gc + cellCost input W q = n := by
        have := done_inj hn
        simpa using this
      obtain ⟨m', hm', k6⟩ := hmono cur gc hcur hgc
      exact ⟨cur, m', h3, hcur, ⟨hadj, hq, hnb⟩, k6, by omega⟩

theorem treeInv_path {input : List Char} {W H : Nat} {start : Position}
    {g : List GScore} {prev : List Position} (h : TreeInv input W H start g prev)
    (n : Nat) (p : Position) (hp : ¬ outOfBounds W H p) (hn : rd W g p = done (some n)) :
    ∃ π, isPath input W H start p π ∧ pathCost input W π ≤ n ∧ π.Nodup ∧
      π.length ≤ W * H ∧
      ∀ fuel acc, π.length ≤ fuel →
        reconstruct_loop prev W fuel p (p :: acc) = done (π ++ acc) := by
  obtain ⟨π, h1, h2, h3, h4, h5⟩ := walk_tree h.start_inb h.prev_start h.tree n p hp hn
  exact ⟨π, h1, h2, h3, length_le_cells π h3 (fun x hx => (h4 x hx).1), h5⟩

theorem reconstruct_any {input : List Char} {W H : Nat} {start : Position}
    {g : List GScore} {prev : List Position} (h : TreeInv input W H start g prev)
    (goal : Position) (gg : GScore) (hgg : rd W g goal = done gg)
    (rfuel : Nat) (hr : W * H + 1 ≤ rfuel) :
    ∃ res, reconstruct_path rfuel prev goal W = done res := by
  obtain ⟨h0, h1⟩ := vget_index hgg
  rw [h.len_g] at h1
  obtain ⟨c, hc, hci⟩ := @idx_alias W H _ h0 h1
  have hrd : ∀ {α : Type} (v : List α), rd W v goal = rd W v c := by
    intro α v
    unfold rd
    rw [hci]
  obtain ⟨k, hk⟩ : ∃ k, rfuel = k + 1 := ⟨rfuel - 1, by omega⟩
  subst hk
  unfold reconstruct_path
  simp only [reconstruct_loop, rd_eq]
  have hsent : rd W prev c = done sentinel → ∃ res,
      (match rd W prev goal with
        | done q => if q ≠ sentinel then reconstruct_loop prev W k q [q, goal] else done [goal]
        | fault => fault
        | timeout => timeout) = done res := by
    intro hs
    rw [hrd prev, hs]
    exact ⟨[goal], by simp⟩
  rw [hrd g] at hgg
  cases gg with
  | none => exact hsent (h.prev_none c hc hgg)
  | some n =>
    by_cases hcs : c = start
    · subst hcs
      exact hsent h.prev_start
    · obtain ⟨q, m, k1, k2, k3, k4, _⟩ := h.tree c n hc hcs hgg
      obtain ⟨π, _, _, _, hlen, hrec⟩ := treeInv_path h m q k2 k4
      rw [hrd prev, k1]
      have hqs : q ≠ sentinel := fun e => k2 (e ▸ sentinel_outOfBounds W H)
      simp only [hqs, ne_eq, not_false_eq_true, if_true]
      exact ⟨π ++ [goal], hrec k [goal] (by omega)⟩

theorem ara_checkNeighbour_weak {input : List Char} {W H : Nat} {start cur : Position}
    (cl : List Position) {st : AraState}
    (h : AraWeak input W H start cl st) (hcur : ¬ outOfBounds W H cur)
    (hgc : ∃ gc, rd W st.gScoreAra cur = done (some gc)) (p : Position)
    (hadj : adjacent cur p) :
    ∃ st', ara_checkNeighbour input W H cur cl st p = done st' ∧
      AraWeak input W H start cl st' ∧
      st'.currentPathOnDraw = st.currentPathOnDraw ∧
      scoresFall W H st.gScoreAra st'.gScoreAra := by
  obtain ⟨gc, hgc⟩ := hgc
  obtain ⟨st', h1, h2, h3, h4, h5, h6, h7⟩ := ara_checkNeighbour_frame cl h.shape.len_in
    h.shape.len_g h.shape.len_prev hgc h.shape.g_start p
  refine ⟨st', h1, ?_, h2, h5⟩
  rcases h7 with ⟨rfl, _⟩ | ⟨hp, hnb, hps, hgp, hpp, hlists⟩
  · exact h
  · have hT : TreeInv input W H start st'.gScoreAra st'.prevPath :=
      treeInv_update h.shape h3 h4 hcur hgc hp hnb hadj h5 h6 (Or.inr ⟨hgp, hpp, hps⟩)
    have hfin : ∀ q, ¬ outOfBounds W H q → (∃ n, rd W st.gScoreAra q = done (some n)) →
        ∃ n, rd W st'.gScoreAra q = done (some n) := by
      intro q hq ⟨n, hn⟩
      obtain ⟨m, _, hm⟩ := h5 q n hq hn
      exact ⟨m, hm⟩
    rcases hlists with ⟨_, ho, hn⟩ | ⟨hpc, hn, ho⟩
    · refine ⟨hT, ?_, ?_, h.closed_inb, ?_, h.closed_nodup, ?_, ?_, ?_⟩
      · rw [ho]; exact h.open_inb
      · intro q hq
        rw [hn, mem_push_iff] at hq
        rcases hq with hq | rfl
        · exact h.next_inb q hq
        · exact hp
      · rw [ho]; exact h.open_nodup
      · rw [ho]; exact h.open_closed
      · rw [ho]; exact fun q hq => hfin q (h.open_inb q hq) (h.open_fin q hq)
      · intro q hq
        rw [hn, mem_push_iff] at hq
        rcases hq with hq | rfl
        · exact hfin q (h.next_inb q hq) (h.next_fin q hq)
        · exact ⟨_, hgp⟩
    · refine ⟨hT, ?_, ?_, h.closed_inb, ?_, h.closed_nodup, ?_, ?_, ?_⟩
      · intro q hq
        rw [ho, mem_push_iff] at hq
        rcases hq with hq | rfl
        · exact h.open_inb q hq
        · exact hp
      · rw [hn]; exact h.next_inb
      · rw [ho]; exact nodup_push _ _ h.open_nodup
      · intro q hq
        rw [ho, mem_push_iff] at hq
        rcases hq with hq | rfl
        · exact h.open_closed q hq
        · exact hpc
      · intro q hq
        rw [ho, mem_push_iff] at hq
        rcases hq with hq | rfl
        · exact hfin q (h.open_inb q hq) (h.open_fin q hq)
        · exact ⟨_, hgp⟩
      · rw [hn]; exact fun q hq => hfin q (h.next_inb q hq) (h.next_fin q hq)

theorem ara_expand_weak {input : List Char} {W H : Nat} {start cur : Position}
    (cl : List Position) {st : AraState}
    (h : AraWeak input W H start cl st) (hcur : ¬ outOfBounds W H cur)
    (hgc : ∃ gc, rd W st.gScoreAra cur = done (some gc)) :
    ∃ st', ara_expand input W H cur cl st = done st' ∧
      AraWeak input W H start cl st' ∧
      st'.currentPathOnDraw = st.currentPathOnDraw ∧
      scoresFall W H st.gScoreAra st'.gScoreAra := by
  have hfin : ∀ {g g' : List GScore}, scoresFall W H g g' →
      (∃ gc, rd W g cur = done (some gc)) → ∃ gc, rd W g' cur = done (some gc) := by
    intro g g' hm ⟨n, hn⟩
    obtain ⟨m, _, hm⟩ := hm cur n hcur hn
    exact ⟨m, hm⟩
  obtain ⟨s1, e1, w1, t1, m1⟩ := ara_checkNeighbour_weak cl h hcur hgc
    ⟨cur.x + 1, cur.y + 0⟩ (by unfold adjacent; simp)
  obtain ⟨s2, e2, w2, t2, m2⟩ := ara_checkNeighbour_weak cl w1 hcur (hfin m1 hgc)
    ⟨cur.x - 1, cur.y + 0⟩ (by unfold adjacent; simp)
  obtain ⟨s3, e3, w3, t3, m3⟩ := ara_checkNeighbour_weak cl w2 hcur (hfin m2 (hfin m1 hgc))
    ⟨cur.x + 0, cur.y + 1⟩ (by unfold adjacent; simp)
  obtain ⟨s4, e4, w4, t4, m4⟩ := ara_checkNeighbour_weak cl w3 hcur
    (hfin m3 (hfin m2 (hfin m1 hgc))) ⟨cur.x + 0, cur.y - 1⟩ (by unfold adjacent; simp)
  refine ⟨s4, ?_, w4, by rw [t4, t3, t2, t1],
    scoresFall_trans (scoresFall_trans (scoresFall_trans m1 m2) m3) m4⟩
  unfold ara_expand
  simp only [e1, e2, e3, e4, Outcome.bind]

theorem ara_getF_done {W : Nat} {goal : Position} {st : AraState} {p : Position} {f : FScore}
    (h : ara_getF W goal st p = done f) :
    ∃ g, rd W st.gScoreAra p = done g ∧ f = fAdd g (heuristic p goal) := by
  unfold ara_getF at h
  unfold rd
  cases hx : vget st.gScoreAra (coord_to_idx p.x p.y W) with
  | done g =>
    rw [hx] at h
    exact ⟨g, rfl, (done_inj h).symm⟩
  | fault => rw [hx] at h; cases h
  | timeout => rw [hx] at h; cases h

theorem ara_fold_next_weak {input : List Char} {W H : Nat} {start : Position}
    {cl : List Position} {st : AraState} (h : AraWeak input W H start cl st) :
    AraWeak input W H start [] (ara_fold_next st) := by
  refine ⟨h.shape, ?_, ?_, ?_, ?_, List.nodup_nil, ?_, ?_, ?_⟩
  · intro q hq
    rcases (mem_fold_next _ _ _).mp hq with hq | hq
    · exact h.open_inb q hq
    · exact h.next_inb q hq
  · intro q hq; cases hq
  · intro q hq; cases hq
  · exact nodup_fold_next _ _ h.open_nodup
  · intro q _ hq; cases hq
  · intro q hq
    rcases (mem_fold_next _ _ _).mp hq with hq | hq
    · exact h.open_fin q hq
    · exact h.next_fin q hq
  · intro q hq; cases hq

theorem ara_weak_forget {input : List Char} {W H : Nat} {start : Position}
    {cl : List Position} {st : AraState} (h : AraWeak input W H start cl st) :
    AraWeak input W H start [] st :=
  ⟨h.shape, h.open_inb, h.next_inb, (fun _ hq => by cases hq), h.open_nodup, List.nodup_nil,
    (fun _ _ hq => by cases hq), h.open_fin, h.next_fin⟩


theorem ara_loop_weak {input : List Char} {W H : Nat} {start : Position} (goal : Position)
    (epsilon : ℚ) (rfuel : Nat) (hr : W * H + 1 ≤ rfuel) :
    ∀ (fuel : Nat) (st : AraState) (cl t0 : List Position),
      AraWeak input W H start cl st → st.currentPathOnDraw = t0 ++ cl → goal ∉ cl →
      (W * H - cl.length < fuel →
        ara_star_loop input W H goal epsilon rfuel fuel st cl ≠ timeout) ∧
      ∀ r, ara_star_loop input W H goal epsilon rfuel fuel st cl = done r →
        AraWeak input W H start [] r.2 ∧ scoresFall W H st.gScoreAra r.2.gScoreAra ∧
        ∃ pops, r.2.currentPathOnDraw = t0 ++ pops ∧ pops.Nodup ∧ goal ∉ pops := by
  intro fuel
  induction fuel with
  | zero =>
    intro st cl t0 _ _ _
    exact ⟨fun h => by omega, fun r h => by simp [ara_star_loop] at h⟩
  | succ fuel ih =>
    intro st cl t0 hw ht hgcl
    by_cases hopen : st.openListAra = []
    · have hl : ara_star_loop input W H goal epsilon rfuel (fuel + 1) st cl = done ([], st) := by
        simp [ara_star_loop, hopen]
      rw [hl]
      refine ⟨fun _ => by simp, ?_⟩
      intro r hr2
      have hr3 := done_inj hr2
      subst hr3
      exact ⟨ara_weak_forget hw, scoresFall_refl _ _ _, cl, ht, hw.closed_nodup, hgcl⟩
    · obtain ⟨val, hval, hvs, hvn⟩ := fLt_order epsilon
      have hgetF : ∀ p g, rd W st.gScoreAra p = done g →
          ara_getF W goal st p = done (fAdd g (heuristic p goal)) := by
        intro p g hg
        unfold rd at hg
        simp [ara_getF, hg]
      have hF : ∀ p ∈ st.openListAra,
          ara_getF W goal st p =
            done ((fun p => match rd W st.gScoreAra p with
              | done g => fAdd g (heuristic p goal)
              | _ => none) p) := by
        intro p hp
        obtain ⟨n, hn⟩ := hw.open_fin p hp
        simp only [hn]
        exact hgetF p _ hn
      obtain ⟨k, pk, hbest, hk, _, _⟩ :=
        bestIndex_spec val (fLt epsilon) hval _ _ st.openListAra hopen hF
      have hpk : pk ∈ st.openListAra := List.getElem?_mem hk
      have hpkin := hw.open_inb pk hpk
      obtain ⟨gc, hgc⟩ := hw.open_fin pk hpk
      cases hG : ara_getF W goal st goal with
      | fault =>
        have hl : ara_star_loop input W H goal epsilon rfuel (fuel + 1) st cl = fault := by
          rw [ara_star_loop]
          simp only [hopen, if_false, hbest, vget_natCast _ _ _ hk, hG]
        rw [hl]
        exact ⟨fun _ => by simp, fun r h => by cases h⟩
      | timeout =>
        have hl : ara_star_loop input W H goal epsilon rfuel (fuel + 1) st cl = fault := by
          rw [ara_star_loop]
          simp only [hopen, if_false, hbest, vget_natCast _ _ _ hk, hG]
        rw [hl]
        exact ⟨fun _ => by simp, fun r h => by cases h⟩
      | done fG =>
        obtain ⟨gg, hgg, hfG⟩ := ara_getF_done hG
        have hloop : ara_star_loop input W H goal epsilon rfuel (fuel + 1) st cl =
            if fLt epsilon (some (gc, heuristic pk goal)) fG = true then
              match ara_expand input W H pk (cl ++ [pk])
                { st with currentPathOnDraw := st.currentPathOnDraw ++ [pk],
                          openListAra := st.openListAra.eraseIdx k } with
              | done st2 => ara_star_loop input W H goal epsilon rfuel fuel st2 (cl ++ [pk])
              | fault => fault
              | timeout => timeout
            else
              match reconstruct_path rfuel (ara_fold_next st).prevPath goal W with
              | done res => done (res, ara_fold_next st)
              | fault => fault
              | timeout => timeout := by
          rw [ara_star_loop]
          simp only [hopen, if_false, hbest, vget_natCast _ _ _ hk, hG,
            hgetF pk (some gc) hgc, fAdd, Option.map_some']
          try rfl
        rw [hloop]
        by_cases hcmp : fLt epsilon (some (gc, heuristic pk goal)) fG = true
        · simp only [hcmp, if_true]
          have hpg : pk ≠ goal := by
            intro he
            subst he
            rw [hgc] at hgg
            rw [← done_inj hgg] at hfG
            rw [hfG] at hcmp
            have := (hval _ _).mp hcmp
            simp only [fAdd, Option.map_some'] at this
            exact lt_irrefl _ this
          have hncl : pk ∉ cl := hw.open_closed pk hpk
          have hnd : (cl ++ [pk]).Nodup := by
            rw [List.nodup_append]
            refine ⟨hw.closed_nodup, by simp, ?_⟩
            intro x hx hx2
            simp only [List.mem_singleton] at hx2
            subst hx2
            exact hncl hx
          have hcin : ∀ q ∈ cl ++ [pk], ¬ outOfBounds W H q := by
            intro q hq
            rw [List.mem_append] at hq
            rcases hq with h | h
            · exact hw.closed_inb q h
            · simp only [List.mem_singleton] at h; subst h; exact hpkin
          have hcount := length_le_cells _ hnd hcin
          simp only [List.length_append, List.length_singleton] at hcount
          have herase_sub : ∀ q, q ∈ st.openListAra.eraseIdx k → q ∈ st.openListAra :=
            fun q hq => List.mem_of_mem_eraseIdx hq
          have hpk_gone : pk ∉ st.openListAra.eraseIdx k :=
            not_mem_eraseIdx_of_nodup hw.open_nodup hk
          have hw2 : AraWeak input W H start (cl ++ [pk])
              { st with currentPathOnDraw := st.currentPathOnDraw ++ [pk],
                        openListAra := st.openListAra.eraseIdx k } :=
            { shape := hw.shape
              open_inb := fun q hq => hw.open_inb q (herase_sub q hq)
              next_inb := hw.next_inb
              closed_inb := hcin
              open_nodup := List.Nodup.eraseIdx k hw.open_nodup
              closed_nodup := hnd
              open_closed := by
                intro q hq hq2
                rw [List.mem_append] at hq2
                rcases hq2 with h | h
                · exact hw.open_closed q (herase_sub q hq) h
                · simp only [List.mem_singleton] at h; subst h; exact hpk_gone hq
              open_fin := fun q hq => hw.open_fin q (herase_sub q hq)
              next_fin := hw.next_fin }
          obtain ⟨st3, he, hw3, ht3, hm3⟩ := ara_expand_weak (cl ++ [pk]) hw2 hpkin ⟨gc, hgc⟩
          simp only [he]
          have hgcl2 : goal ∉ cl ++ [pk] := by
            intro h
            rw [List.mem_append] at h
            rcases h with h | h
            · exact hgcl h
            · simp only [List.mem_singleton] at h; exact hpg h.symm
          obtain ⟨i1, i2⟩ := ih st3 (cl ++ [pk]) t0 hw3
            (by rw [ht3]; simp only [ht, List.append_assoc]) hgcl2
          refine ⟨fun hf => i1 (by simp only [List.length_append, List.length_singleton]; omega),
            ?_⟩
          intro r hr2
          obtain ⟨j1, j2, j3⟩ := i2 r hr2
          exact ⟨j1, scoresFall_trans hm3 j2, j3⟩
        · simp only [hcmp]
          have hprev : (ara_fold_next st).prevPath = st.prevPath := rfl
          obtain ⟨res, hres⟩ := reconstruct_any hw.shape goal gg hgg rfuel hr
          rw [hprev, hres]
          refine ⟨fun _ => by simp, ?_⟩
          intro r hr2
          have hr3 := done_inj hr2
          subst hr3
          exact ⟨ara_fold_next_weak hw, scoresFall_refl _ _ _, cl, ht, hw.closed_nodup, hgcl⟩


theorem ara_reset_weak {input : List Char} {W H : Nat} {start : Position}
    (hin : input.length = W * H) (hs : ¬ outOfBounds W H start) :
    AraWeak input W H start [] (ara_reset_state W H start) := by
  have hlg : (List.replicate (W * H) (none : GScore)).length = W * H := by simp
  have hgdef : (ara_reset_state W H start).gScoreAra =
      wr W (List.replicate (W * H) (none : GScore)) start (some 0) := rfl
  have hpdef : (ara_reset_state W H start).prevPath = List.replicate (W * H) sentinel := rfl
  have hodef : (ara_reset_state W H start).openListAra = [start] := rfl
  have hndef : (ara_reset_state W H start).nextIter = [] := rfl
  have hg0 : ∀ p n, ¬ outOfBounds W H p →
      rd W (ara_reset_state W H start).gScoreAra p = done (some n) → p = start := by
    intro p n hp hn
    rw [hgdef] at hn
    by_contra hps
    rw [rd_wr_other _ hs hp hps, rd_replicate _ hp] at hn
    have := done_inj hn
    exact Option.noConfusion this
  have hgs : rd W (ara_reset_state W H start).gScoreAra start = done (some 0) := by
    rw [hgdef]; exact rd_wr_same _ hs hlg
  refine ⟨⟨hin, by rw [hgdef, wr_length]; exact hlg, by rw [hpdef]; simp, hs, hgs,
    by rw [hpdef]; exact rd_replicate _ hs, ?_, ?_⟩, ?_, ?_, ?_, ?_, List.nodup_nil, ?_, ?_, ?_⟩
  · intro p hp _
    rw [hpdef]; exact rd_replicate _ hp
  · intro p n hp hps hn
    exact absurd (hg0 p n hp hn) hps
  · intro p hp
    rw [hodef, List.mem_singleton] at hp
    subst hp; exact hs
  · intro p hp; rw [hndef] at hp; cases hp
  · intro p hp; cases hp
  · rw [hodef]; simp
  · intro p _ hp; cases hp
  · intro p hp
    rw [hodef, List.mem_singleton] at hp
    subst hp; exact ⟨0, hgs⟩
  · intro p hp; rw [hndef] at hp; cases hp

theorem ara_call_weak {input : List Char} {W H : Nat} {start : Position} (goal : Position)
    (epsilon : ℚ) (st : AraState) (hw : AraWeak input W H start [] st)
    (fuel : Nat) (hfuel : W * H + 1 ≤ fuel) :
    find_path_ara_star fuel input W H start goal epsilon st ≠ timeout ∧
    ∀ r, find_path_ara_star fuel input W H start goal epsilon st = done r →
      AraWeak input W H start [] r.2 ∧ scoresFall W H st.gScoreAra r.2.gScoreAra ∧
      ∃ pops, r.2.currentPathOnDraw = st.currentPathOnDraw ++ pops ∧ pops.Nodup ∧
        goal ∉ pops := by
  unfold find_path_ara_star
  rw [if_neg hw.shape.start_inb]
  obtain ⟨h1, h2⟩ := ara_loop_weak goal epsilon fuel hfuel fuel st [] st.currentPathOnDraw hw
    (by simp) (by simp)
  exact ⟨h1 (by simp only [List.length_nil]; omega), h2⟩

theorem campaignAll_and {S1 S2 : AraState → ℚ → List Position × AraState → Prop} :
    ∀ (es : List ℚ) (s : AraState) (rs : List (List Position × AraState)),
      campaignAll S1 s es rs → campaignAll S2 s es rs →
      campaignAll (fun s e r => S1 s e r ∧ S2 s e r) s es rs := by
  intro es
  induction es with
  | nil =>
    intro s rs h1 _
    cases rs with
    | nil => trivial
    | cons r rs => exact h1.elim
  | cons e es ih =>
    intro s rs h1 h2
    cases rs with
    | nil => exact h1.elim
    | cons r rs => exact ⟨⟨h1.1, h2.1⟩, ih r.2 rs h1.2 h2.2⟩

theorem campaignAll_mono {S1 S2 : AraState → ℚ → List Position × AraState → Prop}
    (hS : ∀ s e r, S1 s e r → S2 s e r) :
    ∀ (es : List ℚ) (s : AraState) (rs : List (List Position × AraState)),
      campaignAll S1 s es rs → campaignAll S2 s es rs := by
  intro es
  induction es with
  | nil =>
    intro s rs h1
    cases rs with
    | nil => trivial
    | cons r rs => exact h1.elim
  | cons e es ih =>
    intro s rs h1
    cases rs with
    | nil => exact h1.elim
    | cons r rs => exact ⟨hS _ _ _ h1.1, ih r.2 rs h1.2⟩

theorem campaignAll_mem {S : AraState → ℚ → List Position × AraState → Prop} :
    ∀ (es : List ℚ) (s : AraState) (rs : List (List Position × AraState)),
      campaignAll S s es rs → ∀ r ∈ rs, ∃ s1 e, e ∈ es ∧ S s1 e r := by
  intro es
  induction es with
  | nil =>
    intro s rs h1 r hr
    cases rs with
    | nil => cases hr
    | cons r rs => exact h1.elim
  | cons e es ih =>
    intro s rs h1 r hr
    cases rs with
    | nil => cases hr
    | cons r0 rs =>
      rcases List.mem_cons.mp hr with rfl | hr
      · exact ⟨s, e, List.mem_cons_self _ _, h1.1⟩
      · obtain ⟨s1, e1, he1, h⟩ := ih r0.2 rs h1.2 r hr
        exact ⟨s1, e1, List.mem_cons_of_mem _ he1, h⟩

theorem campaignAll_length {S : AraState → ℚ → List Position × AraState → Prop} :
    ∀ (es : List ℚ) (s : AraState) (rs : List (List Position × AraState)),
      campaignAll S s es rs → rs.length = es.length := by
  intro es
  induction es with
  | nil =>
    intro s rs h1
    cases rs with
    | nil => rfl
    | cons r rs => exact h1.elim
  | cons e es ih =>
    intro s rs h1
    cases rs with
    | nil => exact h1.elim
    | cons r0 rs => simp [ih r0.2 rs h1.2]

theorem ara_campaign_weak {input : List Char} {W H : Nat} {start : Position} (goal : Position)
    (fuel : Nat) (hfuel : W * H + 1 ≤ fuel) :
    ∀ (es : List ℚ) (st : AraState), AraWeak input W H start [] st →
      ara_campaign fuel input W H start goal es st ≠ timeout ∧
      ∀ results, ara_campaign fuel input W H start goal es st = done results →
        campaignAll (fun s _ r => AraWeak input W H start [] s ∧
          AraWeak input W H start [] r.2 ∧ scoresFall W H s.gScoreAra r.2.gScoreAra ∧
          ∃ pops, r.2.currentPathOnDraw = s.currentPathOnDraw ++ pops ∧ pops.Nodup ∧
            goal ∉ pops) st es results := by
  intro es
  induction es with
  | nil =>
    intro st _
    refine ⟨by simp [ara_campaign], ?_⟩
    intro results h
    simp only [ara_campaign] at h
    rw [← done_inj h]
    trivial
  | cons e es ih =>
    intro st hw
    obtain ⟨c1, c2⟩ := ara_call_weak goal e st hw fuel hfuel
    cases hc : find_path_ara_star fuel input W H start goal e st with
    | timeout => exact absurd hc c1
    | fault =>
      simp only [ara_campaign, hc]
      exact ⟨by simp, fun _ h => by cases h⟩
    | done r =>
      obtain ⟨path, st1⟩ := r
      obtain ⟨d1, d2, d3⟩ := c2 _ hc
      obtain ⟨i1, i2⟩ := ih st1 d1
      simp only [ara_campaign, hc]
      cases hr : ara_campaign fuel input W H start goal es st1 with
      | timeout => exact absurd hr i1
      | fault => exact ⟨by simp, fun _ h => by cases h⟩
      | done rs =>
        refine ⟨by simp, ?_⟩
        intro results h
        rw [← done_inj h]
        exact ⟨⟨hw, d1, d2, d3⟩, i2 rs hr⟩

theorem ara_campaign_between {input : List Char} {W H : Nat} {start goal : Position}
    (hs : ¬ outOfBounds W H start) (fuel : Nat) (hfuel : W * H + 1 ≤ fuel) :
    ∀ (es : List ℚ) (st : AraState), AraBetween input W H start goal st →
      ∃ results, ara_campaign fuel input W H start goal es st = done results ∧
        campaignAll (fun s e r => araCallSpec input W H start goal s e r ∧
          AraBetween input W H start goal s ∧ AraBetween input W H start goal r.2)
          st es results := by
  intro es
  induction es with
  | nil =>
    intro st _
    exact ⟨[], by simp [ara_campaign], trivial⟩
  | cons e es ih =>
    intro st hst
    obtain ⟨r, h1, h2, h3⟩ := ara_call_correct hs e st hst fuel hfuel
    obtain ⟨path, st1⟩ := r
    obtain ⟨rs, h4, h5⟩ := ih st1 h3
    exact ⟨(path, st1) :: rs, by simp [ara_campaign, h1, h4], ⟨h2, hst, h3⟩, h5⟩

theorem ara_campaign_outside {input : List Char} {W H : Nat} {start : Position}
    (goal : Position) (fuel : Nat) (hs : outOfBounds W H start) :
    ∀ (es : List ℚ) (st : AraState),
      ∃ results, ara_campaign fuel input W H start goal es st = done results ∧
        campaignAll (fun s _ r => r = ([], s)) st es results := by
  intro es
  induction es with
  | nil =>
    intro st
    exact ⟨[], by simp [ara_campaign], trivial⟩
  | cons e es ih =>
    intro st
    obtain ⟨rs, h4, h5⟩ := ih st
    have h1 : find_path_ara_star fuel input W H start goal e st = done ([], st) := by
      unfold find_path_ara_star
      rw [if_pos hs]
    exact ⟨([], st) :: rs, by simp [ara_campaign, h1, h4], rfl, h5⟩

theorem goal_stays_open {input : List Char} {W H : Nat} {start goal : Position}
    {st : AraState} (hb : AraBetween input W H start goal st)
    (hw : AraWeak input W H start [] st) (hg : ¬ outOfBounds W H goal)
    (hfin : ∃ n, rd W st.gScoreAra goal = done (some n)) : goal ∈ st.openListAra := by
  obtain ⟨n, hn⟩ := hfin
  rcases hb with ⟨v, hv⟩ | ⟨_, hno⟩
  · have hinv := hv 1 start
    rcases hinv.queued goal n hg hn with h | h | h
    · rw [hinv.goal_unexp] at h
      cases h
    · exact h
    · exact absurd (hinv.next_closed goal h) (by simp)
  · obtain ⟨π, hπ, _⟩ := treeInv_path hw.shape n goal hg hn
    exact absurd hπ (hno π)

theorem reconstruct_loop_suffix (prev : List Position) (W : Nat) :
    ∀ (fuel : Nat) (p : Position) (acc res : List Position),
      reconstruct_loop prev W fuel p acc = done res → ∃ pre, res = pre ++ acc := by
  intro fuel
  induction fuel with
  | zero =>
    intro p acc res h
    simp [reconstruct_loop] at h
  | succ fuel ih =>
    intro p acc res h
    rw [reconstruct_loop] at h
    split at h
    · split at h
      · rename_i q _ _
        obtain ⟨pre, hpre⟩ := ih _ _ _ h
        exact ⟨pre ++ [q], by rw [hpre]; simp⟩
      · exact ⟨[], by rw [← done_inj h]; rfl⟩
    · cases h
    · cases h

theorem ara_checkNeighbour_open {input : List Char} {W H : Nat} {cur : Position}
    {cl : List Position} {st st' : AraState} {p : Position}
    (h : ara_checkNeighbour input W H cur cl st p = done st') :
    st'.openListAra = st.openListAra ∨
      (p ∉ st.openListAra ∧ st'.openListAra = st.openListAra ++ [p]) := by
  unfold ara_checkNeighbour at h
  dsimp only at h
  repeat' (split at h)
  all_goals (cases h <;> first | exact Or.inl rfl | exact Or.inr ⟨by assumption, rfl⟩)

theorem ara_expand_open {input : List Char} {W H : Nat} {cur : Position}
    {cl : List Position} {st st' : AraState}
    (h : ara_expand input W H cur cl st = done st') :
    (∀ q ∈ st.openListAra, q ∈ st'.openListAra) ∧
    (st.openListAra.Nodup → st'.openListAra.Nodup) := by
  have step : ∀ {s s' : AraState} {p : Position},
      ara_checkNeighbour input W H cur cl s p = done s' →
      (∀ q ∈ s.openListAra, q ∈ s'.openListAra) ∧
      (s.openListAra.Nodup → s'.openListAra.Nodup) := by
    intro s s' p hs
    rcases ara_checkNeighbour_open hs with h1 | ⟨h1, h2⟩
    · rw [h1]; exact ⟨fun _ hq => hq, fun hn => hn⟩
    · rw [h2]
      refine ⟨fun q hq => List.mem_append_left _ hq, fun hn => ?_⟩
      rw [List.nodup_append]
      refine ⟨hn, by simp, ?_⟩
      intro x hx hx2
      simp only [List.mem_singleton] at hx2
      subst hx2
      exact h1 hx
  unfold ara_expand at h
  cases h1 : ara_checkNeighbour input W H cur cl st ⟨cur.x + 1, cur.y + 0⟩ with
  | fault => rw [h1] at h; cases h
  | timeout => rw [h1] at h; cases h
  | done s1 =>
    rw [h1] at h
    simp only [Outcome.bind] at h
    cases h2 : ara_checkNeighbour input W H cur cl s1 ⟨cur.x - 1, cur.y + 0⟩ with
    | fault => rw [h2] at h; cases h
    | timeout => rw [h2] at h; cases h
    | done s2 =>
      rw [h2] at h
      simp only [Outcome.bind] at h
      cases h3 : ara_checkNeighbour input W H cur cl s2 ⟨cur.x + 0, cur.y + 1⟩ with
      | fault => rw [h3] at h; cases h
      | timeout => rw [h3] at h; cases h
      | done s3 =>
        rw [h3] at h
        simp only [Outcome.bind] at h
        obtain ⟨a1, b1⟩ := step h1
        obtain ⟨a2, b2⟩ := step h2
        obtain ⟨a3, b3⟩ := step h3
        obtain ⟨a4, b4⟩ := step h
        exact ⟨fun q hq => a4 q (a3 q (a2 q (a1 q hq))), fun hn => b4 (b3 (b2 (b1 hn)))⟩

theorem ara_loop_converged {input : List Char} {W H : Nat} (goal : Position) (epsilon : ℚ)
    (rfuel : Nat) :
    ∀ (fuel : Nat) (st : AraState) (cl : List Position) (res : List Position)
      (st' : AraState),
      ara_star_loop input W H goal epsilon rfuel fuel st cl = done (res, st') →
      (res = [] ∧ st'.openListAra = []) ∨
      (res ≠ [] ∧ ∃ (stm : AraState) (clm : List Position) (k : Nat) (cur : Position)
          (fGoal fBest : FScore),
        AraPops input W H goal epsilon st cl stm clm ∧
        stm.openListAra ≠ [] ∧
        bestIndex (fLt epsilon) (ara_getF W goal stm) stm.openListAra = done k ∧
        vget stm.openListAra k = done cur ∧
        ara_getF W goal stm goal = done fGoal ∧ ara_getF W goal stm cur = done fBest ∧
        fLt epsilon fBest fGoal = false ∧
        st' = ara_fold_next stm ∧
        reconstruct_path rfuel stm.prevPath goal W = done res ∧
        (st.openListAra.Nodup → stm.openListAra.Nodup)) := by
  intro fuel
  induction fuel with
  | zero =>
    intro st cl res st' h
    simp [ara_star_loop] at h
  | succ fuel ih =>
    intro st cl res st' h
    rw [ara_star_loop] at h
    split at h
    · rename_i hopen
      have := done_inj h
      simp only [Prod.mk.injEq] at this
      left
      exact ⟨this.1.symm, by rw [← this.2]; exact hopen⟩
    · rename_i hopen
      split at h
      · cases h
      · cases h
      · rename_i k hbest
        split at h
        · cases h
        · cases h
        · rename_i cur hcur
          split at h
          · rename_i fGoal fBest hG hB
            dsimp only at h
            split at h
            · rename_i hcmp
              split at h
              · rename_i st2 hexp
                rcases ih st2 _ res st' h with hh |
                  ⟨hne, stm, clm, k2, c2, f1, f2, j0, j1, j2, j3, j4, j5, j6, j7, j8, j9⟩
                · exact Or.inl hh
                · right
                  refine ⟨hne, stm, clm, k2, c2, f1, f2, ?_, j1, j2, j3, j4, j5, j6, j7, j8, ?_⟩
                  · exact AraPops.step st st2 stm cl (cl ++ [cur]) clm
                      (AraPop.pop st st2 cl k cur fGoal fBest hopen hbest hcur hG hB hcmp hexp)
                      j0
                  · intro hn
                    apply j9
                    exact (ara_expand_open hexp).2 (List.Nodup.eraseIdx k hn)
              · cases h
              · cases h
            · rename_i hcmp
              split at h
              · rename_i r hrec
                have := done_inj h
                simp only [Prod.mk.injEq] at this
                right
                refine ⟨?_, st, cl, k, cur, fGoal, fBest, AraPops.refl st cl, hopen, hbest,
                  hcur, hG, hB, by simpa using hcmp, this.2.symm,
                  by rw [← this.1]; exact hrec, fun hn => hn⟩
                rw [← this.1]
                intro he
                subst he
                unfold reconstruct_path at hrec
                obtain ⟨pre, hpre⟩ := reconstruct_loop_suffix _ W rfuel goal [goal] [] hrec
                simp at hpre
              · cases h
              · cases h
          · cases h

theorem treeInv_chainShape {input : List Char} {W H : Nat} {start : Position}
    {g : List GScore} {prev : List Position} (h : TreeInv input W H start g prev) :
    chainShape input W H start g prev := by
  refine ⟨h.prev_start, ?_, ?_⟩
  · intro p q hp hq hqs
    obtain ⟨gp, hgp⟩ := rd_total hp h.len_g
    cases gp with
    | none =>
      rw [h.prev_none p hp hgp] at hq
      exact absurd (done_inj hq).symm hqs
    | some n =>
      by_cases hps : p = start
      · subst hps
        rw [h.prev_start] at hq
        exact absurd (done_inj hq).symm hqs
      · obtain ⟨q', m, k1, k2, k3, k4, k5⟩ := h.tree p n hp hps hgp
        rw [k1] at hq
        have := done_inj hq
        subst this
        exact ⟨k2, k3.1, k3.2.2, n, m, hgp, k4, k5⟩
  · intro p n hp hn
    obtain ⟨π, h1, h2, h3, h4, h5⟩ := treeInv_path h n p hp hn
    refine ⟨π, ?_, h3, h1, h2⟩
    unfold reconstruct_path
    have := h5 (W * H + 1) [] (by omega)
    simpa using this

theorem a_star_init_weak {input : List Char} {W H : Nat} {start : Position} (goal : Position)
    (hin : input.length = W * H) (hs : ¬ outOfBounds W H start) (st : AStarState)
    (h : a_star_init W H start goal = done st) : AStarWeak input W H start st := by
  have hlg : (List.replicate (W * H) (none : GScore)).length = W * H := by simp
  have hlf : (List.replicate (W * H) (none : FScore)).length = W * H := by simp
  simp only [a_star_init, vset_eq _ hs hlg, vset_eq _ hs hlf, fAdd, Option.map_some'] at h
  have hst := done_inj h
  subst hst
  have hg0 : ∀ p n, ¬ outOfBounds W H p →
      rd W (wr W (List.replicate (W * H) (none : GScore)) start (some 0)) p = done (some n) →
      p = start := by
    intro p n hp hn
    by_contra hps
    rw [rd_wr_other _ hs hp hps, rd_replicate _ hp] at hn
    have := done_inj hn
    exact Option.noConfusion this
  refine ⟨⟨hin, by rw [wr_length]; exact hlg, by simp, hs, rd_wr_same _ hs hlg,
    rd_replicate _ hs, ?_, ?_⟩, by rw [wr_length]; exact hlf, ?_, ?_, ?_, ?_⟩
  · intro p hp _
    exact rd_replicate _ hp
  · intro p n hp hps hn
    exact absurd (hg0 p n hp hn) hps
  · intro p hp
    simp only [List.mem_singleton] at hp
    subst hp; exact hs
  · intro p hp
    simp only [List.mem_singleton] at hp
    subst hp; exact ⟨0, rd_wr_same _ hs hlg⟩
  · intro p hp; cases hp
  · intro p hp; cases hp

theorem mem_neighbours_adjacent {p q : Position} (h : q ∈ neighbours p) : adjacent p q := by
  unfold neighbours at h
  unfold adjacent
  simpa only [List.mem_cons, List.mem_singleton, List.not_mem_nil, or_false] using h

theorem a_star_check_weak {input : List Char} {W H : Nat} {start : Position}
    (goal : Position) {cur : Position} {st st' : AStarState}
    (hw : AStarWeak input W H start st) (hcur : ¬ outOfBounds W H cur)
    (hgc : ∃ gc, rd W st.g cur = done (some gc)) (p : Position) (hadj : adjacent cur p)
    (h : a_star_checkNeighbour input W H goal cur st p = done st') :
    AStarWeak input W H start st' ∧ scoresFall W H st.g st'.g ∧
      st'.closedList = st.closedList := by
  obtain ⟨gc, hgc⟩ := hgc
  by_cases hpb : outOfBounds W H p ∨ blocked input W p
  · obtain ⟨s1, h1, h2, h3⟩ := a_star_checkNeighbour_spec goal hw.shape.len_in hw.shape.len_g
      hw.len_f hw.shape.len_prev hgc p
    rw [h] at h1
    have := done_inj h1
    subst this
    rcases h3 with ⟨_, h3⟩ | ⟨k1, k2, _⟩
    · subst h3
      exact ⟨hw, scoresFall_refl _ _ _, rfl⟩
    · rcases hpb with hpb | hpb
      · exact absurd hpb k1
      · exact absurd hpb k2
  · push_neg at hpb
    obtain ⟨hp, hnb⟩ := hpb
    obtain ⟨s1, h1, h2, h3, h4, h5, h6, h7, h8, h9, h10⟩ :=
      a_star_checkNeighbour_frame goal hw.shape.len_in hw.shape.len_g hw.len_f
        hw.shape.len_prev hgc hw.shape.g_start p hp hnb
    rw [h] at h1
    have := done_inj h1
    subst this
    have hT : TreeInv input W H start st'.g st'.prev := by
      refine treeInv_update hw.shape h4 h6 hcur hgc hp hnb hadj h7
        (fun q hq hqp => ⟨(h8 q hq hqp).1, (h8 q hq hqp).2.1⟩) ?_
      rcases h10 with k | k
      · exact Or.inl ⟨k.1, k.2.1⟩
      · exact Or.inr ⟨k.1, k.2.1, k.2.2.2⟩
    have hfin : ∀ q, ¬ outOfBounds W H q → (∃ n, rd W st.g q = done (some n)) →
        ∃ n, rd W st'.g q = done (some n) := by
      intro q hq ⟨n, hn⟩
      obtain ⟨m, _, hm⟩ := h7 q n hq hn
      exact ⟨m, hm⟩
    refine ⟨⟨hT, h5, ?_, ?_, ?_, ?_⟩, h7, h2⟩
    · intro q hq
      rw [h3, mem_push_iff] at hq
      rcases hq with hq | rfl
      · exact hw.open_inb q hq
      · exact hp
    · intro q hq
      rw [h3, mem_push_iff] at hq
      rcases hq with hq | rfl
      · exact hfin q (hw.open_inb q hq) (hw.open_fin q hq)
      · obtain ⟨m, hm, _⟩ := h9
        exact ⟨m, hm⟩
    · rw [h2]; exact hw.closed_inb
    · rw [h2]; exact fun q hq => hfin q (hw.closed_inb q hq) (hw.closed_fin q hq)

theorem a_star_step_weak {input : List Char} {W H : Nat} {start goal : Position}
    {st st' : AStarState} (hw : AStarWeak input W H start st)
    (h : AStarStep input W H goal st st') :
    AStarWeak input W H start st' ∧ scoresFall W H st.g st'.g := by
  cases h with
  | skip k cur hb hk hg hc =>
    refine ⟨⟨hw.shape, hw.len_f, ?_, ?_, hw.closed_inb, hw.closed_fin⟩, scoresFall_refl _ _ _⟩
    · exact fun q hq => hw.open_inb q (List.mem_of_mem_eraseIdx hq)
    · exact fun q hq => hw.open_fin q (List.mem_of_mem_eraseIdx hq)
  | close k cur hb hk hg hc =>
    have hmem : cur ∈ st.openList := by
      unfold vget at hk
      split at hk
      · cases hx : st.openList[(k : Int).toNat]? with
        | none => rw [hx] at hk; simp at hk
        | some c =>
          rw [hx] at hk
          have := done_inj hk
          subst this
          exact List.getElem?_mem hx
      · cases hk
    refine ⟨⟨hw.shape, hw.len_f, ?_, ?_, ?_, ?_⟩, scoresFall_refl _ _ _⟩
    · exact fun q hq => hw.open_inb q (List.mem_of_mem_eraseIdx hq)
    · exact fun q hq => hw.open_fin q (List.mem_of_mem_eraseIdx hq)
    · intro q hq
      rcases List.mem_append.mp hq with hq | hq
      · exact hw.closed_inb q hq
      · simp only [List.mem_singleton] at hq
        subst hq; exact hw.open_inb _ hmem
    · intro q hq
      rcases List.mem_append.mp hq with hq | hq
      · exact hw.closed_fin q hq
      · simp only [List.mem_singleton] at hq
        subst hq; exact hw.open_fin _ hmem
  | check _ cur p hl hn hc =>
    have hmem := List.mem_of_getLast?_eq_some hl
    obtain ⟨k1, k2, _⟩ := a_star_check_weak goal hw (hw.closed_inb cur hmem)
      (hw.closed_fin cur hmem) p (mem_neighbours_adjacent hn) hc
    exact ⟨k1, k2⟩

theorem a_star_reach_weak {input : List Char} {W H : Nat} {start goal : Position}
    (hin : input.length = W * H) {st : AStarState}
    (h : AStarReach input W H start goal st) : AStarWeak input W H start st := by
  induction h with
  | init st hs hi => exact a_star_init_weak goal hin hs st hi
  | step st st' _ hstep ih => exact (a_star_step_weak ih hstep).1


theorem a_star_expand_reach {input : List Char} {W H : Nat} {start goal : Position}
    (hin : input.length = W * H) {st st' : AStarState} {cur : Position}
    (hr : AStarReach input W H start goal st) (hl : st.closedList.getLast? = some cur)
    (h : a_star_expand input W H goal cur st = done st') :
    AStarReach input W H start goal st' := by
  have step : ∀ {s s' : AStarState} {p : Position}, AStarReach input W H start goal s →
      s.closedList.getLast? = some cur → p ∈ neighbours cur →
      a_star_checkNeighbour input W H goal cur s p = done s' →
      AStarReach input W H start goal s' ∧ s'.closedList.getLast? = some cur := by
    intro s s' p hs hls hp hc
    have hw := a_star_reach_weak hin hs
    have hmem := List.mem_of_getLast?_eq_some hls
    obtain ⟨_, _, k3⟩ := a_star_check_weak goal hw (hw.closed_inb cur hmem)
      (hw.closed_fin cur hmem) p (mem_neighbours_adjacent hp) hc
    exact ⟨AStarReach.step s s' hs (AStarStep.check s s' cur p hls hp hc), by rw [k3]; exact hls⟩
  unfold a_star_expand at h
  cases h1 : a_star_checkNeighbour input W H goal cur st ⟨cur.x + 1, cur.y + 0⟩ with
  | fault => rw [h1] at h; cases h
  | timeout => rw [h1] at h; cases h
  | done s1 =>
    rw [h1] at h
    simp only [Outcome.bind] at h
    cases h2 : a_star_checkNeighbour input W H goal cur s1 ⟨cur.x - 1, cur.y + 0⟩ with
    | fault => rw [h2] at h; cases h
    | timeout => rw [h2] at h; cases h
    | done s2 =>
      rw [h2] at h
      simp only [Outcome.bind] at h
      cases h3 : a_star_checkNeighbour input W H goal cur s2 ⟨cur.x + 0, cur.y + 1⟩ with
      | fault => rw [h3] at h; cases h
      | timeout => rw [h3] at h; cases h
      | done s3 =>
        rw [h3] at h
        simp only [Outcome.bind] at h
        obtain ⟨a1, b1⟩ := step hr hl (by simp [neighbours]) h1
        obtain ⟨a2, b2⟩ := step a1 b1 (by simp [neighbours]) h2
        obtain ⟨a3, b3⟩ := step a2 b2 (by simp [neighbours]) h3
        exact (step a3 b3 (by simp [neighbours]) h).1

theorem a_star_loop_reach {input : List Char} {W H : Nat} {start goal : Position}
    (hin : input.length = W * H) (rfuel : Nat) :
    ∀ (fuel : Nat) (st : AStarState), AStarReach input W H start goal st →
      ∀ res, a_star_loop input W H goal rfuel fuel st = done res →
        res = [] ∨ ∃ st', AStarReach input W H start goal st' ∧
          reconstruct_path rfuel st'.prev goal W = done res := by
  intro fuel
  induction fuel with
  | zero =>
    intro st _ res h
    simp [a_star_loop] at h
  | succ fuel ih =>
    intro st hr res h
    rw [a_star_loop] at h
    split at h
    · exact Or.inl (done_inj h).symm
    · split at h
      · cases h
      · cases h
      · rename_i k hbest
        split at h
        · cases h
        · cases h
        · rename_i cur hcur
          split at h
          · exact Or.inr ⟨st, hr, h⟩
          · rename_i hng
            dsimp only at h
            split at h
            · rename_i hc
              exact ih _ (AStarReach.step _ _ hr (AStarStep.skip st k cur hbest hcur hng hc)) res h
            · rename_i hc
              split at h
              · rename_i st3 hexp
                have hr2 := AStarReach.step _ _ hr (AStarStep.close st k cur hbest hcur hng hc)
                exact ih st3 (a_star_expand_reach hin hr2 (by simp) hexp) res h
              · cases h
              · cases h

/-! ## The driver -/

theorem eps_first : eps_def - eps_step = Rat.mk' 9 2 := by
  norm_num [eps_def, eps_step, Rat.mk'_eq_divInt, Rat.divInt_eq_div]

theorem fLt_irrefl (epsilon : ℚ) (a : FScore) : fLt epsilon a a = false := by
  obtain ⟨val, hval, _, _⟩ := fLt_order epsilon
  cases h : fLt epsilon a a with
  | false => rfl
  | true => exact absurd ((hval a a).mp h) (lt_irrefl _)

theorem two_cells_first_call :
    find_path_ara_star 3 [' ', ' '] 2 1 ⟨0, 0⟩ ⟨1, 0⟩ (eps_def - eps_step)
      { gScoreAra := [some 0, none], prevPath := [sentinel, sentinel],
        openListAra := [⟨0, 0⟩], nextIter := [], currentPathOnDraw := [] } =
    done ([⟨0, 0⟩, ⟨1, 0⟩],
      { gScoreAra := [some 0, some 1], prevPath := [sentinel, ⟨0, 0⟩],
        openListAra := [⟨1, 0⟩], nextIter := [], currentPathOnDraw := [⟨0, 0⟩] }) := by
  rw [eps_first]
  decide

theorem two_cells_later_call (epsilon : ℚ) :
    find_path_ara_star 3 [' ', ' '] 2 1 ⟨0, 0⟩ ⟨1, 0⟩ epsilon
      { gScoreAra := [some 0, some 1], prevPath := [sentinel, ⟨0, 0⟩],
        openListAra := [⟨1, 0⟩], nextIter := [], currentPathOnDraw := [] } =
    done ([⟨0, 0⟩, ⟨1, 0⟩],
      { gScoreAra := [some 0, some 1], prevPath := [sentinel, ⟨0, 0⟩],
        openListAra := [⟨1, 0⟩], nextIter := [], currentPathOnDraw := [] }) := by
  have hs : ¬ outOfBounds 2 1 (⟨0, 0⟩ : Position) := by decide
  unfold find_path_ara_star
  rw [if_neg hs, ara_star_loop]
  have hG : ara_getF 2 ⟨1, 0⟩
      { gScoreAra := [some 0, some 1], prevPath := [sentinel, ⟨0, 0⟩],
        openListAra := [⟨1, 0⟩], nextIter := [], currentPathOnDraw := [] } ⟨1, 0⟩ =
      done (some (1, 0)) := by decide
  have hb : bestIndex (fLt epsilon) (ara_getF 2 ⟨1, 0⟩
      { gScoreAra := [some 0, some 1], prevPath := [sentinel, ⟨0, 0⟩],
        openListAra := [⟨1, 0⟩], nextIter := [], currentPathOnDraw := [] })
      [⟨1, 0⟩] = done 0 := by
    simp only [bestIndex, hG, scanBest]
  have hv : vget ([⟨1, 0⟩] : List Position) ((0 : Nat) : Int) = done ⟨1, 0⟩ := by decide
  have hr : reconstruct_path 3 [sentinel, ⟨0, 0⟩] ⟨1, 0⟩ 2 = done [⟨0, 0⟩, ⟨1, 0⟩] := by decide
  simp only [List.cons_ne_nil, if_false, hb, hv, hG, fLt_irrefl, Bool.false_eq_true,
    ara_fold_next, List.foldl_nil, hr]


theorem tick_idle (fuel : Nat) (input : List Char) (W H : Nat) (start goal : Position)
    (d : DriverState) (h : 0 < d.next) :
    draw_nav_ara_data fuel input W H start goal d = done { d with next := d.next - 1 } := by
  unfold draw_nav_ara_data
  have : ¬ d.next - 1 < 0 := by omega
  simp only [this, if_false]

theorem two_cells_tick_reset (d : DriverState) (hn : d.next = 0)
    (hc : d.eps < 1 ∨ d.ara.openListAra = []) (hi : d.ara.nextIter = []) :
    draw_nav_ara_data 3 [' ', ' '] 2 1 ⟨0, 0⟩ ⟨1, 0⟩ d =
      done { eps := eps_def - eps_step, next := 30, lastPath := [⟨0, 0⟩, ⟨1, 0⟩],
             ara := { gScoreAra := [some 0, some 1], prevPath := [sentinel, ⟨0, 0⟩],
                      openListAra := [⟨1, 0⟩], nextIter := [],
                      currentPathOnDraw := [⟨0, 0⟩] } } := by
  unfold draw_nav_ara_data
  have h1 : d.next - 1 < 0 := by omega
  have hv : vset (List.replicate (2 * 1) (none : GScore))
      (coord_to_idx (⟨0, 0⟩ : Position).x (⟨0, 0⟩ : Position).y 2) (some 0) =
      done [some 0, none] := by decide
  have hp : List.replicate (2 * 1) sentinel = [sentinel, sentinel] := by decide
  simp only [h1, if_true, hc, session_reset, hv, hp, hi, two_cells_first_call]

theorem two_cells_tick_pass (d : DriverState) (hn : d.next = 0) (he : ¬ d.eps < 1)
    (ha : d.ara.gScoreAra = [some 0, some 1] ∧ d.ara.prevPath = [sentinel, ⟨0, 0⟩] ∧
      d.ara.openListAra = [⟨1, 0⟩] ∧ d.ara.nextIter = []) :
    draw_nav_ara_data 3 [' ', ' '] 2 1 ⟨0, 0⟩ ⟨1, 0⟩ d =
      done { eps := d.eps - eps_step, next := 30, lastPath := [⟨0, 0⟩, ⟨1, 0⟩],
             ara := { gScoreAra := [some 0, some 1], prevPath := [sentinel, ⟨0, 0⟩],
                      openListAra := [⟨1, 0⟩], nextIter := [],
                      currentPathOnDraw := [] } } := by
  unfold draw_nav_ara_data
  have h1 : d.next - 1 < 0 := by omega
  obtain ⟨a1, a2, a3, a4⟩ := ha
  simp only [h1, if_true, he, a1, a2, a3, a4, List.cons_ne_nil, or_self, if_false,
    two_cells_later_call]

theorem ticks_idle (fuel : Nat) (input : List Char) (W H : Nat) (start goal : Position) :
    ∀ (n : Nat) (d : DriverState), (n : Int) ≤ d.next →
      driver_ticks fuel input W H start goal n d = done ([], { d with next := d.next - n }) := by
  intro n
  induction n with
  | zero =>
    intro d _
    simp [driver_ticks]
  | succ n ih =>
    intro d h
    have h1 : 0 < d.next := by omega
    have h2 : ¬ d.next - 1 < 0 := by omega
    rw [driver_ticks, tick_idle fuel input W H start goal d h1]
    simp only []
    rw [ih _ (by simp only []; omega)]
    simp only [h2, if_false, List.append_nil]
    congr 2
    push_cast
    ring_nf

theorem ticks_add (fuel : Nat) (input : List Char) (W H : Nat) (start goal : Position) :
    ∀ (m n : Nat) (d d1 d2 : DriverState) (l1 l2 : List ℚ),
      driver_ticks fuel input W H start goal m d = done (l1, d1) →
      driver_ticks fuel input W H start goal n d1 = done (l2, d2) →
      driver_ticks fuel input W H start goal (m + n) d = done (l1 ++ l2, d2) := by
  intro m
  induction m with
  | zero =>
    intro n d d1 d2 l1 l2 h1 h2
    simp only [driver_ticks] at h1
    have := done_inj h1
    simp only [Prod.mk.injEq] at this
    obtain ⟨rfl, rfl⟩ := this
    simpa using h2
  | succ m ih =>
    intro n d d1 d2 l1 l2 h1 h2
    rw [driver_ticks] at h1
    rw [Nat.succ_add, driver_ticks]
    cases hd : draw_nav_ara_data fuel input W H start goal d with
    | fault => rw [hd] at h1; cases h1
    | timeout => rw [hd] at h1; cases h1
    | done dd =>
      rw [hd] at h1
      simp only [] at h1 ⊢
      cases hr : driver_ticks fuel input W H start goal m dd with
      | fault => rw [hr] at h1; cases h1
      | timeout => rw [hr] at h1; cases h1
      | done r =>
        obtain ⟨l0, d0⟩ := r
        rw [hr] at h1
        simp only [] at h1
        have := done_inj h1
        simp only [Prod.mk.injEq] at this
        obtain ⟨rfl, rfl⟩ := this
        rw [ih n dd d0 d2 l0 l2 hr h2]
        simp only [List.append_assoc]


theorem two_cells_period_reset (d : DriverState) (hn : d.next = 0)
    (hc : d.eps < 1 ∨ d.ara.openListAra = []) (hi : d.ara.nextIter = []) :
    driver_ticks 3 [' ', ' '] 2 1 ⟨0, 0⟩ ⟨1, 0⟩ 31 d =
      done ([eps_def - eps_step],
        { eps := eps_def - eps_step, next := 0, lastPath := [⟨0, 0⟩, ⟨1, 0⟩],
          ara := { gScoreAra := [some 0, some 1], prevPath := [sentinel, ⟨0, 0⟩],
                   openListAra := [⟨1, 0⟩], nextIter := [],
                   currentPathOnDraw := [⟨0, 0⟩] } }) := by
  have h1 : d.next - 1 < 0 := by omega
  have t1 : driver_ticks 3 [' ', ' '] 2 1 ⟨0, 0⟩ ⟨1, 0⟩ 1 d =
      done ([eps_def - eps_step],
        { eps := eps_def - eps_step, next := 30, lastPath := [⟨0, 0⟩, ⟨1, 0⟩],
          ara := { gScoreAra := [some 0, some 1], prevPath := [sentinel, ⟨0, 0⟩],
                   openListAra := [⟨1, 0⟩], nextIter := [],
                   currentPathOnDraw := [⟨0, 0⟩] } }) := by
    rw [driver_ticks, two_cells_tick_reset d hn hc hi]
    simp only [driver_ticks, h1, if_true, List.append_nil]
  have t2 := ticks_idle 3 [' ', ' '] 2 1 ⟨0, 0⟩ ⟨1, 0⟩ 30
    { eps := eps_def - eps_step, next := 30, lastPath := [⟨0, 0⟩, ⟨1, 0⟩],
      ara := { gScoreAra := [some 0, some 1], prevPath := [sentinel, ⟨0, 0⟩],
               openListAra := [⟨1, 0⟩], nextIter := [],
               currentPathOnDraw := [⟨0, 0⟩] } } (by decide)
  exact ticks_add 3 [' ', ' '] 2 1 ⟨0, 0⟩ ⟨1, 0⟩ 1 30 _ _ _ _ _ t1 t2

theorem two_cells_period_pass (e e1 : ℚ) (lp tr : List Position) (he : 1 ≤ e)
    (he1 : e1 = e - eps_step) :
    driver_ticks 3 [' ', ' '] 2 1 ⟨0, 0⟩ ⟨1, 0⟩ 31
      { eps := e, next := 0, lastPath := lp,
        ara := { gScoreAra := [some 0, some 1], prevPath := [sentinel, ⟨0, 0⟩],
                 openListAra := [⟨1, 0⟩], nextIter := [], currentPathOnDraw := tr } } =
      done ([e1],
        { eps := e1, next := 0, lastPath := [⟨0, 0⟩, ⟨1, 0⟩],
          ara := { gScoreAra := [some 0, some 1], prevPath := [sentinel, ⟨0, 0⟩],
                   openListAra := [⟨1, 0⟩], nextIter := [],
                   currentPathOnDraw := [] } }) := by
  subst he1
  have t1 : driver_ticks 3 [' ', ' '] 2 1 ⟨0, 0⟩ ⟨1, 0⟩ 1
      { eps := e, next := 0, lastPath := lp,
        ara := { gScoreAra := [some 0, some 1], prevPath := [sentinel, ⟨0, 0⟩],
                 openListAra := [⟨1, 0⟩], nextIter := [], currentPathOnDraw := tr } } =
      done ([e - eps_step],
        { eps := e - eps_step, next := 30, lastPath := [⟨0, 0⟩, ⟨1, 0⟩],
          ara := { gScoreAra := [some 0, some 1], prevPath := [sentinel, ⟨0, 0⟩],
                   openListAra := [⟨1, 0⟩], nextIter := [],
                   currentPathOnDraw := [] } }) := by
    rw [driver_ticks, two_cells_tick_pass _ rfl (not_lt.mpr he) ⟨rfl, rfl, rfl, rfl⟩]
    simp only [driver_ticks, List.append_nil]
    rfl
  have t2 := ticks_idle 3 [' ', ' '] 2 1 ⟨0, 0⟩ ⟨1, 0⟩ 30
    { eps := e - eps_step, next := 30, lastPath := [⟨0, 0⟩, ⟨1, 0⟩],
      ara := { gScoreAra := [some 0, some 1], prevPath := [sentinel, ⟨0, 0⟩],
               openListAra := [⟨1, 0⟩], nextIter := [],
               currentPathOnDraw := [] } } (by simp)
  exact ticks_add 3 [' ', ' '] 2 1 ⟨0, 0⟩ ⟨1, 0⟩ 1 30 _ _ _ _ _ t1 t2

theorem tick_eps (fuel : Nat) (input : List Char) (W H : Nat) (start goal : Position)
    (d0 d1 : DriverState) (h : draw_nav_ara_data fuel input W H start goal d0 = done d1) :
    d1.eps =
      if d0.next - 1 < 0 then
        (if d0.eps < 1 ∨ d0.ara.openListAra = [] then eps_def else d0.eps) - eps_step
      else d0.eps := by
  unfold draw_nav_ara_data at h
  dsimp only at h
  split at h
  · rename_i hlt
    rw [if_pos hlt]
    split at h
    · rename_i d2 hd2
      split at h
      · rename_i path ara hcall
        rw [← done_inj h]
        simp only []
        split at hd2
        · rename_i hc
          unfold session_reset at hd2
          split at hd2
          · rw [← done_inj hd2, if_pos hc]
          · cases hd2
        · rename_i hc
          rw [← done_inj hd2, if_neg hc]
      · cases h
      · cases h
    · cases h
    · cases h
  · rename_i hlt
    rw [if_neg hlt, ← done_inj h]

theorem ticks_schedule (fuel : Nat) (input : List Char) (W H : Nat) (start goal : Position) :
    ∀ (n : Nat) (d d1 : DriverState) (passes : List ℚ),
      driver_ticks fuel input W H start goal n d = done (passes, d1) →
      List.Chain (fun e1 e2 => (e1 < 1 → e2 = eps_def - eps_step) ∧
        (1 ≤ e1 → e2 = e1 - eps_step ∨ e2 = eps_def - eps_step)) d.eps passes ∧
      (1 / 2 ≤ d.eps ∧ d.eps ≤ eps_def →
        (∀ e ∈ passes, 1 / 2 ≤ e ∧ e ≤ 9 / 2) ∧ 1 / 2 ≤ d1.eps ∧ d1.eps ≤ eps_def) := by
  intro n
  induction n with
  | zero =>
    intro d d1 passes h
    simp only [driver_ticks] at h
    have := done_inj h
    simp only [Prod.mk.injEq] at this
    obtain ⟨rfl, rfl⟩ := this
    exact ⟨List.Chain.nil, fun hd => ⟨(fun e he => by cases he), hd⟩⟩
  | succ n ih =>
    intro d d1 passes h
    rw [driver_ticks] at h
    cases hd : draw_nav_ara_data fuel input W H start goal d with
    | fault => rw [hd] at h; cases h
    | timeout => rw [hd] at h; cases h
    | done dd =>
      rw [hd] at h
      simp only [] at h
      cases hr : driver_ticks fuel input W H start goal n dd with
      | fault => rw [hr] at h; cases h
      | timeout => rw [hr] at h; cases h
      | done r =>
        obtain ⟨l0, d0⟩ := r
        rw [hr] at h
        simp only [] at h
        have := done_inj h
        simp only [Prod.mk.injEq] at this
        obtain ⟨rfl, rfl⟩ := this
        obtain ⟨i1, i2⟩ := ih dd d0 l0 hr
        have he := tick_eps fuel input W H start goal d dd hd
        by_cases hlt : d.next - 1 < 0
        · rw [if_pos hlt] at he
          simp only [hlt, if_true, List.singleton_append]
          have hrel : (d.eps < 1 → dd.eps = eps_def - eps_step) ∧
              (1 ≤ d.eps → dd.eps = d.eps - eps_step ∨ dd.eps = eps_def - eps_step) := by
            constructor
            · intro h1
              rw [he, if_pos (Or.inl h1)]
            · intro _
              rw [he]
              split
              · exact Or.inr rfl
              · exact Or.inl rfl
          refine ⟨List.Chain.cons hrel i1, ?_⟩
          intro hd5
          have hrange : 1 / 2 ≤ dd.eps ∧ dd.eps ≤ 9 / 2 := by
            rw [he]
            split
            · norm_num [eps_def, eps_step]
            · rename_i hc
              push_neg at hc
              have h1 := hc.1
              have h2 := hd5.2
              norm_num [eps_def, eps_step] at h2 ⊢
              constructor <;> linarith
          obtain ⟨j1, j2⟩ := i2 ⟨hrange.1, by
            have := hrange.2
            norm_num [eps_def]
            linarith⟩
          refine ⟨?_, j2⟩
          intro e hmem
          rcases List.mem_cons.mp hmem with rfl | hmem
          · exact hrange
          · exact j1 e hmem
        · rw [if_neg hlt] at he
          simp only [hlt, if_false, List.nil_append]
          rw [he] at i1 i2
          exact ⟨i1, i2⟩

theorem tick_law (fuel : Nat) (input : List Char) (W H : Nat) (start goal : Position)
    (d0 d1 : DriverState) (h : draw_nav_ara_data fuel input W H start goal d0 = done d1) :
    (d0.next - 1 < 0 →
      d1.next = 30 ∧
      d1.eps =
        (if d0.eps < 1 ∨ d0.ara.openListAra = [] then eps_def else d0.eps) - eps_step ∧
      ∃ d2,
        (if d0.eps < 1 ∨ d0.ara.openListAra = [] then
            session_reset W H start { d0 with next := d0.next - 1 }
          else done { d0 with next := d0.next - 1 }) = done d2 ∧
        find_path_ara_star fuel input W H start goal d1.eps
          { d2.ara with currentPathOnDraw := [] } = done (d1.lastPath, d1.ara)) ∧
    (¬ d0.next - 1 < 0 → d1 = { d0 with next := d0.next - 1 }) := by
  have he := tick_eps fuel input W H start goal d0 d1 h
  unfold draw_nav_ara_data at h
  dsimp only at h
  split at h
  · rename_i hlt
    refine ⟨fun _ => ?_, fun hn => absurd hlt hn⟩
    rw [if_pos hlt] at he
    split at h
    · rename_i d2 hd2
      split at h
      · rename_i path ara hcall
        have hd := done_inj h
        subst hd
        have he2 : d2.eps - eps_step =
            (if d0.eps < 1 ∨ d0.ara.openListAra = [] then eps_def else d0.eps) - eps_step := he
        exact ⟨rfl, he2, d2, hd2, hcall⟩
      · cases h
      · cases h
    · cases h
    · cases h
  · rename_i hlt
    exact ⟨fun hp => absurd hp hlt, fun _ => (done_inj h).symm⟩

theorem two_cells_run :
    driver_ticks 3 [' ', ' '] 2 1 ⟨0, 0⟩ ⟨1, 0⟩ 280 driver_init =
      done ([9 / 2, 4, 7 / 2, 3, 5 / 2, 2, 3 / 2, 1, 1 / 2, 9 / 2],
        { eps := 9 / 2, next := 30, lastPath := [⟨0, 0⟩, ⟨1, 0⟩],
          ara := { gScoreAra := [some 0, some 1], prevPath := [sentinel, ⟨0, 0⟩],
                   openListAra := [⟨1, 0⟩], nextIter := [],
                   currentPathOnDraw := [⟨0, 0⟩] } }) := by
  have p1 := two_cells_period_reset driver_init rfl (Or.inr rfl) rfl
  have e1 : eps_def - eps_step = 9 / 2 := by norm_num [eps_def, eps_step]
  rw [e1] at p1
  have p2 := two_cells_period_pass (9 / 2) 4 [⟨0, 0⟩, ⟨1, 0⟩] [⟨0, 0⟩] (by norm_num)
    (by norm_num [eps_step])
  have p3 := two_cells_period_pass 4 (7 / 2) [⟨0, 0⟩, ⟨1, 0⟩] [] (by norm_num)
    (by norm_num [eps_step])
  have p4 := two_cells_period_pass (7 / 2) 3 [⟨0, 0⟩, ⟨1, 0⟩] [] (by norm_num)
    (by norm_num [eps_step])
  have p5 := two_cells_period_pass 3 (5 / 2) [⟨0, 0⟩, ⟨1, 0⟩] [] (by norm_num)
    (by norm_num [eps_step])
  have p6 := two_cells_period_pass (5 / 2) 2 [⟨0, 0⟩, ⟨1, 0⟩] [] (by norm_num)
    (by norm_num [eps_step])
  have p7 := two_cells_period_pass 2 (3 / 2) [⟨0, 0⟩, ⟨1, 0⟩] [] (by norm_num)
    (by norm_num [eps_step])
  have p8 := two_cells_period_pass (3 / 2) 1 [⟨0, 0⟩, ⟨1, 0⟩] [] (by norm_num)
    (by norm_num [eps_step])
  have p9 := two_cells_period_pass 1 (1 / 2) [⟨0, 0⟩, ⟨1, 0⟩] [] (by norm_num)
    (by norm_num [eps_step])
  have p10 : driver_ticks 3 [' ', ' '] 2 1 ⟨0, 0⟩ ⟨1, 0⟩ 1
      { eps := 1 / 2, next := 0, lastPath := [⟨0, 0⟩, ⟨1, 0⟩],
        ara := { gScoreAra := [some 0, some 1], prevPath := [sentinel, ⟨0, 0⟩],
                 openListAra := [⟨1, 0⟩], nextIter := [], currentPathOnDraw := [] } } =
      done ([9 / 2],
        { eps := 9 / 2, next := 30, lastPath := [⟨0, 0⟩, ⟨1, 0⟩],
          ara := { gScoreAra := [some 0, some 1], prevPath := [sentinel, ⟨0, 0⟩],
                   openListAra := [⟨1, 0⟩], nextIter := [],
                   currentPathOnDraw := [⟨0, 0⟩] } }) := by
    rw [driver_ticks, two_cells_tick_reset _ rfl (Or.inl (by norm_num)) rfl, e1]
    simp only [driver_ticks, List.append_nil]
    rfl
  have q9 := ticks_add 3 [' ', ' '] 2 1 ⟨0, 0⟩ ⟨1, 0⟩ 31 1 _ _ _ _ _ p9 p10
  have q8 := ticks_add 3 [' ', ' '] 2 1 ⟨0, 0⟩ ⟨1, 0⟩ 31 (31 + 1) _ _ _ _ _ p8 q9
  have q7 := ticks_add 3 [' ', ' '] 2 1 ⟨0, 0⟩ ⟨1, 0⟩ 31 (31 + (31 + 1)) _ _ _ _ _ p7 q8
  have q6 := ticks_add 3 [' ', ' '] 2 1 ⟨0, 0⟩ ⟨1, 0⟩ 31 (31 + (31 + (31 + 1))) _ _ _ _ _ p6 q7
  have q5 := ticks_add 3 [' ', ' '] 2 1 ⟨0, 0⟩ ⟨1, 0⟩ 31 (31 + (31 + (31 + (31 + 1))))
    _ _ _ _ _ p5 q6
  have q4 := ticks_add 3 [' ', ' '] 2 1 ⟨0, 0⟩ ⟨1, 0⟩ 31 (31 + (31 + (31 + (31 + (31 + 1)))))
    _ _ _ _ _ p4 q5
  have q3 := ticks_add 3 [' ', ' '] 2 1 ⟨0, 0⟩ ⟨1, 0⟩ 31
    (31 + (31 + (31 + (31 + (31 + (31 + 1)))))) _ _ _ _ _ p3 q4
  have q2 := ticks_add 3 [' ', ' '] 2 1 ⟨0, 0⟩ ⟨1, 0⟩ 31
    (31 + (31 + (31 + (31 + (31 + (31 + (31 + 1))))))) _ _ _ _ _ p2 q3
  have q1 := ticks_add 3 [' ', ' '] 2 1 ⟨0, 0⟩ ⟨1, 0⟩ 31
    (31 + (31 + (31 + (31 + (31 + (31 + (31 + (31 + 1)))))))) _ _ _ _ _ p1 q2
  exact q1
/-! ## The claims -/

/-- C1. On a W x H grid with an in-bounds start, whenever the goal can be reached from the
start by orthogonal moves into in-bounds non-Blocked cells, `find_path_a_star` (scores read
as exact reals, enough fuel) returns such a path and its cost (1 per Normal cell entered,
10 per Heavy cell) is at most the cost of every path from start to goal, i.e. it is the
minimum. -/
theorem a_star_returns_min_cost_path (input : List Char) (W H : Nat) (start goal : Position)
    (hin : input.length = W * H) (hs : ¬ outOfBounds W H start)
    (hreach : ∃ π, isPath input W H start goal π)
    (fuel : Nat) (hfuel : 5 * (W * H) + 2 ≤ fuel) :
    ∃ res, find_path_a_star fuel input W H start goal = done res ∧
      isPath input W H start goal res ∧
      ∀ π, isPath input W H start goal π → pathCost input W res ≤ pathCost input W π := by
  obtain ⟨res, h1, h2⟩ := a_star_correct goal hin hs fuel hfuel
  obtain ⟨π, hπ⟩ := hreach
  rcases h2 with ⟨_, h⟩ | h
  · exact absurd hπ (h π)
  · exact ⟨res, h1, h⟩

/-- Witness for C1: a 3 x 2 grid with a Heavy cell between start and goal. -/
theorem a_star_returns_min_cost_path_witness :
    ∃ res, find_path_a_star 32 [' ', 'o', ' ', ' ', ' ', ' '] 3 2 ⟨0, 0⟩ ⟨2, 0⟩ = done res ∧
      isPath [' ', 'o', ' ', ' ', ' ', ' '] 3 2 ⟨0, 0⟩ ⟨2, 0⟩ res ∧
      ∀ π, isPath [' ', 'o', ' ', ' ', ' ', ' '] 3 2 ⟨0, 0⟩ ⟨2, 0⟩ π →
        pathCost [' ', 'o', ' ', ' ', ' ', ' '] 3 res ≤
          pathCost [' ', 'o', ' ', ' ', ' ', ' '] 3 π :=
  a_star_returns_min_cost_path [' ', 'o', ' ', ' ', ' ', ' '] 3 2 ⟨0, 0⟩ ⟨2, 0⟩ (by decide)
    (by decide) ⟨[⟨0, 0⟩, ⟨1, 0⟩, ⟨2, 0⟩], by decide⟩ 32 (by decide)

/-- C2. For an in-bounds start and any goal, `find_path_a_star` returns (enough fuel), and
a non-empty result starts at `start`, ends at `goal`, moves between orthogonal neighbours
only, stays in bounds and enters no Blocked cell. -/
theorem a_star_result_is_walk (input : List Char) (W H : Nat) (start goal : Position)
    (hin : input.length = W * H) (hs : ¬ outOfBounds W H start)
    (fuel : Nat) (hfuel : 5 * (W * H) + 2 ≤ fuel) :
    ∃ res, find_path_a_star fuel input W H start goal = done res ∧
      (res ≠ [] →
        res.head? = some start ∧ res.getLast? = some goal ∧
        List.Chain' adjacent res ∧
        (∀ p ∈ res, ¬ outOfBounds W H p) ∧
        (∀ p ∈ res.tail, ¬ blocked input W p)) := by
  obtain ⟨res, h1, h2⟩ := a_star_correct goal hin hs fuel hfuel
  refine ⟨res, h1, ?_⟩
  intro hne
  rcases h2 with ⟨h, _⟩ | ⟨h, _⟩
  · exact absurd h hne
  · have hcells := isPath_cells h
    obtain ⟨h3, h4, h5⟩ := h
    rw [validChain_iff] at h5
    refine ⟨h3, h4, h5.imp (fun _ _ hstep => hstep.1), ?_, fun p hp => (hcells p hp).2⟩
    intro p hp
    cases res with
    | nil => exact absurd rfl hne
    | cons a t =>
      simp only [List.head?_cons, Option.some.injEq] at h3
      rcases List.mem_cons.mp hp with hp | hp
      · rw [hp, h3]; exact hs
      · exact (hcells p hp).1

/-- Witness for C2 on a 2 x 2 grid with one Blocked cell. -/
theorem a_star_result_is_walk_witness :
    ∃ res, find_path_a_star 22 [' ', '#', ' ', ' '] 2 2 ⟨0, 0⟩ ⟨1, 1⟩ = done res ∧
      (res ≠ [] →
        res.head? = some ⟨0, 0⟩ ∧ res.getLast? = some ⟨1, 1⟩ ∧
        List.Chain' adjacent res ∧
        (∀ p ∈ res, ¬ outOfBounds 2 2 p) ∧
        (∀ p ∈ res.tail, ¬ blocked [' ', '#', ' ', ' '] 2 p)) :=
  a_star_result_is_walk [' ', '#', ' ', ' '] 2 2 ⟨0, 0⟩ ⟨1, 1⟩ (by decide) (by decide) 22
    (by decide)

/-- C3. For an in-bounds start, `find_path_a_star` returns (enough fuel) and its result is
the empty vector exactly when no walk by orthogonal moves into in-bounds non-Blocked cells
leads from start to goal. -/
theorem a_star_empty_iff_unreachable (input : List Char) (W H : Nat) (start goal : Position)
    (hin : input.length = W * H) (hs : ¬ outOfBounds W H start)
    (fuel : Nat) (hfuel : 5 * (W * H) + 2 ≤ fuel) :
    ∃ res, find_path_a_star fuel input W H start goal = done res ∧
      (res = [] ↔ ¬ ∃ π, isPath input W H start goal π) := by
  obtain ⟨res, h1, h2⟩ := a_star_correct goal hin hs fuel hfuel
  refine ⟨res, h1, ?_⟩
  rcases h2 with ⟨h, h'⟩ | ⟨h, _⟩
  · exact ⟨fun _ ⟨π, hπ⟩ => h' π hπ, fun _ => h⟩
  · exact ⟨fun he => absurd he (isPath_ne_nil h), fun hn => absurd ⟨res, h⟩ hn⟩

/-- Witness for C3: on a 3 x 1 grid the Blocked middle cell cuts the goal off. -/
theorem a_star_empty_iff_unreachable_witness :
    ∃ res, find_path_a_star 17 [' ', '#', ' '] 3 1 ⟨0, 0⟩ ⟨2, 0⟩ = done res ∧
      (res = [] ↔ ¬ ∃ π, isPath [' ', '#', ' '] 3 1 ⟨0, 0⟩ ⟨2, 0⟩ π) :=
  a_star_empty_iff_unreachable [' ', '#', ' '] 3 1 ⟨0, 0⟩ ⟨2, 0⟩ (by decide) (by decide) 17
    (by decide)

/-- C4. In a campaign of `find_path_ara_star` calls started from the reset state on a grid
with in-bounds start and goal (enough fuel, scores read as exact reals), every call made
with an epsilon `e ≥ 1` that returns a non-empty path returns one whose cost is at most `e`
times the cost of every path from start to goal, hence at most `e` times the minimum.  This
holds for every sequence of epsilons, in particular for non-increasing ones. -/
theorem ara_path_cost_within_epsilon (input : List Char) (W H : Nat) (start goal : Position)
    (hin : input.length = W * H) (hs : ¬ outOfBounds W H start)
    (hg : ¬ outOfBounds W H goal) (eps : List ℚ) (fuel : Nat) (hfuel : W * H + 1 ≤ fuel) :
    ∃ results,
      ara_campaign fuel input W H start goal eps (ara_reset_state W H start) = done results ∧
      List.Forall₂ (fun e r => 1 ≤ e → r.1 ≠ [] →
        ∀ π, isPath input W H start goal π →
          (pathCost input W r.1 : ℚ) ≤ e * (pathCost input W π : ℚ)) eps results := by
  obtain ⟨results, h1, h2⟩ := ara_campaign_correct hs fuel hfuel eps _
    (ara_reset_between hin hs hg)
  exact ⟨results, h1, campaign_bound eps _ results h2⟩

/-- Witness for C4: a 3 x 2 grid, epsilons 2 then 1. -/
theorem ara_path_cost_within_epsilon_witness :
    ∃ results,
      ara_campaign 7 [' ', 'o', ' ', ' ', ' ', ' '] 3 2 ⟨0, 0⟩ ⟨2, 0⟩ [2, 1]
        (ara_reset_state 3 2 ⟨0, 0⟩) = done results ∧
      List.Forall₂ (fun e r => 1 ≤ e → r.1 ≠ [] →
        ∀ π, isPath [' ', 'o', ' ', ' ', ' ', ' '] 3 2 ⟨0, 0⟩ ⟨2, 0⟩ π →
          (pathCost [' ', 'o', ' ', ' ', ' ', ' '] 3 r.1 : ℚ) ≤
            e * (pathCost [' ', 'o', ' ', ' ', ' ', ' '] 3 π : ℚ)) [2, 1] results :=
  ara_path_cost_within_epsilon [' ', 'o', ' ', ' ', ' ', ' '] 3 2 ⟨0, 0⟩ ⟨2, 0⟩ (by decide)
    (by decide) (by decide) [2, 1] 7 (by decide)

/-- C7. A start outside the grid makes both searches return the empty vector at once
(whatever the fuel), and `find_path_ara_star` leaves its globals untouched. -/
theorem out_of_bounds_start_returns_empty (fuel : Nat) (input : List Char) (W H : Nat)
    (start goal : Position) (epsilon : ℚ) (st : AraState)
    (h : start.x < 0 ∨ start.y < 0 ∨ start.x ≥ (W : Int) ∨ start.y ≥ (H : Int)) :
    find_path_a_star fuel input W H start goal = done [] ∧
    find_path_ara_star fuel input W H start goal epsilon st = done ([], st) := by
  have h' : outOfBounds W H start := h
  simp [find_path_a_star, find_path_ara_star, h']

/-- Witness for C7: start `(3, 0)` on a 3 x 1 grid. -/
theorem out_of_bounds_start_returns_empty_witness :
    find_path_a_star 0 [' ', ' ', ' '] 3 1 ⟨3, 0⟩ ⟨0, 0⟩ = done [] ∧
    find_path_ara_star 0 [' ', ' ', ' '] 3 1 ⟨3, 0⟩ ⟨0, 0⟩ 1 (ara_reset_state 3 1 ⟨0, 0⟩) =
      done ([], ara_reset_state 3 1 ⟨0, 0⟩) :=
  out_of_bounds_start_returns_empty 0 [' ', ' ', ' '] 3 1 ⟨3, 0⟩ ⟨0, 0⟩ 1
    (ara_reset_state 3 1 ⟨0, 0⟩) (by decide)

/-- C8. For an in-bounds start and a goal outside the grid, `find_path_a_star` terminates
(enough fuel) and returns the empty vector. -/
theorem a_star_goal_outside_returns_empty (input : List Char) (W H : Nat)
    (start goal : Position) (hin : input.length = W * H) (hs : ¬ outOfBounds W H start)
    (hg : outOfBounds W H goal) (fuel : Nat) (hfuel : 5 * (W * H) + 2 ≤ fuel) :
    find_path_a_star fuel input W H start goal = done [] := by
  obtain ⟨res, h1, h2⟩ := a_star_correct goal hin hs fuel hfuel
  rcases h2 with ⟨h, _⟩ | ⟨h, _⟩
  · rw [h1, h]
  · exact absurd hg (isPath_last_inBounds hs res goal h)

/-- Witness for C8: goal `(2, 0)` on a 2 x 1 grid. -/
theorem a_star_goal_outside_returns_empty_witness :
    find_path_a_star 12 [' ', ' '] 2 1 ⟨0, 0⟩ ⟨2, 0⟩ = done [] :=
  a_star_goal_outside_returns_empty [' ', ' '] 2 1 ⟨0, 0⟩ ⟨2, 0⟩ (by decide) (by decide)
    (by decide) 12 (by decide)

/-- C10. `reconstruct_path` on an arbitrary predecessor map: when the predecessor chain from
`goal` reaches, after `n` stored predecessors, a cell whose stored predecessor is the
sentinel, the function returns (given more than `n` units of fuel) that chain reversed:
`n + 1` positions ending in `goal`, each the stored predecessor of the next, the first with
the sentinel as stored predecessor; with `n = 0` the result is exactly `[goal]`. -/
theorem reconstruct_path_returns_chain (prev : List Position) (W : Nat) (goal : Position)
    (n fuel : Nat) (h : chainEnds prev W n goal = true) (hf : n < fuel) :
    ∃ res, reconstruct_path fuel prev goal W = done res ∧ res.length = n + 1 ∧
      res.getLast? = some goal ∧
      List.Chain' (fun a b => rd W prev b = done a) res ∧
      (∃ first, res.head? = some first ∧ rd W prev first = done sentinel) ∧
      (n = 0 → res = [goal]) := by
  obtain ⟨pre, h1, h2, h3, h4⟩ := reconstruct_loop_chain prev W n goal [goal] fuel h hf
  refine ⟨pre ++ [goal], h1, by simp [h2], by simp, h3, h4, ?_⟩
  intro hn
  rw [hn] at h2
  rw [List.length_eq_zero.mp h2]
  rfl

/-- Witness for C10 on a 3 x 1 map whose chain runs (2,0) -> (1,0) -> (0,0). -/
theorem reconstruct_path_returns_chain_witness :
    ∃ res, reconstruct_path 3 [sentinel, ⟨0, 0⟩, ⟨1, 0⟩] ⟨2, 0⟩ 3 = done res ∧ res.length = 2 + 1 ∧
      res.getLast? = some ⟨2, 0⟩ ∧
      List.Chain' (fun a b => rd 3 [sentinel, ⟨0, 0⟩, ⟨1, 0⟩] b = done a) res ∧
      (∃ first, res.head? = some first ∧ rd 3 [sentinel, ⟨0, 0⟩, ⟨1, 0⟩] first = done sentinel) ∧
      (2 = 0 → res = [⟨2, 0⟩]) :=
  reconstruct_path_returns_chain [sentinel, ⟨0, 0⟩, ⟨1, 0⟩] 3 ⟨2, 0⟩ 2 3 (by decide) (by decide)


/-- C11, failing input.  On the grid of two Normal cells in one row, with start `(0,0)`,
goal `(0,1)` below the grid, epsilon 1 and the reset state, `find_path_ara_star` reads
`gScoreAra` at index 2 of 2 entries when it evaluates `getF(to)`: the run faults. -/
theorem ara_goal_outside_faults :
    find_path_ara_star 3 [' ', ' '] 2 1 ⟨0, 0⟩ ⟨0, 1⟩ 1 (ara_reset_state 2 1 ⟨0, 0⟩) = fault ∧
    (ara_reset_state 2 1 ⟨0, 0⟩).gScoreAra.length = 2 * 1 ∧
    (ara_reset_state 2 1 ⟨0, 0⟩).prevPath.length = 2 * 1 ∧
    find_path_a_star 12 [' ', ' '] 2 1 ⟨0, 0⟩ ⟨0, 1⟩ = done [] := by
  decide

/-- C12.  On the 5 x 5 grid of Normal cells with start `(0,0)` and goal `(4,4)`,
`find_path_a_star` returns a path of 9 positions and cost 8 in which every move raises `x`
by 1 or `y` by 1; and so does the last call of every campaign of `find_path_ara_star`
started from the reset state whose last epsilon is 1, whatever the earlier epsilons. -/
theorem uniform_grid_staircase (es : List ℚ) :
    (∃ res, find_path_a_star 127 (List.replicate 25 ' ') 5 5 ⟨0, 0⟩ ⟨4, 4⟩ = done res ∧
      res.length = 9 ∧ pathCost (List.replicate 25 ' ') 5 res = 8 ∧ isStaircase res) ∧
    (∃ results r,
      ara_campaign 127 (List.replicate 25 ' ') 5 5 ⟨0, 0⟩ ⟨4, 4⟩ (es ++ [1])
        (ara_reset_state 5 5 ⟨0, 0⟩) = done results ∧
      results.getLast? = some r ∧
      isPath (List.replicate 25 ' ') 5 5 ⟨0, 0⟩ ⟨4, 4⟩ r.1 ∧
      r.1.length = 9 ∧ pathCost (List.replicate 25 ' ') 5 r.1 = 8 ∧ isStaircase r.1) := by
  constructor
  · refine ⟨[⟨0,0⟩,⟨1,0⟩,⟨1,1⟩,⟨2,1⟩,⟨2,2⟩,⟨3,2⟩,⟨3,3⟩,⟨4,3⟩,⟨4,4⟩], ?_, ?_, ?_, ?_⟩ <;> decide
  · have hs : ¬ outOfBounds 5 5 (⟨0, 0⟩ : Position) := by decide
    have hg : ¬ outOfBounds 5 5 (⟨4, 4⟩ : Position) := by decide
    have hin : (List.replicate 25 ' ').length = 5 * 5 := by decide
    obtain ⟨results, h1, h2⟩ := ara_campaign_correct hs 127 (by decide) (es ++ [1]) _
      (ara_reset_between hin hs hg)
    obtain ⟨s, r, h3, h4⟩ := campaign_last es 1 _ results h2
    have hπ : isPath (List.replicate 25 ' ') 5 5 ⟨0, 0⟩ ⟨4, 4⟩
        [⟨0,0⟩,⟨1,0⟩,⟨1,1⟩,⟨2,1⟩,⟨2,2⟩,⟨3,2⟩,⟨3,3⟩,⟨4,3⟩,⟨4,4⟩] := by decide
    have hc8 : pathCost (List.replicate 25 ' ') 5
        [⟨0,0⟩,⟨1,0⟩,⟨1,1⟩,⟨2,1⟩,⟨2,2⟩,⟨3,2⟩,⟨3,3⟩,⟨4,3⟩,⟨4,4⟩] = 8 := by decide
    rcases h4.2 with ⟨_, _, hno⟩ | ⟨hR, n, _, hcost, hbound⟩
    · exact absurd hπ (hno _)
    · have h8 := hbound (le_refl 1) _ hπ
      rw [hc8] at h8
      have h9 : (n : ℝ) ≤ 8 := by simpa using h8
      have h10 : n ≤ 8 := by exact_mod_cast h9
      obtain ⟨hh, hlast, hch⟩ := hR
      cases hr : r.1 with
      | nil => rw [hr] at hh; simp at hh
      | cons a l =>
        rw [hr] at hh hlast hch hcost
        have ha : a = ⟨0, 0⟩ := by simpa using hh
        subst ha
        obtain ⟨k1, k2, k3⟩ := staircase_of_short (cellCost_uniform 25 5) l _ _ hlast hch
        simp only [] at k2 k3
        have hl8 : l.length = 8 := by omega
        refine ⟨results, r, h1, h3, ?_, ?_, ?_, ?_⟩
        · rw [hr]; exact ⟨by simp, hlast, hch⟩
        · rw [hr]; simp [hl8]
        · rw [hr, k1, hl8]
        · rw [hr]; exact k3 (by rw [hl8]; norm_num)

/-- C13.  On the 5 x 5 grid whose cells are Normal except the Heavy cell `(2,2)`,
with start `(0,0)` and goal `(4,4)`, `find_path_a_star` returns a path that does not
contain `(2,2)` and has cost 8. -/
theorem a_star_detours_heavy_cell :
    ∃ res, find_path_a_star 127
        ("            o            ".toList) 5 5 ⟨0, 0⟩ ⟨4, 4⟩ = done res ∧
      cellCost ("            o            ".toList) 5 ⟨2, 2⟩ = 10 ∧
      (⟨2, 2⟩ : Position) ∉ res ∧
      pathCost ("            o            ".toList) 5 res = 8 ∧
      isPath ("            o            ".toList) 5 5 ⟨0, 0⟩ ⟨4, 4⟩ res := by
  refine ⟨[⟨0,0⟩,⟨1,0⟩,⟨1,1⟩,⟨2,1⟩,⟨3,1⟩,⟨3,2⟩,⟨3,3⟩,⟨4,3⟩,⟨4,4⟩], ?_, ?_, ?_, ?_, ?_⟩ <;> decide

/-- C14.  On a W x H grid, for every start, goal and list of epsilons, with enough
fuel: `find_path_a_star` returns; a campaign of `find_path_ara_star` calls started from the
reset state never runs out of fuel, neither in the main loop nor in the walk of
`reconstruct_path`, and it returns when the goal is in bounds; and the cells popped from
the open list during one call (those appended to the trace `currentPathOnDraw`) are
pairwise distinct. -/
theorem searches_terminate (input : List Char) (W H : Nat) (start goal : Position)
    (hin : input.length = W * H) (fuel : Nat) (hfuel : 5 * (W * H) + 2 ≤ fuel)
    (es : List ℚ) :
    (∃ res, find_path_a_star fuel input W H start goal = done res) ∧
    ara_campaign fuel input W H start goal es (ara_reset_state W H start) ≠ timeout ∧
    (¬ outOfBounds W H goal → ∃ results,
      ara_campaign fuel input W H start goal es (ara_reset_state W H start) = done results) ∧
    (∀ results,
      ara_campaign fuel input W H start goal es (ara_reset_state W H start) = done results →
      campaignAll (fun s _ r =>
        ∃ pops, r.2.currentPathOnDraw = s.currentPathOnDraw ++ pops ∧ pops.Nodup)
        (ara_reset_state W H start) es results) := by
  by_cases hs : outOfBounds W H start
  · obtain ⟨rs, h1, h2⟩ := ara_campaign_outside goal fuel hs es (ara_reset_state W H start)
    refine ⟨⟨[], by unfold find_path_a_star; rw [if_pos hs]⟩, by rw [h1]; simp,
      fun _ => ⟨rs, h1⟩, ?_⟩
    intro results hr
    rw [h1] at hr
    rw [← done_inj hr]
    refine campaignAll_mono ?_ es _ rs h2
    intro s _ r h
    subst h
    exact ⟨[], by simp, List.nodup_nil⟩
  · obtain ⟨res, h1, _⟩ := a_star_correct goal hin hs fuel hfuel
    obtain ⟨h2, h3⟩ := ara_campaign_weak goal fuel (by omega) es _ (ara_reset_weak hin hs)
    refine ⟨⟨res, h1⟩, h2, ?_, ?_⟩
    · intro hg
      obtain ⟨rs, h4, _⟩ := ara_campaign_correct hs fuel (by omega) es _
        (ara_reset_between hin hs hg)
      exact ⟨rs, h4⟩
    · intro results hr
      refine campaignAll_mono ?_ es _ results (h3 results hr)
      intro s _ r h
      obtain ⟨_, _, _, pops, k1, k2, _⟩ := h
      exact ⟨pops, k1, k2⟩

/-- Witness for C14: a 3 x 2 grid with a Heavy cell, epsilons 2 then 1. -/
theorem searches_terminate_witness :
    (∃ res, find_path_a_star 32 [' ', 'o', ' ', ' ', ' ', ' '] 3 2 ⟨0, 0⟩ ⟨2, 0⟩ = done res) ∧
    ara_campaign 32 [' ', 'o', ' ', ' ', ' ', ' '] 3 2 ⟨0, 0⟩ ⟨2, 0⟩ [2, 1]
      (ara_reset_state 3 2 ⟨0, 0⟩) ≠ timeout ∧
    (¬ outOfBounds 3 2 (⟨2, 0⟩ : Position) → ∃ results,
      ara_campaign 32 [' ', 'o', ' ', ' ', ' ', ' '] 3 2 ⟨0, 0⟩ ⟨2, 0⟩ [2, 1]
        (ara_reset_state 3 2 ⟨0, 0⟩) = done results) ∧
    (∀ results,
      ara_campaign 32 [' ', 'o', ' ', ' ', ' ', ' '] 3 2 ⟨0, 0⟩ ⟨2, 0⟩ [2, 1]
        (ara_reset_state 3 2 ⟨0, 0⟩) = done results →
      campaignAll (fun s _ r =>
        ∃ pops, r.2.currentPathOnDraw = s.currentPathOnDraw ++ pops ∧ pops.Nodup)
        (ara_reset_state 3 2 ⟨0, 0⟩) [2, 1] results) :=
  searches_terminate [' ', 'o', ' ', ' ', ' ', ' '] 3 2 ⟨0, 0⟩ ⟨2, 0⟩ (by decide) 32
    (by decide) [2, 1]

/-- C16, counterexample.  On the grid of two Normal cells in one row, start `(0,0)`,
goal `(1,0)`, 280 ticks of the driver from the program-start globals make ten passes: the
ninth is made with epsilon `1/2`, which is below 1, and the tenth with `9/2` again, so
epsilon is not held at 1. -/
theorem driver_passes_epsilon_below_one :
    ∃ d, driver_ticks 3 [' ', ' '] 2 1 ⟨0, 0⟩ ⟨1, 0⟩ 280 driver_init =
      done ([9 / 2, 4, 7 / 2, 3, 5 / 2, 2, 3 / 2, 1, 1 / 2, 9 / 2], d) :=
  ⟨_, two_cells_run⟩

/-- C16, amended.  Over any number of ticks of the driver from the program-start globals
(epsilon 5, step 1/2): every epsilon passed to `find_path_ara_star` lies between 1/2 and
9/2; a pass that follows a pass made with an epsilon `e ≥ 1` (for the first pass: `e = 5`)
is made with `e - 1/2`, or with `5 - 1/2` when the session was reset; a pass that follows
a pass made with an epsilon below 1 is made with `5 - 1/2`, so epsilon is not held at 1.
A tick that makes a pass (`next - 1 < 0`) resets the session and puts the stored epsilon
back to 5 exactly when the stored epsilon is below 1 or the open list is empty, then
subtracts the step, stores the result and calls `find_path_ara_star` with it; any other
tick only decrements `next`. -/
theorem driver_epsilon_schedule (fuel : Nat) (input : List Char) (W H : Nat)
    (start goal : Position) (n : Nat) (passes : List ℚ) (d : DriverState)
    (h : driver_ticks fuel input W H start goal n driver_init = done (passes, d)) :
    List.Chain (fun e1 e2 => (e1 < 1 → e2 = eps_def - eps_step) ∧
      (1 ≤ e1 → e2 = e1 - eps_step ∨ e2 = eps_def - eps_step)) eps_def passes ∧
    (∀ e ∈ passes, 1 / 2 ≤ e ∧ e ≤ 9 / 2) ∧
    (∀ d0 d1, draw_nav_ara_data fuel input W H start goal d0 = done d1 →
      (d0.next - 1 < 0 →
        d1.next = 30 ∧
        d1.eps =
          (if d0.eps < 1 ∨ d0.ara.openListAra = [] then eps_def else d0.eps) - eps_step ∧
        ∃ d2,
          (if d0.eps < 1 ∨ d0.ara.openListAra = [] then
              session_reset W H start { d0 with next := d0.next - 1 }
            else done { d0 with next := d0.next - 1 }) = done d2 ∧
          find_path_ara_star fuel input W H start goal d1.eps
            { d2.ara with currentPathOnDraw := [] } = done (d1.lastPath, d1.ara)) ∧
      (¬ d0.next - 1 < 0 → d1 = { d0 with next := d0.next - 1 })) := by
  obtain ⟨h1, h2⟩ := ticks_schedule fuel input W H start goal n driver_init d passes h
  exact ⟨h1, (h2 (by norm_num [driver_init, eps_def])).1, tick_law fuel input W H start goal⟩

/-- Witness for the amended C16: 280 ticks on the grid of two Normal cells, start `(0,0)`,
goal `(1,0)`; ten passes, the ninth with 1/2, the tenth with 9/2 again. -/
theorem driver_epsilon_schedule_witness :
    List.Chain (fun e1 e2 => (e1 < 1 → e2 = eps_def - eps_step) ∧
      (1 ≤ e1 → e2 = e1 - eps_step ∨ e2 = eps_def - eps_step)) eps_def
      [9 / 2, 4, 7 / 2, 3, 5 / 2, 2, 3 / 2, 1, 1 / 2, 9 / 2] ∧
    (∀ e ∈ ([9 / 2, 4, 7 / 2, 3, 5 / 2, 2, 3 / 2, 1, 1 / 2, 9 / 2] : List ℚ),
      1 / 2 ≤ e ∧ e ≤ 9 / 2) ∧
    (∀ d0 d1, draw_nav_ara_data 3 [' ', ' '] 2 1 ⟨0, 0⟩ ⟨1, 0⟩ d0 = done d1 →
      (d0.next - 1 < 0 →
        d1.next = 30 ∧
        d1.eps =
          (if d0.eps < 1 ∨ d0.ara.openListAra = [] then eps_def else d0.eps) - eps_step ∧
        ∃ d2,
          (if d0.eps < 1 ∨ d0.ara.openListAra = [] then
              session_reset 2 1 ⟨0, 0⟩ { d0 with next := d0.next - 1 }
            else done { d0 with next := d0.next - 1 }) = done d2 ∧
          find_path_ara_star 3 [' ', ' '] 2 1 ⟨0, 0⟩ ⟨1, 0⟩ d1.eps
            { d2.ara with currentPathOnDraw := [] } = done (d1.lastPath, d1.ara)) ∧
      (¬ d0.next - 1 < 0 → d1 = { d0 with next := d0.next - 1 })) :=
  driver_epsilon_schedule 3 [' ', ' '] 2 1 ⟨0, 0⟩ ⟨1, 0⟩ 280
    [9 / 2, 4, 7 / 2, 3, 5 / 2, 2, 3 / 2, 1, 1 / 2, 9 / 2] _ two_cells_run

/-- C17, failing input.  On the 2 x 5 grid with rows `"o "`, `"o "`, `" o"`, `"# "`, `" #"`,
start `(0,0)` and goal `(0,4)`, the first pass of a session (epsilon 9/2, from the reset
state) returns the empty vector with the open list empty and `nextIter = [(0,2)]`; the
reset block that the driver then runs leaves `nextIter = [(0,2)]`, not empty. -/
theorem reset_keeps_stale_next :
    ∃ (st : AraState) (d : DriverState),
      find_path_ara_star 11 "o o  o#  #".toList 2 5 ⟨0, 0⟩ ⟨0, 4⟩ (eps_def - eps_step)
        (ara_reset_state 2 5 ⟨0, 0⟩) = done ([], st) ∧
      st.openListAra = [] ∧
      session_reset 2 5 ⟨0, 0⟩ { eps := eps_def - eps_step, next := -1, lastPath := [], ara := st }
        = done d ∧
      d.ara.nextIter = [⟨0, 2⟩] ∧
      d.ara.openListAra = [⟨0, 0⟩] ∧
      d.ara.gScoreAra = (ara_reset_state 2 5 ⟨0, 0⟩).gScoreAra ∧
      d.ara.prevPath = (ara_reset_state 2 5 ⟨0, 0⟩).prevPath := by
  rw [eps_first]
  refine ⟨{ gScoreAra := [some 0, some 1, some 10, some 2, some 11, some 12, none, some 13,
                          none, none],
            prevPath := [sentinel, ⟨0, 0⟩, ⟨0, 0⟩, ⟨1, 0⟩, ⟨0, 1⟩, ⟨1, 1⟩, sentinel, ⟨1, 2⟩,
                         sentinel, sentinel],
            openListAra := [], nextIter := [⟨0, 2⟩],
            currentPathOnDraw := [⟨0, 0⟩, ⟨1, 0⟩, ⟨1, 1⟩, ⟨1, 2⟩, ⟨1, 3⟩, ⟨0, 2⟩, ⟨0, 1⟩] },
    _, ?_, rfl, rfl, rfl, rfl, ?_, ?_⟩
  · decide
  · decide
  · decide

/-- C18.  Whatever the globals `st` before the call, a call of `find_path_ara_star` that
returns either returns the empty vector (start out of bounds, or open list exhausted) or
ends by convergence: after zero or more iterations that pop a member (`AraPops`, starting
with an empty closed list) the globals are `stm`, the open list is not empty and its best
member `cur` has an f-score not below that of the goal.  In the second case the globals on
return are `ara_fold_next stm`: `nextIter` is empty, g-scores and predecessors are those of
`stm`, every member of `stm.nextIter` and every member of `stm.openListAra` is in the open
list, the open list has no other members, and it has no duplicates if the open list had
none when the call began. -/
theorem ara_converged_call_folds_next (fuel : Nat) (input : List Char) (W H : Nat)
    (start goal : Position) (epsilon : ℚ) (st st' : AraState) (res : List Position)
    (h : find_path_ara_star fuel input W H start goal epsilon st = done (res, st')) :
    (res = [] ∧ (outOfBounds W H start ∨ st'.openListAra = [])) ∨
    (res ≠ [] ∧ ∃ (stm : AraState) (clm : List Position) (k : Nat) (cur : Position)
        (fGoal fBest : FScore),
      AraPops input W H goal epsilon st [] stm clm ∧
      stm.openListAra ≠ [] ∧
      bestIndex (fLt epsilon) (ara_getF W goal stm) stm.openListAra = done k ∧
      vget stm.openListAra k = done cur ∧
      ara_getF W goal stm goal = done fGoal ∧ ara_getF W goal stm cur = done fBest ∧
      fLt epsilon fBest fGoal = false ∧
      st' = ara_fold_next stm ∧
      st'.nextIter = [] ∧
      st'.gScoreAra = stm.gScoreAra ∧ st'.prevPath = stm.prevPath ∧
      (∀ q ∈ stm.nextIter, q ∈ st'.openListAra) ∧
      (∀ q ∈ stm.openListAra, q ∈ st'.openListAra) ∧
      (∀ q ∈ st'.openListAra, q ∈ stm.openListAra ∨ q ∈ stm.nextIter) ∧
      (st.openListAra.Nodup → st'.openListAra.Nodup)) := by
  unfold find_path_ara_star at h
  split at h
  · rename_i hs
    have := done_inj h
    simp only [Prod.mk.injEq] at this
    exact Or.inl ⟨this.1.symm, Or.inl hs⟩
  · rcases ara_loop_converged goal epsilon fuel fuel st [] res st' h with ⟨h1, h2⟩ |
      ⟨hne, stm, clm, k, cur, fGoal, fBest, j0, j1, j2, j3, j4, j5, j6, j7, _, j9⟩
    · exact Or.inl ⟨h1, Or.inr h2⟩
    · right
      subst j7
      refine ⟨hne, stm, clm, k, cur, fGoal, fBest, j0, j1, j2, j3, j4, j5, j6, rfl, rfl, rfl,
        rfl, ?_, ?_, ?_, ?_⟩
      · exact fun q hq => (mem_fold_next _ _ _).mpr (Or.inr hq)
      · exact fun q hq => (mem_fold_next _ _ _).mpr (Or.inl hq)
      · exact fun q hq => (mem_fold_next _ _ _).mp hq
      · exact fun hn => nodup_fold_next _ _ (j9 hn)

/-- Witness for C18: the 2 x 4 grid with rows `"  "`, `"o "`, `" o"`, `"o "`, start `(0,0)`,
goal `(0,3)`, epsilon 5, from the reset state.  The call pops seven cells; `(0,2)` is
improved after it was closed, so that at convergence the open list is `[(0,3)]` and
`nextIter` is `[(0,2)]`; on return the open list is `[(0,3), (0,2)]`. -/
theorem ara_converged_call_folds_next_witness :
    (([⟨0, 0⟩, ⟨0, 1⟩, ⟨0, 2⟩, ⟨0, 3⟩] : List Position) = [] ∧
      (outOfBounds 2 4 (⟨0, 0⟩ : Position) ∨ ([⟨0, 3⟩, ⟨0, 2⟩] : List Position) = [])) ∨
    (([⟨0, 0⟩, ⟨0, 1⟩, ⟨0, 2⟩, ⟨0, 3⟩] : List Position) ≠ [] ∧
      ∃ (stm : AraState) (clm : List Position) (k : Nat) (cur : Position)
        (fGoal fBest : FScore),
      AraPops "  o  oo ".toList 2 4 ⟨0, 3⟩ 5 (ara_reset_state 2 4 ⟨0, 0⟩) [] stm clm ∧
      stm.openListAra ≠ [] ∧
      bestIndex (fLt 5) (ara_getF 2 ⟨0, 3⟩ stm) stm.openListAra = done k ∧
      vget stm.openListAra k = done cur ∧
      ara_getF 2 ⟨0, 3⟩ stm ⟨0, 3⟩ = done fGoal ∧ ara_getF 2 ⟨0, 3⟩ stm cur = done fBest ∧
      fLt 5 fBest fGoal = false ∧
      ({ gScoreAra := [some 0, some 1, some 10, some 2, some 11, some 12, some 23, some 13],
         prevPath := [sentinel, ⟨0, 0⟩, ⟨0, 0⟩, ⟨1, 0⟩, ⟨0, 1⟩, ⟨1, 1⟩, ⟨0, 2⟩, ⟨1, 2⟩],
         openListAra := [⟨0, 3⟩, ⟨0, 2⟩], nextIter := [],
         currentPathOnDraw := [⟨0, 0⟩, ⟨1, 0⟩, ⟨1, 1⟩, ⟨1, 2⟩, ⟨0, 2⟩, ⟨1, 3⟩, ⟨0, 1⟩] }
        : AraState) = ara_fold_next stm ∧
      ([] : List Position) = [] ∧
      [some 0, some 1, some 10, some 2, some 11, some 12, some 23, some 13] =
        stm.gScoreAra ∧
      [sentinel, ⟨0, 0⟩, ⟨0, 0⟩, ⟨1, 0⟩, ⟨0, 1⟩, ⟨1, 1⟩, ⟨0, 2⟩, ⟨1, 2⟩] = stm.prevPath ∧
      (∀ q ∈ stm.nextIter, q ∈ ([⟨0, 3⟩, ⟨0, 2⟩] : List Position)) ∧
      (∀ q ∈ stm.openListAra, q ∈ ([⟨0, 3⟩, ⟨0, 2⟩] : List Position)) ∧
      (∀ q ∈ ([⟨0, 3⟩, ⟨0, 2⟩] : List Position), q ∈ stm.openListAra ∨ q ∈ stm.nextIter) ∧
      ((ara_reset_state 2 4 ⟨0, 0⟩).openListAra.Nodup →
        ([⟨0, 3⟩, ⟨0, 2⟩] : List Position).Nodup)) :=
  ara_converged_call_folds_next 9 "  o  oo ".toList 2 4 ⟨0, 0⟩ ⟨0, 3⟩ 5
    (ara_reset_state 2 4 ⟨0, 0⟩)
    { gScoreAra := [some 0, some 1, some 10, some 2, some 11, some 12, some 23, some 13],
      prevPath := [sentinel, ⟨0, 0⟩, ⟨0, 0⟩, ⟨1, 0⟩, ⟨0, 1⟩, ⟨1, 1⟩, ⟨0, 2⟩, ⟨1, 2⟩],
      openListAra := [⟨0, 3⟩, ⟨0, 2⟩], nextIter := [],
      currentPathOnDraw := [⟨0, 0⟩, ⟨1, 0⟩, ⟨1, 1⟩, ⟨1, 2⟩, ⟨0, 2⟩, ⟨1, 3⟩, ⟨0, 1⟩] }
    [⟨0, 0⟩, ⟨0, 1⟩, ⟨0, 2⟩, ⟨0, 3⟩] (by decide)

/-- C19.  The scan `bestIndex` that `find_path_a_star` runs on the scores stored in
`fScore` and `find_path_ara_star` on the scores `getF(p)`, with the test
`score < bestScore` left abstract: `lt` is any comparison that decides a linear order
`val` on scores, such as the order of the `float` values the source compares, or the order
of their exact values (`fLt`).  On a non-empty open list all of whose members have a
readable score, the scan returns the index of a member whose score is at most that of
every member and strictly below that of every member at a smaller index: the first member
that attains the minimum. -/
theorem scan_extracts_first_minimum {β : Type} [LinearOrder β] (val : FScore → β)
    (lt : FScore → FScore → Bool) (hlt : ∀ a b, lt a b = true ↔ val a < val b)
    (W : Nat) (goal : Position) (sa : AStarState) (st : AraState)
    (hne1 : sa.openList ≠ [])
    (hF1 : ∀ p ∈ sa.openList, ∃ s, vget sa.f (coord_to_idx p.x p.y W) = done s)
    (hne2 : st.openListAra ≠ [])
    (hF2 : ∀ p ∈ st.openListAra, ∃ s, ara_getF W goal st p = done s) :
    (∃ k pk s,
      bestIndex lt (fun p => vget sa.f (coord_to_idx p.x p.y W)) sa.openList = done k ∧
      vget sa.openList k = done pk ∧ vget sa.f (coord_to_idx pk.x pk.y W) = done s ∧
      (∀ p ∈ sa.openList, ∀ sp, vget sa.f (coord_to_idx p.x p.y W) = done sp →
        val s ≤ val sp) ∧
      (∀ j p sp, j < k → sa.openList[j]? = some p →
        vget sa.f (coord_to_idx p.x p.y W) = done sp → val s < val sp)) ∧
    (∃ k pk s,
      bestIndex lt (ara_getF W goal st) st.openListAra = done k ∧
      vget st.openListAra k = done pk ∧ ara_getF W goal st pk = done s ∧
      (∀ p ∈ st.openListAra, ∀ sp, ara_getF W goal st p = done sp → val s ≤ val sp) ∧
      (∀ j p sp, j < k → st.openListAra[j]? = some p →
        ara_getF W goal st p = done sp → val s < val sp)) :=
  ⟨scan_first_min val lt hlt (fun p => vget sa.f (coord_to_idx p.x p.y W)) sa.openList
      hne1 hF1,
   scan_first_min val lt hlt (ara_getF W goal st) st.openListAra hne2 hF2⟩

/-- Witness for C19, with a coarse reading of the scores (`g + d`, the float maximum as
1000) under which the first two of three open members tie: the scan returns index 0 in
both functions. -/
theorem scan_extracts_first_minimum_witness :
    ((∃ k pk s,
      bestIndex (fun a b => decide (Option.elim a 1000 (fun x => x.1 + x.2) <
          Option.elim b 1000 (fun x => x.1 + x.2)))
        (fun p => vget [some (3, 4), some (5, 2), some (9, 9)] (coord_to_idx p.x p.y 3))
        [⟨1, 0⟩, ⟨0, 0⟩, ⟨2, 0⟩] = done k ∧
      vget [(⟨1, 0⟩ : Position), ⟨0, 0⟩, ⟨2, 0⟩] k = done pk ∧
      vget [some (3, 4), some (5, 2), some (9, 9)] (coord_to_idx pk.x pk.y 3) = done s ∧
      (∀ p ∈ [(⟨1, 0⟩ : Position), ⟨0, 0⟩, ⟨2, 0⟩], ∀ sp,
        vget [some (3, 4), some (5, 2), some (9, 9)] (coord_to_idx p.x p.y 3) = done sp →
        Option.elim s 1000 (fun x => x.1 + x.2) ≤ Option.elim sp 1000 (fun x => x.1 + x.2)) ∧
      (∀ j p sp, j < k → [(⟨1, 0⟩ : Position), ⟨0, 0⟩, ⟨2, 0⟩][j]? = some p →
        vget [some (3, 4), some (5, 2), some (9, 9)] (coord_to_idx p.x p.y 3) = done sp →
        Option.elim s 1000 (fun x => x.1 + x.2) <
          Option.elim sp 1000 (fun x => x.1 + x.2))) ∧
    bestIndex (fun a b => decide (Option.elim a 1000 (fun x => x.1 + x.2) <
        Option.elim b 1000 (fun x => x.1 + x.2)))
      (fun p => vget [some (3, 4), some (5, 2), some (9, 9)] (coord_to_idx p.x p.y 3))
      [⟨1, 0⟩, ⟨0, 0⟩, ⟨2, 0⟩] = done 0) ∧
    bestIndex (fun a b => decide (Option.elim a 1000 (fun x => x.1 + x.2) <
        Option.elim b 1000 (fun x => x.1 + x.2)))
      (ara_getF 3 ⟨0, 1⟩
        { gScoreAra := [some 3, some 2, some 5], prevPath := [],
          openListAra := [⟨1, 0⟩, ⟨0, 0⟩, ⟨2, 0⟩], nextIter := [],
          currentPathOnDraw := [] })
      [⟨1, 0⟩, ⟨0, 0⟩, ⟨2, 0⟩] = done 0 :=
  ⟨⟨(scan_extracts_first_minimum (fun s : FScore => Option.elim s 1000 (fun x => x.1 + x.2))
      (fun a b => decide (Option.elim a 1000 (fun x => x.1 + x.2) <
        Option.elim b 1000 (fun x => x.1 + x.2)))
      (fun _ _ => decide_eq_true_iff) 3 ⟨0, 1⟩
      { g := [], f := [some (3, 4), some (5, 2), some (9, 9)], prev := [],
        openList := [⟨1, 0⟩, ⟨0, 0⟩, ⟨2, 0⟩], closedList := [] }
      { gScoreAra := [some 3, some 2, some 5], prevPath := [],
        openListAra := [⟨1, 0⟩, ⟨0, 0⟩, ⟨2, 0⟩], nextIter := [], currentPathOnDraw := [] }
      (by decide)
      (by intro p hp; simp at hp; rcases hp with h | h | h <;> subst h <;> exact ⟨_, rfl⟩)
      (by decide)
      (by intro p hp; simp at hp; rcases hp with h | h | h <;> subst h <;> exact ⟨_, rfl⟩)).1,
    by decide⟩, by decide⟩

end PathSearch
